import Mathlib

/-!
# Verification of the velocity-cache core against its specification

This file shallowly embeds the parts of the `bit2swaz/velocity-cache`
repository (Go) that the frozen claims C1..C10 are about, and settles each
claim against the embedding.

The embedding conventions:
* Go strings are Lean `String`s; byte slices are `List Nat` (each < 256).
* `crypto/sha256` + `encoding/hex` is embedded as an executable SHA-256
  over byte lists (`sha256Bytes`) with hex rendering (`bytesToHex`).
* Filesystem and HTTP side effects are made explicit: functions take the
  results of the I/O they perform as parameters (e.g. the process
  environment, the bytes of input files, the storage driver's answers)
  and return the actions they would perform as explicit traces.
-/

set_option maxRecDepth 100000

namespace VelocityCache

/-! ## SHA-256 (crypto/sha256), executable over byte lists -/

/-- 32-bit truncation. -/
def m32 (x : Nat) : Nat := x % 4294967296

/-- 32-bit right rotation. -/
def rotr (n x : Nat) : Nat := m32 ((x >>> n) ||| (x <<< (32 - n)))

/-- SHA-256 round constants. -/
def sha256K : List Nat :=
  [1116352408, 1899447441, 3049323471, 3921009573, 961987163, 1508970993,
   2453635748, 2870763221, 3624381080, 310598401, 607225278, 1426881987,
   1925078388, 2162078206, 2614888103, 3248222580, 3835390401, 4022224774,
   264347078, 604807628, 770255983, 1249150122, 1555081692, 1996064986,
   2554220882, 2821834349, 2952996808, 3210313671, 3336571891, 3584528711,
   113926993, 338241895, 666307205, 773529912, 1294757372, 1396182291,
   1695183700, 1986661051, 2177026350, 2456956037, 2730485921, 2820302411,
   3259730800, 3345764771, 3516065817, 3600352804, 4094571909, 275423344,
   430227734, 506948616, 659060556, 883997877, 958139571, 1322822218,
   1537002063, 1747873779, 1955562222, 2024104815, 2227730452, 2361852424,
   2428436474, 2756734187, 3204031479, 3329325298]

/-- SHA-256 initial hash state. -/
def sha256H0 : List Nat :=
  [1779033703, 3144134277, 1013904242, 2773480762,
   1359893119, 2600822924, 528734635, 1541459225]

/-- `n` bytes of `v`, most significant first. -/
def beBytes : Nat → Nat → List Nat
  | 0, _ => []
  | k + 1, v => beBytes k (v / 256) ++ [v % 256]

/-- Merkle–Damgård padding: append `0x80`, zeros and the 64-bit big-endian bit length. -/
def sha256Pad (msg : List Nat) : List Nat :=
  let len := msg.length
  let zeros := (119 - len % 64) % 64
  msg ++ [0x80] ++ List.replicate zeros 0 ++ beBytes 8 (len * 8)

/-- Group bytes into big-endian 32-bit words. -/
def toWords : List Nat → List Nat
  | a :: b :: c :: d :: rest => (a * 16777216 + b * 65536 + c * 256 + d) :: toWords rest
  | _ => []

/-- Split a list into chunks of 64 elements (structural recursion on a fuel
bound, so that the kernel can evaluate it; the fuel `l.length` always
suffices since each step consumes at least one element). -/
def chunks64Go : Nat → List Nat → List (List Nat)
  | 0, _ => []
  | _, [] => []
  | fuel + 1, l => l.take 64 :: chunks64Go fuel (l.drop 64)

/-- Split a list into chunks of 64 elements. -/
def chunks64 (l : List Nat) : List (List Nat) := chunks64Go l.length l

def ssig0 (x : Nat) : Nat := (rotr 7 x) ^^^ (rotr 18 x) ^^^ (x >>> 3)
def ssig1 (x : Nat) : Nat := (rotr 17 x) ^^^ (rotr 19 x) ^^^ (x >>> 10)
def bsig0 (x : Nat) : Nat := (rotr 2 x) ^^^ (rotr 13 x) ^^^ (rotr 22 x)
def bsig1 (x : Nat) : Nat := (rotr 6 x) ^^^ (rotr 11 x) ^^^ (rotr 25 x)
def chf (x y z : Nat) : Nat := (x &&& y) ^^^ ((x ^^^ 4294967295) &&& z)
def majf (x y z : Nat) : Nat := (x &&& y) ^^^ (x &&& z) ^^^ (y &&& z)

/-- One step of the SHA-256 message-schedule extension. -/
def extendStep (w : List Nat) : List Nat :=
  let n := w.length
  w ++ [m32 (w.getD (n - 16) 0 + ssig0 (w.getD (n - 15) 0) +
             w.getD (n - 7) 0 + ssig1 (w.getD (n - 2) 0))]

/-- Extend 16 schedule words to 64. -/
def extendTo64 (w : List Nat) : List Nat :=
  (List.range 48).foldl (fun acc _ => extendStep acc) w

/-- One SHA-256 compression round. -/
def sha256Round (s : List Nat) (k w : Nat) : List Nat :=
  match s with
  | [a, b, c, d, e, f, g, h] =>
    let t1 := m32 (h + bsig1 e + chf e f g + k + w)
    let t2 := m32 (bsig0 a + majf a b c)
    [m32 (t1 + t2), a, b, c, m32 (d + t1), e, f, g]
  | _ => s

/-- Process one 64-byte block. -/
def processBlock (h : List Nat) (block : List Nat) : List Nat :=
  let w := extendTo64 (toWords block)
  let s := (sha256K.zip w).foldl (fun st kw => sha256Round st kw.1 kw.2) h
  (h.zip s).map (fun p => m32 (p.1 + p.2))

/-- SHA-256 of a byte list, as the list of eight 32-bit state words. -/
def sha256Bytes (msg : List Nat) : List Nat :=
  (chunks64 (sha256Pad msg)).foldl processBlock sha256H0

/-- Lowercase hex digit. -/
def hexDigit (n : Nat) : Char := if n < 10 then Char.ofNat (48 + n) else Char.ofNat (87 + n)

/-- `n` lowercase hex digits of `v`, most significant first. -/
def toHexDigits : Nat → Nat → List Char
  | 0, _ => []
  | k + 1, v => toHexDigits k (v / 16) ++ [hexDigit (v % 16)]

/-- `hex.EncodeToString` over 32-bit words. -/
def wordsToHex (ws : List Nat) : String := String.mk ((ws.map (toHexDigits 8)).flatten)

/-- UTF-8 encoding of one code point (Go's `[]byte(string)` per rune). -/
def utf8Encode (c : Nat) : List Nat :=
  if c < 128 then [c]
  else if c < 2048 then [192 + c / 64, 128 + c % 64]
  else if c < 65536 then [224 + c / 4096, 128 + (c / 64) % 64, 128 + c % 64]
  else [240 + c / 262144, 128 + (c / 4096) % 64, 128 + (c / 64) % 64, 128 + c % 64]

/-- Go's `[]byte(s)`: the UTF-8 bytes of `s`. -/
def strBytes (s : String) : List Nat := (s.data.map (fun c => utf8Encode c.toNat)).flatten

/-- `hashString` from `internal/engine/hasher.go`:
`hex.EncodeToString(sha256.Sum256([]byte(value)))`. -/
def hashString (value : String) : String := wordsToHex (sha256Bytes (strBytes value))

/-! ## C1: task-node cache key derivation (internal/engine/hasher.go) -/

/-- Go's `strings.Join(elems, sep)`. -/
def joinSep (sep : String) : List String → String
  | [] => ""
  | [x] => x
  | x :: xs => x ++ sep ++ joinSep sep xs

/-- Go's byte-wise string comparison `a < b` (code-point order here, equal
to Go's byte order on the ASCII strings involved). -/
def ltChars : List Char → List Char → Bool
  | [], [] => false
  | [], _ :: _ => true
  | _ :: _, [] => false
  | a :: as, b :: bs =>
    if a.toNat < b.toNat then true
    else if b.toNat < a.toNat then false
    else ltChars as bs

/-- `a < b` on strings, Go style. -/
def ltS (a b : String) : Bool := ltChars a.data b.data

/-- `a ≤ b` on strings, Go style. -/
def leS (a b : String) : Bool := !ltS b a

/-- Insert into a lexicographically sorted list of strings. -/
def insertSorted (x : String) : List String → List String
  | [] => [x]
  | y :: ys => if leS x y then x :: y :: ys else y :: insertSorted x ys

/-- Go's `sort.Strings`: sort lexicographically (insertion sort; the Go byte
order agrees with `String` order on the ASCII strings involved here). -/
def sortStrings (l : List String) : List String := l.foldr insertSorted []

/-- `config.TaskConfig` (internal/config/config.go). -/
structure TaskConfig where
  command : String
  dependsOn : List String
  inputs : List String
  outputs : List String
  envKeys : List String
deriving Repr, DecidableEq

/-- `hashFile`'s result for a file with the given byte contents:
hex of the SHA-256 of the bytes. -/
def hashFileBytes (contents : List Nat) : String := wordsToHex (sha256Bytes contents)

/-- `computeLocalHash` from `internal/engine/hasher.go`. The two I/O inputs
are passed explicitly: `getenv` is the process environment (`os.Getenv`,
empty string when unset) and `files` is the list produced by
`collectInputFiles` (sorted, deduplicated resolved paths) paired with each
file's byte contents (what `hashFiles` reads). -/
def computeLocalHash (cfg : TaskConfig) (getenv : String → String)
    (files : List (String × List Nat)) : String :=
  let envHash :=
    if cfg.envKeys.length > 0 then
      hashString (joinSep "|"
        (sortStrings (cfg.envKeys.map (fun k => k ++ "=" ++ getenv k))))
    else ""
  let commandHash := hashString cfg.command
  let filesHash :=
    if files.length > 0 then
      hashString (joinSep "|" (files.map (fun f => f.1 ++ ":" ++ hashFileBytes f.2)))
    else ""
  let parts :=
    (if envHash ≠ "" then ["env:" ++ envHash] else []) ++
      ["cmd:" ++ commandHash] ++
      (if filesHash ≠ "" then ["files:" ++ filesHash] else [])
  joinSep "|" parts

/-- `GenerateCacheKey` from `internal/engine/hasher.go`: the local hash,
followed (when dep keys exist) by the sorted dep keys joined by `|`, all
joined by `|` and hashed. -/
def generateCacheKey (cfg : TaskConfig) (depCacheKeys : List String)
    (getenv : String → String) (files : List (String × List Nat)) : String :=
  let localHash := computeLocalHash cfg getenv files
  let parts :=
    [localHash] ++
      (if depCacheKeys.length > 0 then [joinSep "|" (sortStrings depCacheKeys)] else [])
  hashString (joinSep "|" parts)

/-- `GenerateTaskNodeCacheKey` from `internal/engine/hasher.go`, for a node
whose `ID` field is the (non-blank) identity string `identifier`; the code
then computes `hashString("task:" + identifier + ":" + baseKey)` where
`baseKey` is `GenerateCacheKey`'s result. -/
def generateTaskNodeCacheKey (identifier : String) (cfg : TaskConfig)
    (depCacheKeys : List String) (getenv : String → String)
    (files : List (String × List Nat)) : String :=
  hashString ("task:" ++ (identifier ++ ":" ++ generateCacheKey cfg depCacheKeys getenv files))

/-- The key formula as claim C1 states it (spec §4.1): ONE SHA-256 over the
flattened string `"task:" ++ I ++ ":" ++ L ++ "|" ++ depSummary`, where the
dep summary (with its preceding `|`) is omitted when there are no upstream
keys. -/
def specTaskNodeCacheKey (identifier : String) (localKey : String)
    (depCacheKeys : List String) : String :=
  if depCacheKeys.length > 0 then
    hashString ("task:" ++ identifier ++ ":" ++ localKey ++ "|" ++
      joinSep "|" (sortStrings depCacheKeys))
  else
    hashString ("task:" ++ identifier ++ ":" ++ localKey)

/-- A concrete task configuration: command `go build`, nothing else. -/
def c1Cfg : TaskConfig := ⟨"go build", [], [], [], []⟩

/-! ## Lexical path algebra: Go `path.Clean`, `filepath.Join`, `filepath.Base`
(on Unix, `filepath` functions coincide with the slash-separated `path`
functions). -/

/-- Split a character list on `/` (`acc` holds the current field reversed). -/
def splitSlashChars (acc : List Char) : List Char → List (List Char)
  | [] => [acc.reverse]
  | c :: rest =>
    if c = '/' then acc.reverse :: splitSlashChars [] rest
    else splitSlashChars (c :: acc) rest

/-- `strings.Split(p, "/")` (defined over the character list so that the
kernel can evaluate it). -/
def splitSlash (s : String) : List String :=
  (splitSlashChars [] s.data).map String.mk

/-- `strings.HasPrefix` over character lists. -/
def hasPrefixChars : List Char → List Char → Bool
  | [], _ => true
  | _ :: _, [] => false
  | p :: ps, c :: cs => p = c && hasPrefixChars ps cs

/-- `strings.HasPrefix(s, pre)`. -/
def hasPrefixS (s pre : String) : Bool := hasPrefixChars pre.data s.data

/-- Core of Go `path.Clean`: process the `/`-separated elements, dropping
empty and `.` elements and resolving `..` against preceding elements (a
leading `..` is kept for relative paths and dropped for rooted ones).
`acc` holds processed elements in reverse. -/
def cleanSegsAux (rooted : Bool) (acc : List String) : List String → List String
  | [] => acc.reverse
  | s :: rest =>
    if s = "" ∨ s = "." then cleanSegsAux rooted acc rest
    else if s = ".." then
      match acc with
      | [] => if rooted then cleanSegsAux rooted [] rest
              else cleanSegsAux rooted [".."] rest
      | a :: as =>
        if a = ".." then cleanSegsAux rooted (".." :: acc) rest
        else cleanSegsAux rooted as rest
    else cleanSegsAux rooted (s :: acc) rest

/-- The cleaned element list of a path. -/
def cleanSegs (rooted : Bool) (segs : List String) : List String :=
  cleanSegsAux rooted [] segs

/-- Go `path.Clean` (= `filepath.Clean` on Unix). -/
def pathClean (p : String) : String :=
  if p = "" then "." else
  let rooted := hasPrefixS p "/"
  let segs := cleanSegs rooted (splitSlash p)
  if rooted then "/" ++ joinSep "/" segs
  else if segs = [] then "." else joinSep "/" segs

/-- Go `filepath.Join(a, b)` on Unix: join the elements starting from the
first non-empty one and clean the result. -/
def filepathJoin (a b : String) : String :=
  if a ≠ "" then pathClean (a ++ "/" ++ b)
  else if b ≠ "" then pathClean b
  else ""

/-- Go `filepath.Base` on Unix. -/
def filepathBase (p : String) : String :=
  if p = "" then "." else
  match ((splitSlash p).filter (fun s => s ≠ "")).getLast? with
  | some s => s
  | none => if hasPrefixS p "/" then "/" else "."

/-- The proper segments of a cleaned path (none for `.` and `/`). -/
def pathSegs (p : String) : List String :=
  (splitSlash p).filter (fun s => s ≠ "" ∧ s ≠ ".")

/-- `child` lies under (or equals) `root`: same rootedness and `root`'s
segments are a prefix of `child`'s segments. -/
def isUnder (root child : String) : Bool :=
  (hasPrefixS root "/" == hasPrefixS child "/") &&
    (pathSegs root).isPrefixOf (pathSegs child)

/-! ## Gateway models (pkg/api/handlers.go, pkg/api/proxy.go) -/

/-- Assoc-list lookup (string-keyed map). -/
def lookupA {α : Type} (k : String) : List (String × α) → Option α
  | [] => none
  | (k', v) :: rest => if k' = k then some v else lookupA k rest

/-- Assoc-list insert-or-replace. -/
def setA {α : Type} (k : String) (v : α) : List (String × α) → List (String × α)
  | [] => [(k, v)]
  | (k', v') :: rest => if k' = k then (k, v) :: rest else (k', v') :: setA k v rest

/-- `NegotiateResponse` (pkg/api/handlers.go). -/
structure NegotiateResponse where
  status : String
  url : String
deriving Repr, DecidableEq

/-- A call the gateway makes on the storage driver. -/
inductive DriverCall where
  | existsQ (hash : String)
  | uploadURL (hash : String)
  | downloadURL (hash : String)
deriving Repr, DecidableEq

/-- A `storage.Driver`'s behaviour as the negotiate handler observes it:
each operation's result and whether it errors, per hash. -/
structure DriverModel where
  existsRes : String → Bool
  existsErr : String → Bool
  uploadURLRes : String → String
  uploadURLErr : String → Bool
  downloadURLRes : String → String
  downloadURLErr : String → Bool

/-- `HandleNegotiate` (pkg/api/handlers.go lines 28-81). `body` is the
decoded request (`none` when `json.Decode` fails). Returns the HTTP
status, the JSON response when one is written, and the driver calls made,
in order. -/
def handleNegotiate (body : Option (String × String)) (d : DriverModel) :
    Nat × Option NegotiateResponse × List DriverCall :=
  match body with
  | none => (400, none, [])
  | some (hash, action) =>
    if action = "upload" then
      if d.existsErr hash then (500, none, [.existsQ hash])
      else if d.existsRes hash then (200, some ⟨"skipped", ""⟩, [.existsQ hash])
      else if d.uploadURLErr hash then (500, none, [.existsQ hash, .uploadURL hash])
      else (200, some ⟨"upload_needed", d.uploadURLRes hash⟩,
            [.existsQ hash, .uploadURL hash])
    else if action = "download" then
      if d.existsErr hash then (500, none, [.existsQ hash])
      else if !d.existsRes hash then (404, none, [.existsQ hash])
      else if d.downloadURLErr hash then (500, none, [.existsQ hash, .downloadURL hash])
      else (200, some ⟨"found", d.downloadURLRes hash⟩,
            [.existsQ hash, .downloadURL hash])
    else (400, none, [])

/-- `HandleProxyUpload` (pkg/api/proxy.go lines 15-51). Inputs: the
`VC_LOCAL_ROOT` value (`os.Getenv`, empty when unset), the `{key}` URL
parameter, the request body bytes, and the filesystem as a map from path
to bytes; `createFails` and `copyFails` stand for the error cases of
`os.Create` and `io.Copy`. Returns the HTTP status, the path passed to
`os.Create` (when reached) and the resulting filesystem; `os.Create`
truncates any existing file at the path. -/
def handleProxyUpload (root key : String) (body : List Nat)
    (fs : List (String × List Nat)) (createFails copyFails : Bool) :
    Nat × Option String × List (String × List Nat) :=
  if key = "" then (400, none, fs)
  else if root = "" then (500, none, fs)
  else
    let path := filepathJoin root key
    if createFails then (500, some path, fs)
    else if copyFails then (500, some path, setA path [] fs)
    else (200, some path, setA path body fs)

/-- `HandleProxyDownload` (pkg/api/proxy.go lines 55-91). Returns the HTTP
status, the path passed to `os.Open` (when reached) and the bytes served;
`openErr` stands for an `os.Open` failure other than not-exist. -/
def handleProxyDownload (root key : String) (fs : List (String × List Nat))
    (openErr : Bool) : Nat × Option String × Option (List Nat) :=
  if key = "" then (400, none, none)
  else if root = "" then (500, none, none)
  else
    let path := filepathJoin root key
    match lookupA path fs with
    | none => if openErr then (500, some path, none) else (404, some path, none)
    | some bytes => if openErr then (500, some path, none) else (200, some path, some bytes)

/-- A driver that holds no object and never errors. -/
def c4Driver : DriverModel :=
  ⟨fun _ => false, fun _ => false, fun _ => "put-url", fun _ => false,
   fun _ => "get-url", fun _ => false⟩

/-! ## Per-node executor flow (internal/commands/run.go, ExecuteTask) -/

/-- The observable operations `ExecuteTask` performs after the node's key is
derived (run.go lines 200-278), in order. -/
inductive ExecAction where
  | checkLocal
  | extractLocal
  | negotiate (action : String)
  | transferGet
  | saveLocal
  | extractRemote
  | execute
  | compress
  | transferPut
deriving Repr, DecidableEq

/-- The outcome of each I/O operation `ExecuteTask` may perform, supplied as
the environment of one node's run. `negotiateDownload`/`negotiateUpload`
are `none` when `RemoteClient.Negotiate` returns an error (it does so for
every non-200 response, including the 404 of a download miss), otherwise
the decoded response. `remoteExtractOk` is unused below because run.go
line 224 discards the extract error on the remote-hit path. -/
structure ExecEnv where
  remoteEnabled : Bool
  localCheckErr : Bool
  localFound : Bool
  localExtractOk : Bool
  negotiateDownload : Option NegotiateResponse
  transferGetOk : Bool
  remoteExtractOk : Bool
  executeOk : Bool
  negotiateUpload : Option NegotiateResponse
  transferPutOk : Bool

/-- Terminal state of the node: `ok` (Succeeded, key returned) or `failed`. -/
inductive ExecOutcome where
  | ok
  | failed
deriving Repr, DecidableEq

/-- Actions of the local probe (run.go step 3): `CheckLocal`, and — when a
regular archive was found — the extract attempt. -/
def preActions (env : ExecEnv) : List ExecAction :=
  if !env.localCheckErr && env.localFound then [.checkLocal, .extractLocal]
  else [.checkLocal]

/-- Actions of the remote download attempt (run.go step 4), and whether it
ended as a remote hit (in which case run.go also saves the downloaded
archive locally and extracts it, discarding both errors). -/
def dlActions (env : ExecEnv) : List ExecAction × Bool :=
  if env.remoteEnabled then
    match env.negotiateDownload with
    | some resp =>
      if resp.status = "found" then
        if env.transferGetOk then
          ([.negotiate "download", .transferGet, .saveLocal, .extractRemote], true)
        else
          ([.negotiate "download", .transferGet], false)
      else ([.negotiate "download"], false)
    | none => ([.negotiate "download"], false)
  else ([], false)

/-- Actions after a successful command (run.go step 6): upload negotiation
when remote is enabled (compress + local save + transfer only on
`upload_needed`), plain compress + local save when remote is disabled. -/
def upActions (env : ExecEnv) : List ExecAction :=
  if env.remoteEnabled then
    match env.negotiateUpload with
    | some resp =>
      if resp.status = "upload_needed" then
        [.negotiate "upload", .compress, .saveLocal, .transferPut]
      else
        [.negotiate "upload"]
    | none => [.negotiate "upload"]
  else [.compress, .saveLocal]

/-- `ExecuteTask`'s per-node control flow after dependency keys are
collected and the node's key is derived (run.go lines 200-278):
local probe, remote download negotiation, subprocess execution on a miss,
then upload negotiation (or plain local save when remote is disabled).
Returns the outcome and the ordered action trace. -/
def executeTaskStep (env : ExecEnv) : ExecOutcome × List ExecAction :=
  if (!env.localCheckErr && env.localFound) && env.localExtractOk then
    (.ok, [.checkLocal, .extractLocal])
  else if (dlActions env).2 then (.ok, preActions env ++ (dlActions env).1)
  else if !env.executeOk then
    (.failed, preActions env ++ (dlActions env).1 ++ [.execute])
  else (.ok, preActions env ++ (dlActions env).1 ++ [.execute] ++ upActions env)

/-- The environment of C7's counterexample: remote enabled, local miss,
download negotiation misses (404 → client error), the command exits 0, and
the upload negotiation answers `skipped`. -/
def c7Env : ExecEnv :=
  ⟨true, false, false, true, none, true, true, true, some ⟨"skipped", ""⟩, true⟩

/-- The environment of C8's counterexample: remote enabled, local miss,
download negotiation answers `found`, but the transfer fails; the command
then exits 0 and upload negotiation errors. -/
def c8Env : ExecEnv :=
  ⟨true, false, false, true, some ⟨"found", "get-url"⟩, false, true, true, none, true⟩

/-! ## Graph builder (internal/engine/graph.go) -/

/-- Go `strings.TrimSpace` (the inputs here are ASCII). -/
def isSpaceChar (c : Char) : Bool := c = ' ' || c = '\t' || c = '\n' || c = '\r'

/-- Go `strings.TrimSpace`. -/
def trimSpace (s : String) : String :=
  String.mk (((s.data.dropWhile isSpaceChar).reverse.dropWhile isSpaceChar).reverse)

/-- `Package` (internal/engine/packages.go): symbolic name, filesystem path,
and the names of its workspace-internal dependencies. The `InternalDeps`
pointer slice is resolved through the discovered-package map on demand
(graph.go lines 57-72), which `resolveDeps` below reproduces. -/
structure PackageM where
  name : String
  path : String
  internalDepNames : List String
deriving Repr, DecidableEq

/-- `TaskNode` as constructed by `BuildTaskGraph`: Go allocates a fresh node
per recursive call, recorded here by the allocation number `nid` (two
nodes with different `nid` are distinct Go pointers). The runtime fields
(`State`, `CacheKey`, `LastError`) are zero-valued at construction and the
`TaskConfig` is the pipeline entry for `taskName`, so neither is stored. -/
inductive TNode where
  | node (nid : Nat) (id : String) (pkgPath : String) (taskName : String)
      (deps : List TNode)
deriving Repr

def TNode.nid : TNode → Nat
  | .node n _ _ _ _ => n

def TNode.idOf : TNode → String
  | .node _ i _ _ _ => i

def TNode.depsOf : TNode → List TNode
  | .node _ _ _ _ d => d

/-- Resolve internal dependency names through the discovered package map
(graph.go lines 63-70; error for an unknown package name). -/
def resolveDeps (pkgs : List (String × PackageM)) : List String → Except String (List PackageM)
  | [] => .ok []
  | name :: rest =>
    match lookupA name pkgs with
    | none => .error ("depends on unknown package " ++ name)
    | some p =>
      match resolveDeps pkgs rest with
      | .error e => .error e
      | .ok ps => .ok (p :: ps)

/-- The `^task` inner loop of `BuildTaskGraph` (graph.go lines 95-105):
build a child per direct workspace dependency, deduplicating by child ID
against `seen` (children already attached to this parent). `recurse` is
the recursive `BuildTaskGraph` call; the counter advances even for a
discarded duplicate, as Go allocates before the `depSeen` check. -/
def buildTopoGo (recurse : String → PackageM → List String → Nat →
      Except String (TNode × Nat))
    (visiting : List String) (depTaskName : String) :
    List PackageM → Nat → List String → List TNode →
      Except String (Nat × List String × List TNode)
  | [], cnt, seen, acc => .ok (cnt, seen, acc)
  | p :: ps, cnt, seen, acc =>
    match recurse depTaskName p visiting cnt with
    | .error e => .error e
    | .ok (child, cnt') =>
      if seen.contains child.idOf then
        buildTopoGo recurse visiting depTaskName ps cnt' seen acc
      else
        buildTopoGo recurse visiting depTaskName ps cnt'
          (child.idOf :: seen) (acc ++ [child])

/-- The `depends_on` loop of `BuildTaskGraph` (graph.go lines 83-118):
trim each reference, skip blanks, expand `^task` over the resolved
workspace deps, recurse on a bare task in the same package, and
deduplicate children by ID via `seen`. -/
def buildDepsGo (recurse : String → PackageM → List String → Nat →
      Except String (TNode × Nat))
    (pkg : PackageM) (depPkgs : List PackageM) (visiting : List String) :
    List String → Nat → List String → List TNode →
      Except String (Nat × List String × List TNode)
  | [], cnt, seen, acc => .ok (cnt, seen, acc)
  | ref :: rest, cnt, seen, acc =>
    let depRef := trimSpace ref
    if depRef = "" then buildDepsGo recurse pkg depPkgs visiting rest cnt seen acc
    else if hasPrefixS depRef "^" then
      let depTaskName := String.mk (depRef.data.drop 1)
      if depTaskName = "" then .error ("dependency missing task name")
      else
        match buildTopoGo recurse visiting depTaskName depPkgs cnt seen acc with
        | .error e => .error e
        | .ok (cnt', seen', acc') =>
          buildDepsGo recurse pkg depPkgs visiting rest cnt' seen' acc'
    else
      match recurse depRef pkg visiting cnt with
      | .error e => .error e
      | .ok (child, cnt') =>
        if seen.contains child.idOf then
          buildDepsGo recurse pkg depPkgs visiting rest cnt' seen acc
        else
          buildDepsGo recurse pkg depPkgs visiting rest cnt'
            (child.idOf :: seen) (acc ++ [child])

/-- `BuildTaskGraph` (internal/engine/graph.go lines 25-121). The Go
recursion is bounded here by an explicit `fuel` that every recursive call
decreases; the Go original always terminates because `visiting` grows
along any path over finitely many identities, so a large enough fuel
reproduces it, and all theorems below hold for every fuel. The `visiting`
set models Go's map with its deferred delete: each child call sees exactly
the identities on the active recursion stack. `cnt` is the next allocation
number; the `nil`-argument guards of the Go code cannot arise here. -/
def buildTaskGraph : Nat → String → PackageM → List (String × PackageM) →
    List (String × TaskConfig) → List String → Nat → Except String (TNode × Nat)
  | 0, _, _, _, _, _, _ => .error "out of recursion fuel"
  | fuel + 1, taskName, pkg, pkgs, pipeline, visiting, cnt =>
    if (lookupA pkg.name pkgs).isNone then
      .error ("package " ++ pkg.name ++ " not found in discovered packages")
    else
      let nodeID := pkg.path ++ "#" ++ taskName
      if visiting.contains nodeID then
        .error ("detected cycle while building task graph at " ++ nodeID)
      else
        match lookupA taskName pipeline with
        | none => .error ("task " ++ taskName ++ " not defined in configuration")
        | some taskCfg =>
          match resolveDeps pkgs pkg.internalDepNames with
          | .error e => .error e
          | .ok depPkgs =>
            match
              buildDepsGo
                (fun t p v c => buildTaskGraph fuel t p pkgs pipeline v c)
                pkg depPkgs (nodeID :: visiting) taskCfg.dependsOn
                (cnt + 1) [] [] with
            | .error e => .error e
            | .ok (cnt', _, deps) =>
              .ok (.node cnt nodeID pkg.path taskName deps, cnt')

/-- All nodes of a task tree: the node itself and, recursively, every node
of its dependency subtrees. -/
def allNodes : TNode → List TNode
  | .node n i p t deps =>
    .node n i p t deps :: (deps.attach.map (fun d => allNodes d.1)).flatten
decreasing_by
  have := List.sizeOf_lt_of_mem d.2
  simp only [TNode.node.sizeOf_spec]
  omega

/-- A tree is well-deduplicated when every node's direct dependency list
holds pairwise-distinct identities. -/
def NodeOk (t : TNode) : Prop :=
  ∀ n ∈ allNodes t, ((TNode.depsOf n).map TNode.idOf).Nodup

/-- Invariant of the dependency loops: the accumulated children have
pairwise-distinct identities, all recorded in `seen`, and each child's
subtree is well-deduplicated. -/
def AccInv (seen : List String) (acc : List TNode) : Prop :=
  (acc.map TNode.idOf).Nodup ∧
  (∀ i ∈ acc.map TNode.idOf, i ∈ seen) ∧
  ∀ t ∈ acc, NodeOk t

/-- The four packages of the C6 diamond: `app` depends on `l1` and `l2`,
which both depend on `core`. -/
def c6Core : PackageM := ⟨"core", "libs/core", []⟩
def c6L1 : PackageM := ⟨"l1", "libs/l1", ["core"]⟩
def c6L2 : PackageM := ⟨"l2", "libs/l2", ["core"]⟩
def c6App : PackageM := ⟨"app", "apps/app", ["l1", "l2"]⟩

def c6Pkgs : List (String × PackageM) :=
  [("core", c6Core), ("l1", c6L1), ("l2", c6L2), ("app", c6App)]

/-- A pipeline with one task `build` that depends on `^build`. -/
def c6Pipeline : List (String × TaskConfig) :=
  [("build", ⟨"make", ["^build"], [], [], []⟩)]

/-- The graph `BuildTaskGraph` produces for `build` on `app`. -/
def c6Built : Option TNode :=
  match buildTaskGraph 10 "build" c6App c6Pkgs c6Pipeline [] 0 with
  | .ok (t, _) => some t
  | .error _ => none

/-! ## Archiver (internal/engine/archiver.go) -/

/-- A filesystem tree: a regular file with its byte contents, or a directory
with named children. Children are kept sorted strictly ascending by name —
the canonical representation of the unordered on-disk directory, matching
the lexical order in which `filepath.WalkDir` visits entries. Symlinks are
outside the modelled fragment. -/
inductive FsTree where
  | file (contents : List Nat)
  | dir (entries : List (String × FsTree))
deriving Repr

def FsTree.isDir : FsTree → Bool
  | .file _ => false
  | .dir _ => true

/-- A directory-entry name as a POSIX filesystem can hold it, restricted to
the separator-free names the archiver round-trips: nonempty, not `.` or
`..`, no `/` and no `\`. (A backslash IS legal in a POSIX name; see the C2
counterexample for what the archiver does to one.) -/
def ValidName (s : String) : Prop :=
  s ≠ "" ∧ s ≠ "." ∧ s ≠ ".." ∧
    s.data.contains '/' = false ∧ s.data.contains '\\' = false

/-- Canonical well-formed trees: children strictly ascending by name (hence
distinct) with valid names, recursively. -/
inductive TreeValid : FsTree → Prop where
  | file (c : List Nat) : TreeValid (.file c)
  | dir (es : List (String × FsTree))
      (hsorted : es.Chain' (fun a b => ltS a.1 b.1 = true))
      (hnames : ∀ e ∈ es, ValidName e.1)
      (hsub : ∀ e ∈ es, TreeValid e.2) : TreeValid (.dir es)

/-- Insert or replace a child in a sorted children list. -/
def insertChild (nm : String) (t : FsTree) :
    List (String × FsTree) → List (String × FsTree)
  | [] => [(nm, t)]
  | (n, u) :: rest =>
    if ltS nm n then (nm, t) :: (n, u) :: rest
    else if nm = n then (nm, t) :: rest
    else (n, u) :: insertChild nm t rest

/-- The subtree at a path (all ancestors must be directories). -/
def getNodeT : FsTree → List String → Option FsTree
  | t, [] => some t
  | .dir es, s :: rest =>
    match lookupA s es with
    | some child => getNodeT child rest
    | none => none
  | .file _, _ :: _ => none

/-- Replace the subtree at a path, creating missing intermediate
directories. (Specification device for the proofs; the code-facing
operations are `mkdirAllT` and `writeFileT` below.) -/
def setNodeT : FsTree → List String → FsTree → FsTree
  | _, [], u => u
  | .dir es, s :: rest, u =>
    (match lookupA s es with
     | some child => FsTree.dir (insertChild s (setNodeT child rest u) es)
     | none => FsTree.dir (insertChild s (setNodeT (.dir []) rest u) es))
  | .file c, _ :: _, _ => .file c

/-- `os.MkdirAll` on the model tree: create every missing directory along
the path; an existing directory is left as is, a file in the way is
`ENOTDIR`. -/
def mkdirAllT : FsTree → List String → Except String FsTree
  | t, [] => .ok t
  | .dir es, s :: rest =>
    (match lookupA s es with
     | some (.dir es') =>
       match mkdirAllT (.dir es') rest with
       | .error e => .error e
       | .ok sub => .ok (.dir (insertChild s sub es))
     | some (.file _) => .error "mkdir: not a directory"
     | none =>
       match mkdirAllT (.dir []) rest with
       | .error e => .error e
       | .ok sub => .ok (.dir (insertChild s sub es)))
  | .file _, _ :: _ => .error "mkdir: not a directory"

/-- `os.MkdirAll(filepath.Dir(target))` followed by
`os.OpenFile(target, O_CREATE|O_TRUNC|O_WRONLY, …)` plus the copy: create
the parent directories, then create or truncate the file; a directory
already sitting at the target is `EISDIR`. -/
def writeFileT : FsTree → List String → List Nat → Except String FsTree
  | _, [], _ => .error "write: empty path"
  | .dir es, [nm], c =>
    (match lookupA nm es with
     | some (.dir _) => .error "write: is a directory"
     | _ => .ok (.dir (insertChild nm (.file c) es)))
  | .dir es, s :: rest, c =>
    (match lookupA s es with
     | some (.dir es') =>
       match writeFileT (.dir es') rest c with
       | .error e => .error e
       | .ok sub => .ok (.dir (insertChild s sub es))
     | some (.file _) => .error "write: not a directory"
     | none =>
       match writeFileT (.dir []) rest c with
       | .error e => .error e
       | .ok sub => .ok (.dir (insertChild s sub es)))
  | .file _, _ :: _, _ => .error "write: not a directory"

/-- A path is unobstructed: following it meets only directories until it
either ends or leaves the tree (so creation along it cannot hit a file). -/
def pathFree : FsTree → List String → Bool
  | _, [] => true
  | .dir es, s :: rest =>
    (match lookupA s es with
     | some child => pathFree child rest
     | none => true)
  | .file _, _ :: _ => false

/-- One archive entry as `compress` writes it and `extract` reads it: the
slash-separated name (directories carry a trailing `/` and the directory
mode bit) and the byte contents for regular files. -/
structure ZipEntry where
  name : String
  isDirMode : Bool
  contents : List Nat
deriving Repr, DecidableEq

mutual

/-- The `filepath.WalkDir` body of `compress` (archiver.go lines 87-160)
over one output tree whose archive name is `joinSep "/" segs`: the
directory itself first (trailing slash, dir mode), then the children in
lexical order; regular files carry their contents. (The walk's skip of
the target archive file cannot trigger here: the archive is written to a
temp path outside the package tree.) -/
def walkEntries (segs : List String) : FsTree → List ZipEntry
  | .file c => [⟨joinSep "/" segs, false, c⟩]
  | .dir es => ⟨joinSep "/" segs ++ "/", true, []⟩ :: walkEntriesList segs es

/-- Children of a directory, walked in order. -/
def walkEntriesList (segs : List String) : List (String × FsTree) → List ZipEntry
  | [] => []
  | (n, t) :: rest => walkEntries (segs ++ [n]) t ++ walkEntriesList segs rest

end

/-- `compress` (archiver.go lines 15-167) at the entry level. Each output
path is paired with the tree found at it (`none` when `os.Stat` fails
with not-exist): per output, in order — stat, the is-directory check,
base-name validity, duplicate-base check — then the walk; the archive is
the concatenation of the walks. -/
def compressEntries : List (String × Option FsTree) → List String →
    Except String (List ZipEntry)
  | [], _ => .ok []
  | (p, t) :: rest, seenBases =>
    let cleaned := pathClean p
    match t with
    | none => .error ("compress: stat " ++ cleaned)
    | some tree =>
      if !tree.isDir then .error ("compress: " ++ cleaned ++ " is not a directory")
      else
        let base := filepathBase cleaned
        if base = "." ∨ base = "/" then
          .error ("compress: invalid directory name " ++ cleaned)
        else if seenBases.contains base then
          .error ("compress: duplicate directory name " ++ base)
        else
          match compressEntries rest (base :: seenBases) with
          | .error e => .error e
          | .ok es => .ok (walkEntries [base] tree ++ es)

/-- `compress` top level: empty output sets are rejected up front. -/
def compressModel (outputs : List (String × Option FsTree)) :
    Except String (List ZipEntry) :=
  match outputs with
  | [] => .error "compress: no outputs provided"
  | _ :: _ => compressEntries outputs []

/-- `strings.ReplaceAll(name, "\\", "/")`. -/
def backslashToSlash (s : String) : String :=
  String.mk (s.data.map (fun c => if c = '\\' then '/' else c))

/-- `strings.HasSuffix(s, "/")`. -/
def hasSuffixSlash (s : String) : Bool :=
  match s.data.getLast? with
  | some '/' => true
  | _ => false

/-- The target-preparation loop of `extract` (archiver.go lines 205-225):
clean each output, validate and deduplicate its base, remove the
directory wholesale and recreate it empty. Yields the output map
base ↦ (cleaned target root, tree), the tree starting empty. -/
def prepareOutputs : List String → List (String × String × FsTree) →
    Except String (List (String × String × FsTree))
  | [], acc => .ok acc
  | out :: rest, acc =>
    let cleaned := pathClean out
    let base := filepathBase cleaned
    if base = "." ∨ base = "/" then
      .error ("extract: invalid directory name " ++ cleaned)
    else if (lookupA base acc).isSome then
      .error ("extract: duplicate directory name " ++ base)
    else prepareOutputs rest (acc ++ [(base, cleaned, .dir [])])

/-- The per-entry routing of `extract` (archiver.go lines 227-256):
normalize backslashes, skip empty names and names cleaning to `.`,
reject a clean name that keeps a leading `..` or a leading separator,
route by the first segment through the output map, and derive the target
path `filepath.Join(targetRoot, filepath.FromSlash(rel))` (`FromSlash` is
the identity on Unix). Returns `none` for a skipped entry, otherwise
(base, segments under the root, target path). -/
def routeEntry (outputs : List (String × String × FsTree)) (name : String) :
    Except String (Option (String × List String × String)) :=
  let nm := backslashToSlash name
  if nm = "" then .ok none
  else
    let clean := pathClean nm
    if clean = "." then .ok none
    else if hasPrefixS clean "../" || (clean = "..") || hasPrefixS clean "/" then
      .error ("extract: invalid path " ++ name)
    else
      match splitSlash clean with
      | [] => .ok none
      | top :: relSegs =>
        match lookupA top outputs with
        | none => .error ("extract: unexpected archive root " ++ name)
        | some (root, _) =>
          .ok (some (top, relSegs,
            if relSegs = [] then root else filepathJoin root (joinSep "/" relSegs)))

/-- Process one archive entry (archiver.go lines 227-326, directory and
regular-file entries; a symlink entry derives its target path the same
way): a directory-mode or trailing-slash entry is `MkdirAll`ed, a file at
the archive root is rejected, a regular file is written (parents created,
existing file truncated). -/
def applyEntry (outputs : List (String × String × FsTree)) (e : ZipEntry) :
    Except String (List (String × String × FsTree)) :=
  match routeEntry outputs e.name with
  | .error err => .error err
  | .ok none => .ok outputs
  | .ok (some (top, relSegs, _)) =>
    match lookupA top outputs with
    | none => .error "extract: unexpected archive root"
    | some (root, tree) =>
      if e.isDirMode || hasSuffixSlash e.name then
        match mkdirAllT tree relSegs with
        | .error err => .error err
        | .ok tree' => .ok (setA top (root, tree') outputs)
      else if relSegs = [] then
        .error ("extract: unexpected file at root " ++ e.name)
      else
        match writeFileT tree relSegs e.contents with
        | .error err => .error err
        | .ok tree' => .ok (setA top (root, tree') outputs)

/-- Fold `applyEntry` over the archive's entries in order. -/
def extractEntries (outputs : List (String × String × FsTree)) :
    List ZipEntry → Except String (List (String × String × FsTree))
  | [] => .ok outputs
  | e :: es =>
    match applyEntry outputs e with
    | .error err => .error err
    | .ok outputs' => extractEntries outputs' es

/-- `extract` (archiver.go lines 169-329): reject an empty output list,
prepare the freshly emptied targets, then process every entry. -/
def extractModel (entries : List ZipEntry) (outputs : List String) :
    Except String (List (String × String × FsTree)) :=
  if outputs = [] then .error "extract: no outputs provided"
  else
    match prepareOutputs outputs [] with
    | .error e => .error e
    | .ok prepared => extractEntries prepared entries

/-! ## Compress I/O trace (archiver.go) for C9 -/

/-- Go `filepath.Dir` on Unix. -/
def filepathDir (p : String) : String :=
  let pre := joinSep "/" (splitSlash p).dropLast
  if pre = "" then (if hasPrefixS p "/" then "/" else ".") else pathClean pre

/-- Go `filepath.Abs` on Unix, with the working directory explicit. -/
def absPath (cwd p : String) : String :=
  if hasPrefixS p "/" then pathClean p else filepathJoin cwd p

/-- A filesystem operation `compress` performs. `renameOp` exists so the
atomicity property can be stated; `compress` never emits it. -/
inductive FsOp where
  | chdirOp (dir : String)
  | mkdirAllOp (dir : String)
  | createOp (path : String)
  | writeEntryOp (entryName : String)
  | renameOp (src dst : String)
  | closeOp (path : String)
deriving Repr, DecidableEq

/-- The per-output portion of `compress`'s trace: each output's checks in
order, then one write per walked archive entry. -/
def compressWalkOps : List (String × Option FsTree) → List String →
    List FsOp × Option String
  | [], _ => ([], none)
  | (p, t) :: rest, seenBases =>
    let cleaned := pathClean p
    match t with
    | none => ([], some ("compress: stat " ++ cleaned))
    | some tree =>
      if !tree.isDir then ([], some ("compress: " ++ cleaned ++ " is not a directory"))
      else
        let base := filepathBase cleaned
        if base = "." ∨ base = "/" then
          ([], some ("compress: invalid directory name " ++ cleaned))
        else if seenBases.contains base then
          ([], some ("compress: duplicate directory name " ++ base))
        else
          let ops := (walkEntries [base] tree).map (fun e => FsOp.writeEntryOp e.name)
          let rec' := compressWalkOps rest (base :: seenBases)
          (ops ++ rec'.1, rec'.2)

/-- The filesystem operations `compress` performs (archiver.go lines
15-167), in order, with its error if any: optional chdir, `MkdirAll` of
the target's parent, `os.Create` of the target itself, the entry writes,
and the deferred close (always). `cwd` is the working directory after the
optional chdir. The target file is created in place — before any entry is
written — and there is no rename anywhere. -/
def compressOps (outputs : List (String × Option FsTree))
    (targetZip packagePath cwd : String) : List FsOp × Option String :=
  match outputs with
  | [] => ([], some "compress: no outputs provided")
  | _ :: _ =>
    let target := absPath cwd targetZip
    let pre : List FsOp :=
      (if trimSpace packagePath ≠ "" then [FsOp.chdirOp packagePath] else []) ++
        [FsOp.mkdirAllOp (filepathDir target), FsOp.createOp target]
    let walked := compressWalkOps outputs []
    (pre ++ walked.1 ++ [FsOp.closeOp target], walked.2)

/-- C2's counterexample tree: the single output `dist` holds one regular
file whose (POSIX-legal) name contains a backslash. -/
def c2BadTree : FsTree := .dir [("a\\b", .file [104, 105])]

/-- What that output round-trips to: extraction rewrites the backslash to a
separator, so a directory `a` holding a file `b` appears instead. -/
def c2BadResult : FsTree := .dir [("a", .dir [("b", .file [104, 105])])]

/-- A proper path segment: nonempty, not `.`, not `..`. -/
def ProperSeg (s : String) : Prop := s ≠ "" ∧ s ≠ "." ∧ s ≠ ".."

/-- No separator inside a segment. -/
def NoSlash (s : String) : Prop := s.data.contains '/' = false

/-- The shape `cleanState` maintains: recent proper segments atop `..`s (so
the final, reversed result is `..`s then proper segments), the `..`s
absent in a rooted path, every element separator-free. -/
def StateForm (rooted : Bool) (st : List String) : Prop :=
  ∃ ps ds, st = ps ++ ds ∧ (∀ p ∈ ps, ProperSeg p ∧ NoSlash p) ∧
    (∀ d ∈ ds, d = "..") ∧ (rooted = true → ds = [])

/-- The accumulator state of `cleanSegsAux` without the final reversal:
needed to reason about cleaning a concatenation of segment lists. -/
def cleanState (rooted : Bool) (acc : List String) : List String → List String
  | [] => acc
  | s :: rest =>
    if s = "" ∨ s = "." then cleanState rooted acc rest
    else if s = ".." then
      match acc with
      | [] => if rooted then cleanState rooted [] rest
              else cleanState rooted [".."] rest
      | a :: as =>
        if a = ".." then cleanState rooted (".." :: acc) rest
        else cleanState rooted as rest
    else cleanState rooted (s :: acc) rest

/-! ## Theorems -/

/-- `cleanSegsAux` is `cleanState` followed by a reversal. -/
theorem cleanSegsAux_eq_cleanState (rooted : Bool) :
    ∀ (l : List String) (acc : List String),
      cleanSegsAux rooted acc l = (cleanState rooted acc l).reverse
  | [], acc => by simp [cleanSegsAux, cleanState]
  | s :: rest, acc => by
    by_cases h1 : s = "" ∨ s = "."
    · simp only [cleanSegsAux, cleanState, if_pos h1]
      exact cleanSegsAux_eq_cleanState rooted rest acc
    · by_cases h2 : s = ".."
      · cases acc with
        | nil =>
          cases rooted <;>
            simp only [cleanSegsAux, cleanState, if_neg h1, if_pos h2,
              Bool.false_eq_true, if_false, if_true] <;>
            exact cleanSegsAux_eq_cleanState _ rest _
        | cons a as =>
          by_cases h3 : a = ".."
          · simp only [cleanSegsAux, cleanState, if_neg h1, if_pos h2, if_pos h3]
            exact cleanSegsAux_eq_cleanState rooted rest _
          · simp only [cleanSegsAux, cleanState, if_neg h1, if_pos h2, if_neg h3]
            exact cleanSegsAux_eq_cleanState rooted rest _
      · simp only [cleanSegsAux, cleanState, if_neg h1, if_neg h2]
        exact cleanSegsAux_eq_cleanState rooted rest _

/-- Cleaning a concatenation processes the parts in sequence. -/
theorem cleanState_append (rooted : Bool) :
    ∀ (xs ys : List String) (acc : List String),
      cleanState rooted acc (xs ++ ys) =
        cleanState rooted (cleanState rooted acc xs) ys
  | [], ys, acc => by simp [cleanState]
  | s :: rest, ys, acc => by
    by_cases h1 : s = "" ∨ s = "."
    · simp only [List.cons_append, cleanState, if_pos h1]
      exact cleanState_append rooted rest ys acc
    · by_cases h2 : s = ".."
      · cases acc with
        | nil =>
          cases rooted <;>
            simp only [List.cons_append, cleanState, if_neg h1, if_pos h2,
              Bool.false_eq_true, if_false, if_true] <;>
            exact cleanState_append _ rest ys _
        | cons a as =>
          by_cases h3 : a = ".."
          · simp only [List.cons_append, cleanState, if_neg h1, if_pos h2, if_pos h3]
            exact cleanState_append rooted rest ys _
          · simp only [List.cons_append, cleanState, if_neg h1, if_pos h2, if_neg h3]
            exact cleanState_append rooted rest ys _
      · simp only [List.cons_append, cleanState, if_neg h1, if_neg h2]
        exact cleanState_append rooted rest ys _

/-- Proper segments are simply pushed onto the state. -/
theorem cleanState_proper (rooted : Bool) :
    ∀ (segs : List String), (∀ s ∈ segs, ProperSeg s) →
      ∀ acc, cleanState rooted acc segs = segs.reverse ++ acc
  | [], _, acc => by simp [cleanState]
  | s :: rest, h, acc => by
    have hp : s ≠ "" ∧ s ≠ "." ∧ s ≠ ".." := h s (List.mem_cons_self s rest)
    have hrest : ∀ x ∈ rest, ProperSeg x := fun x hx => h x (List.mem_cons_of_mem _ hx)
    simp only [cleanState, if_neg (not_or.mpr ⟨hp.1, hp.2.1⟩), if_neg hp.2.2]
    rw [cleanState_proper rooted rest hrest]
    simp

/-- A trailing empty segment (from a trailing slash) is dropped. -/
theorem cleanState_trailing_empty (rooted : Bool) (acc : List String)
    (segs : List String) :
    cleanState rooted acc (segs ++ [""]) = cleanState rooted acc segs := by
  rw [cleanState_append]
  simp [cleanState]

/-- Shift a cons of `..` through a replicate of `..`. -/
theorem replicate_dotdots_shift (k : Nat) (l : List String) :
    List.replicate k ".." ++ (".." :: l) = ".." :: (List.replicate k ".." ++ l) := by
  induction k with
  | zero => simp
  | succ k ih => simp [List.replicate_succ, ih]

/-- With an all-`..` state and no root, `..` segments accumulate. -/
theorem cleanState_dotdots :
    ∀ (k : Nat) (acc : List String), (∀ a ∈ acc, a = "..") →
      cleanState false acc (List.replicate k "..") =
        List.replicate k ".." ++ acc
  | 0, acc, _ => by simp [cleanState]
  | k + 1, acc, h => by
    have hne : ¬((".." : String) = "" ∨ (".." : String) = ".") := by decide
    cases acc with
    | nil =>
      simp only [List.replicate_succ, cleanState, if_neg hne, if_pos rfl,
        Bool.false_eq_true, if_false]
      rw [cleanState_dotdots k [".."] (by simp)]
      simp [replicate_dotdots_shift]
    | cons a as =>
      simp only [List.replicate_succ, cleanState, if_neg hne, if_pos rfl,
        if_pos (h a (List.mem_cons_self a as))]
      rw [cleanState_dotdots k (".." :: a :: as)
        (fun x hx => by
          rcases List.mem_cons.mp hx with hx | hx
          · exact hx
          · exact h x hx)]
      simp [replicate_dotdots_shift]

/-- Fields produced by splitting never contain the separator. -/
theorem splitSlashChars_noSlash :
    ∀ (cs : List Char) (acc : List Char), '/' ∉ acc →
      ∀ x ∈ splitSlashChars acc cs, '/' ∉ x
  | [], acc, hacc => by
    simp only [splitSlashChars, List.mem_singleton]
    intro x hx
    subst hx
    simpa using hacc
  | c :: rest, acc, hacc => by
    by_cases hc : c = '/'
    · simp only [splitSlashChars, if_pos hc, List.mem_cons]
      intro x hx
      rcases hx with hx | hx
      · subst hx; simpa using hacc
      · exact splitSlashChars_noSlash rest [] (by simp) x hx
    · simp only [splitSlashChars, if_neg hc]
      intro x hx
      refine splitSlashChars_noSlash rest (c :: acc) ?_ x hx
      intro hmem
      rcases List.mem_cons.mp hmem with h | h
      · exact hc h.symm
      · exact hacc h

/-- Every field of a split is separator-free. -/
theorem splitSlash_noSlash (s : String) : ∀ x ∈ splitSlash s, NoSlash x := by
  intro x hx
  obtain ⟨l, hl, rfl⟩ := List.mem_map.mp hx
  have := splitSlashChars_noSlash s.data [] (by simp) l hl
  simpa [NoSlash] using this

/-- Splitting distributes over a separator in the middle. -/
theorem splitSlashChars_append (b : List Char) :
    ∀ (a : List Char) (acc : List Char),
      splitSlashChars acc (a ++ '/' :: b) =
        splitSlashChars acc a ++ splitSlashChars [] b
  | [], acc => by
    simp [splitSlashChars]
  | c :: rest, acc => by
    by_cases hc : c = '/'
    · simp only [List.cons_append, splitSlashChars, if_pos hc, List.append_eq]
      rw [splitSlashChars_append b rest []]
    · simp only [List.cons_append, splitSlashChars, if_neg hc]
      exact splitSlashChars_append b rest (c :: acc)

/-- `strings.Split` distributes over `a ++ "/" ++ b`. -/
theorem splitSlash_append (a b : String) :
    splitSlash (a ++ "/" ++ b) = splitSlash a ++ splitSlash b := by
  have hdata : (a ++ "/" ++ b).data = a.data ++ '/' :: b.data := by
    show (a.data ++ "/".data ++ b.data) = a.data ++ '/' :: b.data
    simp [String.data]
  simp only [splitSlash, hdata, splitSlashChars_append, List.map_append]

/-- A separator-free character list splits to a single field. -/
theorem splitSlashChars_noSlash_eq :
    ∀ (cs : List Char) (acc : List Char), '/' ∉ cs →
      splitSlashChars acc cs = [acc.reverse ++ cs]
  | [], acc, _ => by simp [splitSlashChars]
  | c :: rest, acc, h => by
    have hc : c ≠ '/' := fun hh => h (hh ▸ List.mem_cons_self c rest)
    simp only [splitSlashChars, if_neg hc]
    rw [splitSlashChars_noSlash_eq rest (c :: acc)
      (fun hh => h (List.mem_cons_of_mem _ hh))]
    simp

/-- A separator-free string splits to itself. -/
theorem splitSlash_single (s : String) (h : NoSlash s) : splitSlash s = [s] := by
  have hmem : '/' ∉ s.data := by
    have h' := h
    rw [NoSlash] at h'
    simpa using h'
  simp [splitSlash, splitSlashChars_noSlash_eq s.data [] hmem]

/-- Round-trip: joining separator-free segments then splitting returns
them. -/
theorem splitSlash_joinSep :
    ∀ (segs : List String), segs ≠ [] → (∀ x ∈ segs, NoSlash x) →
      splitSlash (joinSep "/" segs) = segs
  | [], h, _ => absurd rfl h
  | [x], _, h => by
    simp only [joinSep]
    exact splitSlash_single x (h x (List.mem_singleton_self x))
  | x :: y :: rest, _, h => by
    show splitSlash (x ++ "/" ++ joinSep "/" (y :: rest)) = x :: y :: rest
    rw [splitSlash_append, splitSlash_single x (h x (List.mem_cons_self _ _)),
      splitSlash_joinSep (y :: rest) (by simp)
        (fun z hz => h z (List.mem_cons_of_mem _ hz))]
    simp

/-- `cleanState` keeps its state in `StateForm`. -/
theorem cleanState_stateForm (rooted : Bool) :
    ∀ (segs : List String) (st : List String), (∀ x ∈ segs, NoSlash x) →
      StateForm rooted st → StateForm rooted (cleanState rooted st segs)
  | [], st, _, hf => by simpa [cleanState] using hf
  | s :: rest, st, hns, hf => by
    have hrest : ∀ x ∈ rest, NoSlash x := fun x hx => hns x (List.mem_cons_of_mem _ hx)
    by_cases h1 : s = "" ∨ s = "."
    · simp only [cleanState, if_pos h1]
      exact cleanState_stateForm rooted rest st hrest hf
    · by_cases h2 : s = ".."
      · cases st with
        | nil =>
          cases hrooted : rooted <;>
            simp only [cleanState, if_neg h1, if_pos h2, Bool.false_eq_true,
              if_false, if_true]
          · exact cleanState_stateForm false rest [".."] hrest
              ⟨[], [".."], by simp, by simp, by simp, by simp⟩
          · exact cleanState_stateForm true rest [] hrest
              ⟨[], [], by simp, by simp, by simp, by simp⟩
        | cons a as =>
          obtain ⟨ps, ds, hst, hps, hds, hroot⟩ := hf
          by_cases h3 : a = ".."
          · simp only [cleanState, if_neg h1, if_pos h2, if_pos h3]
            have hpsnil : ps = [] := by
              cases ps with
              | nil => rfl
              | cons p ps' =>
                exfalso
                have : p = a := by
                  have := congrArg (fun l => l.head?) hst
                  simpa using this.symm
                exact ((hps p (List.mem_cons_self _ _)).1).2.2 (this.trans h3)
            subst hpsnil
            simp only [List.nil_append] at hst
            refine cleanState_stateForm rooted rest (".." :: a :: as) hrest
              ⟨[], ".." :: (a :: as), by simp, by simp, ?_, ?_⟩
            · intro d hd
              rcases List.mem_cons.mp hd with hd | hd
              · exact hd
              · exact hds d (hst ▸ hd)
            · intro hr
              exact absurd (hst ▸ hroot hr) (by simp)
          · simp only [cleanState, if_neg h1, if_pos h2, if_neg h3]
            cases ps with
            | nil =>
              exfalso
              have ha : a ∈ ds := by
                simp only [List.nil_append] at hst
                exact hst ▸ List.mem_cons_self a as
              exact h3 (hds a ha)
            | cons p ps' =>
              have hpa : p = a ∧ as = ps' ++ ds := by
                have h1' := congrArg (fun l => l.head?) hst
                have h2' := congrArg (fun l => l.tail) hst
                simp at h1' h2'
                exact ⟨h1'.symm, h2'⟩
              refine cleanState_stateForm rooted rest as hrest
                ⟨ps', ds, hpa.2, fun p hp => hps p (List.mem_cons_of_mem _ hp),
                  hds, hroot⟩
      · simp only [cleanState, if_neg h1, if_neg h2]
        obtain ⟨ps, ds, hst, hps, hds, hroot⟩ := hf
        refine cleanState_stateForm rooted rest (s :: st) hrest
          ⟨s :: ps, ds, by simp [hst], ?_, hds, hroot⟩
        intro p hp
        rcases List.mem_cons.mp hp with hp | hp
        · subst hp
          exact ⟨⟨fun hh => h1 (Or.inl hh), fun hh => h1 (Or.inr hh), h2⟩,
            hns p (List.mem_cons_self _ _)⟩
        · exact hps p hp

/-- The cleaned segment list: `..`s first (none when rooted), then proper
separator-free segments. -/
theorem cleanSegs_form (rooted : Bool) (segs : List String)
    (h : ∀ x ∈ segs, NoSlash x) :
    ∃ k ps, cleanSegs rooted segs = List.replicate k ".." ++ ps ∧
      (∀ p ∈ ps, ProperSeg p ∧ NoSlash p) ∧ (rooted = true → k = 0) := by
  have hform := cleanState_stateForm rooted segs []
    h ⟨[], [], by simp, by simp, by simp, by simp⟩
  obtain ⟨ps, ds, hst, hps, hds, hroot⟩ := hform
  refine ⟨ds.length, ps.reverse, ?_, ?_, ?_⟩
  · rw [cleanSegs, cleanSegsAux_eq_cleanState, hst]
    rw [List.reverse_append]
    congr 1
    conv_lhs => rw [List.eq_replicate_of_mem hds]
    rw [List.reverse_replicate]
  · intro p hp
    exact hps p (List.mem_reverse.mp hp)
  · intro hr
    rw [hroot hr]
    rfl

/-- A string starting with an explicit `/` has the slash prefix. -/
theorem hasPrefixS_slash_append (x : String) : hasPrefixS ("/" ++ x) "/" = true := by
  show hasPrefixChars "/".data ("/" ++ x).data = true
  show hasPrefixChars ['/'] ('/' :: x.data) = true
  simp [hasPrefixChars]

/-- The slash prefix of a concatenation is decided by the non-empty head. -/
theorem hasPrefixS_append_left (root y : String) (h : root ≠ "") :
    hasPrefixS (root ++ y) "/" = hasPrefixS root "/" := by
  have hd : root.data ≠ [] := by
    intro hone
    exact h (by cases root; simp_all)
  show hasPrefixChars ['/'] (root.data ++ y.data) = hasPrefixChars ['/'] root.data
  cases hcase : root.data with
  | nil => exact absurd hcase hd
  | cons c cs => simp [hasPrefixChars]

/-- The slash prefix is decided by the first character. -/
theorem hasPrefixS_slash_eq_head (s : String) :
    hasPrefixS s "/" = (s.data.head? == some '/') := by
  show hasPrefixChars ['/'] s.data = (s.data.head? == some '/')
  cases s.data with
  | nil => simp [hasPrefixChars]
  | cons c cs =>
    by_cases hc : c = '/'
    · simp [hasPrefixChars, hc]
    · simp [hasPrefixChars, hc, Ne.symm hc]

/-- A non-empty string has a first character. -/
theorem data_ne_nil_of_ne_empty (s : String) (h : s ≠ "") : s.data ≠ [] := by
  intro hd
  exact h (by cases s; simp_all)

/-- The head character of a concatenation with a non-empty left part. -/
theorem head_append_left (a b : String) (h : a ≠ "") :
    (a ++ b).data.head? = a.data.head? := by
  have hd := data_ne_nil_of_ne_empty a h
  show (a.data ++ b.data).head? = a.data.head?
  cases hcase : a.data with
  | nil => exact absurd hcase hd
  | cons c cs => simp

/-- A separator-free non-empty head keeps a join slash-prefix-free. -/
theorem hasPrefixS_joinSep_no_slash (h : String) (t : List String)
    (hne : h ≠ "") (hns : NoSlash h) :
    hasPrefixS (joinSep "/" (h :: t)) "/" = false := by
  have hd := data_ne_nil_of_ne_empty h hne
  have hhead : h.data.head? ≠ some '/' := by
    cases hcase : h.data with
    | nil => exact absurd hcase hd
    | cons c cs =>
      simp only [List.head?_cons, ne_eq, Option.some.injEq]
      intro hcc
      rw [NoSlash] at hns
      have hmem : '/' ∈ h.data := by rw [hcase, hcc]; exact List.mem_cons_self _ _
      have hns' : '/' ∉ h.data := by simpa [NoSlash] using hns
      exact hns' hmem
  cases t with
  | nil =>
    show hasPrefixS h "/" = false
    rw [hasPrefixS_slash_eq_head]
    simpa using hhead
  | cons y ys =>
    show hasPrefixS (h ++ "/" ++ joinSep "/" (y :: ys)) "/" = false
    rw [hasPrefixS_slash_eq_head, String.append_assoc,
      head_append_left h _ hne]
    simpa using hhead

/-- A join of non-empty segments is non-empty. -/
theorem joinSep_ne_empty (h : String) (t : List String) (hne : h ≠ "") :
    joinSep "/" (h :: t) ≠ "" := by
  cases t with
  | nil => exact hne
  | cons y ys =>
    show h ++ "/" ++ joinSep "/" (y :: ys) ≠ ""
    intro hc
    have hdata : h.data ++ ['/'] ++ (joinSep "/" (y :: ys)).data = [] :=
      congrArg String.data hc
    simp at hdata

/-- Splitting a rooted string of the shape `/…`. -/
theorem splitSlash_root_append (x : String) :
    splitSlash ("/" ++ x) = "" :: splitSlash x := by
  show (splitSlashChars [] ('/' :: x.data)).map String.mk = "" :: splitSlash x
  simp [splitSlashChars, splitSlash]

/-- A list is a `isPrefixOf` of itself extended. -/
theorem isPrefixOf_append (l r : List String) : l.isPrefixOf (l ++ r) = true := by
  induction l with
  | nil => simp [List.isPrefixOf]
  | cons x xs ih => simp [List.isPrefixOf, ih]

/-- `.. ++ "/" ++ …` carries the `../` prefix. -/
theorem hasPrefixS_dotdot_slash (x : String) :
    hasPrefixS (".." ++ "/" ++ x) "../" = true := by
  show hasPrefixChars ['.', '.', '/'] ('.' :: '.' :: '/' :: x.data) = true
  simp [hasPrefixChars]

/-- Every element of a clean-form list is non-empty and separator-free. -/
theorem cleanForm_elems (k : Nat) (ps : List String)
    (hps : ∀ q ∈ ps, ProperSeg q ∧ NoSlash q) :
    ∀ x ∈ List.replicate k ".." ++ ps, x ≠ "" ∧ x ≠ "." ∧ NoSlash x := by
  intro x hx
  rcases List.mem_append.mp hx with hx | hx
  · have hxe : x = ".." := List.eq_of_mem_replicate hx
    subst hxe
    refine ⟨by decide, by decide, ?_⟩
    show ("..".data.contains '/') = false
    decide
  · obtain ⟨⟨h1, h2, _⟩, h4⟩ := hps x hx
    exact ⟨h1, h2, h4⟩

/-- `path.Clean` never returns the empty string. -/
theorem pathClean_ne_empty (p : String) : pathClean p ≠ "" := by
  by_cases hp : p = ""
  · rw [hp]; decide
  obtain ⟨k, ps, hform, hps, hk0⟩ :=
    cleanSegs_form (hasPrefixS p "/") (splitSlash p) (splitSlash_noSlash p)
  by_cases hr : hasPrefixS p "/" = true
  · have hclean : pathClean p = "/" ++ joinSep "/" (cleanSegs true (splitSlash p)) := by
      simp [pathClean, hp, hr]
    rw [hclean]
    intro hc
    have hdata : '/' :: (joinSep "/" (cleanSegs true (splitSlash p))).data = [] :=
      congrArg String.data hc
    cases hdata
  · rw [Bool.not_eq_true] at hr
    rw [hr] at hform
    by_cases hnil : cleanSegs false (splitSlash p) = []
    · have hclean : pathClean p = "." := by simp [pathClean, hp, hr, hnil]
      rw [hclean]; decide
    · have hclean : pathClean p = joinSep "/" (cleanSegs false (splitSlash p)) := by
        simp [pathClean, hp, hr, hnil]
      rw [hclean, hform]
      rw [hform] at hnil
      cases hmatch : List.replicate k ".." ++ ps with
      | nil => exact absurd hmatch hnil
      | cons h t =>
        exact joinSep_ne_empty h t
          (cleanForm_elems k ps hps h (hmatch ▸ List.mem_cons_self h t)).1

/-- The canonical decomposition of a cleaned path other than `.` and `/`:
it keeps the original's rootedness, splits into an optional leading empty
field (rooted) followed by the clean segments, and re-processing those
fields reproduces the segments. -/
theorem pathClean_canonical (p : String)
    (hdot : pathClean p ≠ ".") (hslash : pathClean p ≠ "/") :
    ∃ S : List String, S ≠ [] ∧
      (∃ k ps, S = List.replicate k ".." ++ ps ∧
        (∀ q ∈ ps, ProperSeg q ∧ NoSlash q) ∧
        (hasPrefixS p "/" = true → k = 0)) ∧
      hasPrefixS (pathClean p) "/" = hasPrefixS p "/" ∧
      splitSlash (pathClean p) =
        (if hasPrefixS p "/" = true then [""] else []) ++ S ∧
      cleanState (hasPrefixS p "/") [] (splitSlash (pathClean p)) = S.reverse := by
  by_cases hp : p = ""
  · exact absurd (by rw [hp]; decide) hdot
  obtain ⟨k, ps, hform, hps, hk0⟩ :=
    cleanSegs_form (hasPrefixS p "/") (splitSlash p) (splitSlash_noSlash p)
  have helems : ∀ x ∈ cleanSegs (hasPrefixS p "/") (splitSlash p),
      x ≠ "" ∧ x ≠ "." ∧ NoSlash x := by
    rw [hform]
    exact cleanForm_elems k ps hps
  by_cases hr : hasPrefixS p "/" = true
  · have hk0' := hk0 hr
    subst hk0'
    rw [hr] at hform helems ⊢
    simp only [List.replicate_zero, List.nil_append] at hform
    have hclean : pathClean p = "/" ++ joinSep "/" (cleanSegs true (splitSlash p)) := by
      simp [pathClean, hp, hr]
    have hSne : cleanSegs true (splitSlash p) ≠ [] := by
      intro hnil
      rw [hclean, hnil] at hslash
      exact hslash rfl
    have hSnoSlash : ∀ x ∈ cleanSegs true (splitSlash p), NoSlash x :=
      fun x hx => (helems x hx).2.2
    refine ⟨cleanSegs true (splitSlash p), hSne,
      ⟨0, ps, by simpa using hform, hps, fun _ => rfl⟩, ?_, ?_, ?_⟩
    · rw [hclean]
      exact hasPrefixS_slash_append _
    · rw [hclean, splitSlash_root_append, splitSlash_joinSep _ hSne hSnoSlash]
      simp
    · rw [hclean, splitSlash_root_append, splitSlash_joinSep _ hSne hSnoSlash]
      have hstep : cleanState true [] ("" :: cleanSegs true (splitSlash p)) =
          cleanState true [] (cleanSegs true (splitSlash p)) := by
        simp [cleanState]
      rw [hstep, hform, cleanState_proper true ps (fun q hq => (hps q hq).1) []]
      simp
  · rw [Bool.not_eq_true] at hr
    rw [hr] at hform helems hk0 ⊢
    have hSne : cleanSegs false (splitSlash p) ≠ [] := by
      intro hnil
      exact hdot (by simp [pathClean, hp, hr, hnil])
    have hclean : pathClean p = joinSep "/" (cleanSegs false (splitSlash p)) := by
      simp [pathClean, hp, hr, hSne]
    have hSnoSlash : ∀ x ∈ cleanSegs false (splitSlash p), NoSlash x :=
      fun x hx => (helems x hx).2.2
    obtain ⟨h, t, hht⟩ : ∃ h t, cleanSegs false (splitSlash p) = h :: t := by
      cases hc : cleanSegs false (splitSlash p) with
      | nil => exact absurd hc hSne
      | cons h t => exact ⟨h, t, rfl⟩
    have hh := helems h (hht ▸ List.mem_cons_self h t)
    refine ⟨cleanSegs false (splitSlash p), hSne,
      ⟨k, ps, hform, hps, fun hcon => absurd hcon (by decide)⟩, ?_, ?_, ?_⟩
    · rw [hclean, hht, hasPrefixS_joinSep_no_slash h t hh.1 hh.2.2]
    · rw [hclean, splitSlash_joinSep _ hSne hSnoSlash]
      simp
    · rw [hclean, splitSlash_joinSep _ hSne hSnoSlash, hform,
        cleanState_append false (List.replicate k "..") ps [],
        cleanState_dotdots k [] (by simp), List.append_nil,
        cleanState_proper false ps (fun q hq => (hps q hq).1)]
      simp

/-- A non-empty left part keeps a concatenation non-empty. -/
theorem append_ne_empty_left (a b : String) (h : a ≠ "") : a ++ b ≠ "" := by
  intro hc
  have hdata : a.data ++ b.data = [] := congrArg String.data hc
  have := data_ne_nil_of_ne_empty a h
  simp_all

/-- Joining a cleaned root (other than `.` and `/`) with proper relative
segments lands under the root: the target keeps the root's rootedness and
extends its segment list. -/
theorem filepathJoin_isUnder (out : String)
    (hdot : pathClean out ≠ ".") (hslash : pathClean out ≠ "/")
    (relSegs : List String) (hne : relSegs ≠ [])
    (hprops : ∀ x ∈ relSegs, ProperSeg x ∧ NoSlash x) :
    isUnder (pathClean out) (filepathJoin (pathClean out) (joinSep "/" relSegs)) =
      true := by
  obtain ⟨S, hSne, ⟨k, ps, hSform, hSps, hSk0⟩, hpre, hsplit, hstate⟩ :=
    pathClean_canonical out hdot hslash
  have hSelems : ∀ x ∈ S, x ≠ "" ∧ x ≠ "." ∧ NoSlash x := by
    rw [hSform]; exact cleanForm_elems k ps hSps
  have hrne : pathClean out ≠ "" := pathClean_ne_empty out
  obtain ⟨rh, rt, hrel⟩ : ∃ h t, relSegs = h :: t := by
    cases hc : relSegs with
    | nil => exact absurd hc hne
    | cons h t => exact ⟨h, t, rfl⟩
  have hrhne : rh ≠ "" := (hprops rh (hrel ▸ List.mem_cons_self rh rt)).1.1
  have hrelne : joinSep "/" relSegs ≠ "" := by
    rw [hrel]; exact joinSep_ne_empty rh rt hrhne
  have hrelslash : ∀ x ∈ relSegs, NoSlash x := fun x hx => (hprops x hx).2
  have hjoin : filepathJoin (pathClean out) (joinSep "/" relSegs) =
      pathClean (pathClean out ++ "/" ++ joinSep "/" relSegs) := by
    rw [filepathJoin, if_pos hrne]
  have hjoinne : pathClean out ++ "/" ++ joinSep "/" relSegs ≠ "" := by
    rw [String.append_assoc]
    exact append_ne_empty_left _ _ hrne
  have hprej : hasPrefixS (pathClean out ++ "/" ++ joinSep "/" relSegs) "/" =
      hasPrefixS out "/" := by
    rw [String.append_assoc, hasPrefixS_append_left _ _ hrne, hpre]
  have hsplitj : splitSlash (pathClean out ++ "/" ++ joinSep "/" relSegs) =
      ((if hasPrefixS out "/" = true then [""] else []) ++ S) ++ relSegs := by
    rw [splitSlash_append, hsplit, splitSlash_joinSep relSegs hne hrelslash]
  have hstatej : cleanState (hasPrefixS out "/") []
      (splitSlash (pathClean out ++ "/" ++ joinSep "/" relSegs)) =
      relSegs.reverse ++ S.reverse := by
    rw [hsplitj, ← hsplit, cleanState_append, hstate,
      cleanState_proper (hasPrefixS out "/") relSegs
        (fun x hx => (hprops x hx).1)]
  have hsegsj : cleanSegs (hasPrefixS out "/")
      (splitSlash (pathClean out ++ "/" ++ joinSep "/" relSegs)) = S ++ relSegs := by
    rw [cleanSegs, cleanSegsAux_eq_cleanState, hstatej]
    simp
  have hSrelne : S ++ relSegs ≠ [] := by
    simp [hSne]
  have hSrelelems : ∀ x ∈ S ++ relSegs, x ≠ "" ∧ x ≠ "." ∧ NoSlash x := by
    intro x hx
    rcases List.mem_append.mp hx with hx | hx
    · exact hSelems x hx
    · obtain ⟨⟨a, b, -⟩, c⟩ := hprops x hx
      exact ⟨a, b, c⟩
  obtain ⟨sh, st', hshst⟩ : ∃ h t, S = h :: t := by
    cases hc : S with
    | nil => exact absurd hc hSne
    | cons h t => exact ⟨h, t, rfl⟩
  have hsh := hSelems sh (hshst ▸ List.mem_cons_self sh st')
  have htgt : pathClean (pathClean out ++ "/" ++ joinSep "/" relSegs) =
      (if hasPrefixS out "/" = true then "/" ++ joinSep "/" (S ++ relSegs)
       else joinSep "/" (S ++ relSegs)) := by
    rw [pathClean, if_neg hjoinne, hprej]
    dsimp only
    rw [hsegsj]
    by_cases hr : hasPrefixS out "/" = true
    · rw [hr]
      simp
    · rw [Bool.not_eq_true] at hr
      rw [hr]
      simp [hSrelne]
  have hpredS : ∀ x ∈ S, (decide (x ≠ "" ∧ x ≠ ".")) = true := by
    intro x hx
    have := hSelems x hx
    simp [this.1, this.2.1]
  have hpredSrel : ∀ x ∈ S ++ relSegs, (decide (x ≠ "" ∧ x ≠ ".")) = true := by
    intro x hx
    have := hSrelelems x hx
    simp [this.1, this.2.1]
  have hsegsroot : pathSegs (pathClean out) = S := by
    rw [pathSegs, hsplit, List.filter_append]
    have h1 : ((if hasPrefixS out "/" = true then [""] else []).filter
        (fun s => decide (s ≠ "" ∧ s ≠ "."))) = [] := by
      by_cases hr : hasPrefixS out "/" = true <;> simp [hr]
    rw [h1, List.filter_eq_self.mpr hpredS]
    simp
  have hsegstgt : pathSegs (filepathJoin (pathClean out) (joinSep "/" relSegs)) =
      S ++ relSegs := by
    rw [hjoin, htgt]
    by_cases hr : hasPrefixS out "/" = true
    · rw [if_pos hr, pathSegs, splitSlash_root_append,
        splitSlash_joinSep _ hSrelne (fun x hx => (hSrelelems x hx).2.2)]
      rw [List.filter_cons, if_neg (by simp)]
      exact List.filter_eq_self.mpr hpredSrel
    · rw [if_neg hr, pathSegs,
        splitSlash_joinSep _ hSrelne (fun x hx => (hSrelelems x hx).2.2)]
      exact List.filter_eq_self.mpr hpredSrel
  have hpretgt : hasPrefixS (filepathJoin (pathClean out) (joinSep "/" relSegs)) "/" =
      hasPrefixS out "/" := by
    rw [hjoin, htgt]
    by_cases hr : hasPrefixS out "/" = true
    · rw [if_pos hr, hasPrefixS_slash_append, hr]
    · rw [Bool.not_eq_true] at hr
      rw [hr, if_neg (by decide : ¬(false = true)), hshst, List.cons_append]
      exact hasPrefixS_joinSep_no_slash sh (st' ++ relSegs) hsh.1 hsh.2.2
  rw [isUnder, hsegsroot, hsegstgt, hpretgt, hpre, isPrefixOf_append]
  simp

/-- Splitting always yields at least one field. -/
theorem splitSlashChars_ne_nil :
    ∀ (cs : List Char) (acc : List Char), splitSlashChars acc cs ≠ []
  | [], acc => by simp [splitSlashChars]
  | c :: rest, acc => by
    rw [splitSlashChars]
    by_cases hc : c = '/'
    · rw [if_pos hc]
      simp
    · rw [if_neg hc]
      exact splitSlashChars_ne_nil rest (c :: acc)

/-- Joining the fields of a split restores the original string. -/
theorem joinSep_splitSlashChars :
    ∀ (cs : List Char) (acc : List Char),
      joinSep "/" ((splitSlashChars acc cs).map String.mk) =
        String.mk (acc.reverse ++ cs)
  | [], acc => by simp [splitSlashChars, joinSep]
  | c :: rest, acc => by
    rw [splitSlashChars]
    by_cases hc : c = '/'
    · rw [if_pos hc]
      cases hsp : splitSlashChars [] rest with
      | nil => exact absurd hsp (splitSlashChars_ne_nil rest [])
      | cons f fs =>
        show String.mk acc.reverse ++ "/" ++
            joinSep "/" ((f :: fs).map String.mk) = String.mk (acc.reverse ++ c :: rest)
        rw [← hsp, joinSep_splitSlashChars rest []]
        subst hc
        show String.mk (acc.reverse ++ ['/'] ++ rest) = String.mk (acc.reverse ++ '/' :: rest)
        simp
    · rw [if_neg hc]
      rw [joinSep_splitSlashChars rest (c :: acc)]
      simp

/-- `strings.Join(strings.Split(s, "/"), "/") = s`. -/
theorem joinSep_splitSlash (s : String) : joinSep "/" (splitSlash s) = s := by
  rw [splitSlash, joinSep_splitSlashChars s.data []]
  simp

/-- Every path lies under itself. -/
theorem isUnder_self (r : String) : isUnder r r = true := by
  rw [isUnder]
  have h := isPrefixOf_append (pathSegs r) []
  rw [List.append_nil] at h
  simp [h]

/-- Lookup in a concatenation of association lists. -/
theorem lookupA_append {α : Type} (k : String) :
    ∀ (l1 l2 : List (String × α)),
      lookupA k (l1 ++ l2) =
        match lookupA k l1 with
        | some v => some v
        | none => lookupA k l2
  | [], l2 => by simp [lookupA]
  | (k', v') :: rest, l2 => by
    by_cases hk : k' = k
    · simp [lookupA, hk]
    · simp only [List.cons_append, lookupA, if_neg hk]
      exact lookupA_append k rest l2

/-- Every root `prepareOutputs` registers is the cleaning of a declared
output and is neither `.` nor `/`. -/
theorem prepareOutputs_roots :
    ∀ (outs : List String) (acc res : List (String × String × FsTree)),
      prepareOutputs outs acc = .ok res →
      (∀ b r t, lookupA b acc = some (r, t) →
        ∃ out, r = pathClean out ∧ r ≠ "." ∧ r ≠ "/") →
      (∀ b r t, lookupA b res = some (r, t) →
        ∃ out, r = pathClean out ∧ r ≠ "." ∧ r ≠ "/")
  | [], acc, res, h, hacc => by
    simp only [prepareOutputs, Except.ok.injEq] at h
    exact h ▸ hacc
  | out :: rest, acc, res, h, hacc => by
    simp only [prepareOutputs] at h
    by_cases hb : filepathBase (pathClean out) = "." ∨ filepathBase (pathClean out) = "/"
    · rw [if_pos hb] at h
      cases h
    · rw [if_neg hb] at h
      by_cases hdup : (lookupA (filepathBase (pathClean out)) acc).isSome
      · rw [if_pos hdup] at h
        cases h
      · rw [if_neg hdup] at h
        refine prepareOutputs_roots rest _ res h ?_
        intro b r t hlook
        rw [lookupA_append] at hlook
        cases hl1 : lookupA b acc with
        | some v =>
          rw [hl1] at hlook
          dsimp only at hlook
          exact hacc b r t (hlook ▸ hl1)
        | none =>
          rw [hl1] at hlook
          dsimp only at hlook
          simp only [lookupA] at hlook
          by_cases hkb : filepathBase (pathClean out) = b
          · rw [if_pos hkb] at hlook
            obtain ⟨hr, -⟩ : r = pathClean out ∧ t = .dir [] := by
              simpa using hlook.symm
            refine ⟨out, hr, ?_, ?_⟩
            · intro hc
              have hpc : pathClean out = "." := by rw [← hr, hc]
              exact hb (Or.inl (by rw [hpc]; decide))
            · intro hc
              have hpc : pathClean out = "/" := by rw [← hr, hc]
              exact hb (Or.inr (by rw [hpc]; decide))
          · rw [if_neg hkb] at hlook
            cases hlook

/-- C3: `extract`'s per-entry path sanitation. An entry whose cleaned,
backslash-normalized name keeps a leading `..`, is absolute, or roots at
a segment that is not a prepared output base makes `extract` fail; and a
successfully routed entry's target path always lies under the matched
output root (so every path `extract` creates or writes is under a target
output directory). -/
theorem c3_extract_path_sanitation :
    (∀ (outputs : List (String × String × FsTree)) (e : ZipEntry),
      (hasPrefixS (pathClean (backslashToSlash e.name)) "../" = true ∨
        pathClean (backslashToSlash e.name) = ".." ∨
        hasPrefixS (pathClean (backslashToSlash e.name)) "/" = true) →
      ∃ err, applyEntry outputs e = .error err) ∧
    (∀ (outputs : List (String × String × FsTree)) (e : ZipEntry)
      (top : String) (relSegs : List String),
      backslashToSlash e.name ≠ "" →
      pathClean (backslashToSlash e.name) ≠ "." →
      splitSlash (pathClean (backslashToSlash e.name)) = top :: relSegs →
      lookupA top outputs = none →
      ∃ err, applyEntry outputs e = .error err) ∧
    (∀ (outputs : List (String × String × FsTree)) (e : ZipEntry)
      (top : String) (relSegs : List String) (tp : String),
      routeEntry outputs e.name = .ok (some (top, relSegs, tp)) →
      (∀ b r t, lookupA b outputs = some (r, t) →
        ∃ out, r = pathClean out ∧ r ≠ "." ∧ r ≠ "/") →
      ∃ root tree, lookupA top outputs = some (root, tree) ∧
        isUnder root tp = true) := by
  have herrprop : ∀ (outputs : List (String × String × FsTree)) (e : ZipEntry)
      (err : String), routeEntry outputs e.name = .error err →
      applyEntry outputs e = .error err := by
    intro outputs e err h
    rw [applyEntry, h]
  refine ⟨?_, ?_, ?_⟩
  · intro outputs e hguard
    have hdotfacts : pathClean (backslashToSlash e.name) ≠ "." := by
      intro hc
      rw [hc] at hguard
      rcases hguard with h | h | h
      · exact absurd h (by decide)
      · exact absurd h (by decide)
      · exact absurd h (by decide)
    have hnm : backslashToSlash e.name ≠ "" := by
      intro hc
      rw [hc] at hdotfacts
      exact hdotfacts (by decide)
    have hg : (hasPrefixS (pathClean (backslashToSlash e.name)) "../" ||
        decide (pathClean (backslashToSlash e.name) = "..") ||
        hasPrefixS (pathClean (backslashToSlash e.name)) "/") = true := by
      rcases hguard with h | h | h <;> simp [h]
    refine ⟨"extract: invalid path " ++ e.name, herrprop outputs e _ ?_⟩
    rw [routeEntry]
    dsimp only
    rw [if_neg hnm, if_neg hdotfacts, if_pos hg]
  · intro outputs e top relSegs hnm hdot hsplit hlook
    by_cases hg : (hasPrefixS (pathClean (backslashToSlash e.name)) "../" ||
        decide (pathClean (backslashToSlash e.name) = "..") ||
        hasPrefixS (pathClean (backslashToSlash e.name)) "/") = true
    · refine ⟨"extract: invalid path " ++ e.name, herrprop outputs e _ ?_⟩
      rw [routeEntry]
      dsimp only
      rw [if_neg hnm, if_neg hdot, if_pos hg]
    · refine ⟨"extract: unexpected archive root " ++ e.name,
        herrprop outputs e _ ?_⟩
      rw [routeEntry]
      dsimp only
      rw [if_neg hnm, if_neg hdot, if_neg hg, hsplit]
      dsimp only
      rw [hlook]
  · intro outputs e top relSegs tp hok hroots
    rw [routeEntry] at hok
    dsimp only at hok
    by_cases h1 : backslashToSlash e.name = ""
    · rw [if_pos h1] at hok
      simp at hok
    rw [if_neg h1] at hok
    by_cases h2 : pathClean (backslashToSlash e.name) = "."
    · rw [if_pos h2] at hok
      simp at hok
    rw [if_neg h2] at hok
    by_cases h3 : (hasPrefixS (pathClean (backslashToSlash e.name)) "../" ||
        decide (pathClean (backslashToSlash e.name) = "..") ||
        hasPrefixS (pathClean (backslashToSlash e.name)) "/") = true
    · rw [if_pos h3] at hok
      simp at hok
    rw [if_neg h3] at hok
    obtain ⟨⟨h3a, h3b⟩, h3c⟩ :
        (hasPrefixS (pathClean (backslashToSlash e.name)) "../" = false ∧
          ¬ pathClean (backslashToSlash e.name) = "..") ∧
        hasPrefixS (pathClean (backslashToSlash e.name)) "/" = false := by
      simpa [not_or] using h3
    cases hsplit : splitSlash (pathClean (backslashToSlash e.name)) with
    | nil =>
      rw [hsplit] at hok
      simp at hok
    | cons t' rs =>
      rw [hsplit] at hok
      dsimp only at hok
      cases hlook : lookupA t' outputs with
      | none =>
        rw [hlook] at hok
        simp at hok
      | some rt' =>
        obtain ⟨root, tree⟩ := rt'
        rw [hlook] at hok
        dsimp only at hok
        obtain ⟨hteq, hreq, htpeq⟩ : t' = top ∧ rs = relSegs ∧
            (if rs = [] then root
             else filepathJoin root (joinSep "/" rs)) = tp := by
          simpa using hok
        rw [← hteq]
        have hslashne : pathClean (backslashToSlash e.name) ≠ "/" := by
          intro hc
          rw [hc] at h3c
          exact absurd h3c (by decide)
        obtain ⟨S, hSne, ⟨k, ps, hSform, hSps, -⟩, hpre, hsplit2, -⟩ :=
      pathClean_canonical (backslashToSlash e.name) h2 hslashne
        have hroot0 : hasPrefixS (backslashToSlash e.name) "/" = false := by
          rw [← hpre]
          exact h3c
        rw [hroot0] at hsplit2
        simp only [Bool.false_eq_true, if_false, List.nil_append] at hsplit2
        have hST : S = t' :: rs := by rw [← hsplit2, hsplit]
        have hk0 : k = 0 := by
          by_contra hkne
          obtain ⟨k', hk'⟩ : ∃ k', k = k' + 1 := by
            cases k with
            | zero => exact absurd rfl hkne
            | succ k' => exact ⟨k', rfl⟩
          have hhead : t' = ".." := by
            rw [hST, hk'] at hSform
            have := congrArg (fun l => l.head?) hSform
            simpa [List.replicate_succ] using this
          have hjoin := joinSep_splitSlash (pathClean (backslashToSlash e.name))
          rw [hsplit, hhead] at hjoin
          cases rs with
          | nil =>
            exact h3b (by rw [← hjoin]; rfl)
          | cons y ys =>
            have hpref : hasPrefixS (pathClean (backslashToSlash e.name)) "../" =
                true := by
              rw [← hjoin]
              show hasPrefixS (".." ++ "/" ++ joinSep "/" (y :: ys)) "../" = true
              exact hasPrefixS_dotdot_slash _
            rw [hpref] at h3a
            exact absurd h3a (by decide)
        rw [hk0] at hSform
        simp only [List.replicate_zero, List.nil_append] at hSform
        have hprops : ∀ x ∈ t' :: rs, ProperSeg x ∧ NoSlash x := by
          rw [← hST, hSform]
          exact hSps
        obtain ⟨out, hrout, hrdot, hrslash⟩ := hroots t' root tree hlook
        refine ⟨root, tree, hlook, ?_⟩
        cases hrs : rs with
        | nil =>
          rw [hrs] at htpeq
          simp only [if_pos rfl] at htpeq
          rw [← htpeq]
          exact isUnder_self root
        | cons y ys =>
          rw [hrs] at htpeq
          simp only [if_neg (by simp : ¬(y :: ys = []))] at htpeq
          rw [← htpeq, hrout]
          rw [hrout] at hrdot hrslash
          exact filepathJoin_isUnder out hrdot hrslash (y :: ys) (by simp)
            (fun x hx => hprops x (hrs ▸ List.mem_cons_of_mem _ hx))

/-- C3 witness: with prepared output `dist`, the traversal entry `../evil`
errors, the unknown-root entry `other/x` errors, and the routed entry
`dist/a` targets a path under the `dist` root. -/
theorem c3_extract_path_sanitation_witness :
    (∃ err, applyEntry [("dist", "dist", FsTree.dir [])]
        ⟨"../evil", false, []⟩ = .error err) ∧
    (∃ err, applyEntry [("dist", "dist", FsTree.dir [])]
        ⟨"other/x", false, []⟩ = .error err) ∧
    (∃ root tree, lookupA "dist" [("dist", "dist", FsTree.dir [])] =
        some (root, tree) ∧ isUnder root "dist/a" = true) :=
  ⟨c3_extract_path_sanitation.1 [("dist", "dist", FsTree.dir [])]
      ⟨"../evil", false, []⟩ (Or.inl (by decide)),
   c3_extract_path_sanitation.2.1 [("dist", "dist", FsTree.dir [])]
      ⟨"other/x", false, []⟩ "other" ["x"] (by decide) (by decide) (by decide)
      (by rfl),
   c3_extract_path_sanitation.2.2 [("dist", "dist", FsTree.dir [])]
      ⟨"dist/a", false, []⟩ "dist" ["a"] "dist/a" (by rfl)
      (fun b r t h => by
        simp only [lookupA] at h
        by_cases hb : "dist" = b
        · rw [if_pos hb] at h
          obtain ⟨hr, -⟩ : "dist" = r ∧ FsTree.dir [] = t := by simpa using h
          exact ⟨"dist", by rw [← hr]; decide, by rw [← hr]; decide,
            by rw [← hr]; decide⟩
        · rw [if_neg hb] at h
          cases h)⟩

/-- `compress`'s walk emits only entry writes: no rename ever appears. -/
theorem compressWalkOps_no_rename :
    ∀ (outs : List (String × Option FsTree)) (seen : List String)
      (src dst : String), FsOp.renameOp src dst ∉ (compressWalkOps outs seen).1
  | [], _, src, dst => by simp [compressWalkOps]
  | (p, t) :: rest, seen, src, dst => by
    rw [compressWalkOps.eq_def]
    dsimp only
    cases t with
    | none => simp
    | some tree =>
      dsimp only
      by_cases hd : (!tree.isDir) = true
      · rw [if_pos hd]
        simp
      · rw [if_neg hd]
        by_cases hb : filepathBase (pathClean p) = "." ∨
            filepathBase (pathClean p) = "/"
        · rw [if_pos hb]
          simp
        · rw [if_neg hb]
          by_cases hs : seen.contains (filepathBase (pathClean p)) = true
          · rw [if_pos hs]
            simp
          · rw [if_neg hs]
            dsimp only
            intro hmem
            rcases List.mem_append.mp hmem with hmem | hmem
            · obtain ⟨e, -, he⟩ := List.mem_map.mp hmem
              cases he
            · exact compressWalkOps_no_rename rest _ src dst hmem

/-- C9, counterexample: compressing the single output `dist` (a directory
holding one file `a`) to `/tmp/v.zip` from package `pkg` creates the
target archive path itself before writing any entry, and performs no
rename: the trace is chdir, MkdirAll of the parent, Create of the final
target, the two entry writes, close. -/
theorem c9_counterexample :
    compressOps [("dist", some (.dir [("a", .file [104])]))]
        "/tmp/v.zip" "pkg" "/w/pkg" =
      ([.chdirOp "pkg", .mkdirAllOp "/tmp", .createOp "/tmp/v.zip",
        .writeEntryOp "dist/", .writeEntryOp "dist/a",
        .closeOp "/tmp/v.zip"], none) := by
  decide

/-- C9: `compress` is NOT atomic. For every non-empty output set, the
operation trace contains `os.Create` of the final target path itself
(before the entry writes) and contains no rename at all: there is no
temp-file-plus-rename step, so the target path names the archive while it
is still being written. -/
theorem c9_compress_not_atomic (outputs : List (String × Option FsTree))
    (targetZip packagePath cwd : String) (hne : outputs ≠ []) :
    FsOp.createOp (absPath cwd targetZip) ∈
        (compressOps outputs targetZip packagePath cwd).1 ∧
    ∀ src dst, FsOp.renameOp src dst ∉
        (compressOps outputs targetZip packagePath cwd).1 := by
  cases outputs with
  | nil => exact absurd rfl hne
  | cons o os =>
    rw [compressOps]
    dsimp only
    refine ⟨?_, ?_⟩
    · apply List.mem_append_left
      apply List.mem_append_left
      apply List.mem_append_right
      simp
    · intro src dst hmem
      rcases List.mem_append.mp hmem with hmem | hmem
      · rcases List.mem_append.mp hmem with hmem | hmem
        · rcases List.mem_append.mp hmem with hmem | hmem
          · split at hmem <;> simp at hmem
          · simp at hmem
        · exact compressWalkOps_no_rename (o :: os) [] src dst hmem
      · simp at hmem

/-- C9 witness: the non-atomicity theorem applied at the one-output set
`dist` with target `/tmp/v.zip`. -/
theorem c9_compress_not_atomic_witness :
    ([("dist", some (FsTree.dir []))] : List (String × Option FsTree)) ≠ [] ∧
    (FsOp.createOp (absPath "/w" "/tmp/v.zip") ∈
        (compressOps [("dist", some (FsTree.dir []))] "/tmp/v.zip" "" "/w").1 ∧
      ∀ src dst, FsOp.renameOp src dst ∉
        (compressOps [("dist", some (FsTree.dir []))] "/tmp/v.zip" "" "/w").1) :=
  ⟨by simp, c9_compress_not_atomic [("dist", some (FsTree.dir []))]
    "/tmp/v.zip" "" "/w" (by simp)⟩

/-- Known-answer test: SHA-256 of "abc". -/
theorem sha256_abc_kat :
    hashString "abc" = "ba7816bf8f01cfea414140de5dae2223b00361a396177a9cb410ff61f20015ad" := by
  decide

/-- C1, counterexample: for the node `pkg#build` with command `go build`, no
env keys, no input files and no dependencies, the key the code produces is
NOT the SHA-256 of the single flattened string of claim C1: the code first
hashes the local key into an intermediate base key and hashes again. -/
theorem c1_counterexample :
    generateTaskNodeCacheKey "pkg#build" c1Cfg [] (fun _ => "") [] ≠
      specTaskNodeCacheKey "pkg#build"
        (computeLocalHash c1Cfg (fun _ => "") []) [] := by
  decide

/-- C1, amended: the produced CacheKey is a nested double hash: SHA-256 (hex)
of `"task:" ++ I ++ ":" ++ B`, where `B` is itself the SHA-256 (hex) of
`L ++ "|" ++ depSummary` (the dep summary, with its preceding `|`, omitted
when there are no upstream keys, and `L` the local key). -/
theorem c1_key_formula (identifier : String) (cfg : TaskConfig)
    (depCacheKeys : List String) (getenv : String → String)
    (files : List (String × List Nat)) :
    generateTaskNodeCacheKey identifier cfg depCacheKeys getenv files =
      hashString ("task:" ++ identifier ++ ":" ++
        hashString (computeLocalHash cfg getenv files ++
          (if depCacheKeys.length > 0 then
            "|" ++ joinSep "|" (sortStrings depCacheKeys)
          else ""))) := by
  unfold generateTaskNodeCacheKey generateCacheKey
  by_cases h : depCacheKeys.length > 0
  · simp only [h, if_pos, joinSep, String.append_assoc]
  · simp only [h, if_neg, joinSep, String.append_empty, not_false_iff, String.append_assoc]

/-- After an insert-or-replace, lookup at the same key yields the new value. -/
theorem lookupA_setA {α : Type} (k : String) (v : α) (fs : List (String × α)) :
    lookupA k (setA k v fs) = some v := by
  induction fs with
  | nil => simp [setA, lookupA]
  | cons p rest ih =>
    by_cases h : p.1 = k
    · simp [setA, h, lookupA]
    · simp [setA, h, lookupA, ih]

/-- C4, counterexample: the negotiate request whose hash is `../etc/x`
(which contains the path separator `/` and a `..` sequence, so it is
outside every strict hex-like character class) is NOT answered with 400,
and the storage driver IS consulted (`Exists` is called on that hash). -/
theorem c4_counterexample :
    ("../etc/x".data.contains '/') = true ∧
    (handleNegotiate (some ("../etc/x", "upload")) c4Driver).1 ≠ 400 ∧
    (handleNegotiate (some ("../etc/x", "upload")) c4Driver).2.2 ≠ [] := by
  refine ⟨by decide, ?_, ?_⟩ <;> simp [handleNegotiate, c4Driver]

/-- C4, amended: `HandleNegotiate` performs no validation of the `hash`
field at all. For every decoded request whose action is `upload` or
`download` — whatever the hash string, including ones with path separators
or `..` — the handler's first storage-driver call is `Exists(hash)`; a 400
response happens only when the body fails to decode or the action is
neither `upload` nor `download`. -/
theorem c4_negotiate_no_validation (hash action : String) (d : DriverModel) :
    ((action = "upload" ∨ action = "download") →
      (handleNegotiate (some (hash, action)) d).2.2.head? =
        some (.existsQ hash)) ∧
    ((handleNegotiate (some (hash, action)) d).1 = 400 ↔
      ¬(action = "upload" ∨ action = "download")) := by
  constructor
  · rintro (h | h) <;> subst h <;>
      simp only [handleNegotiate, if_pos, if_neg] <;> split_ifs <;> simp
  · by_cases hu : action = "upload"
    · subst hu
      simp only [handleNegotiate, if_pos]
      split_ifs <;> simp
    · by_cases hd : action = "download"
      · subst hd
        simp only [handleNegotiate]
        split_ifs <;> simp_all
      · simp [handleNegotiate, hu, hd]

/-- C4, witness for the amended theorem at a concrete request. -/
theorem c4_negotiate_no_validation_witness :
    (handleNegotiate (some ("../etc/x", "download")) c4Driver).2.2.head? =
      some (.existsQ "../etc/x") :=
  (c4_negotiate_no_validation "../etc/x" "download" c4Driver).1 (Or.inr rfl)

/-- C5, counterexample: with the object `[1]` already stored for key `kk`
(at `/srv/kk` under root `/srv`), a second `PUT /v1/proxy/blob/kk` with
body `[2, 2]` is answered 200 (not rejected) and the stored bytes become
`[2, 2]`: the previous object is destroyed. -/
theorem c5_counterexample :
    (handleProxyUpload "/srv" "kk" [2, 2] [("/srv/kk", [1])] false false).1 = 200 ∧
    lookupA "/srv/kk"
        (handleProxyUpload "/srv" "kk" [2, 2] [("/srv/kk", [1])] false false).2.2 =
      some [2, 2] ∧
    some [2, 2] ≠ some [1] := by
  refine ⟨?_, ?_, by decide⟩ <;> decide

/-- C5, amended: `HandleProxyUpload` never checks for an existing object:
for every filesystem state (in particular one already holding bytes for
the key) a PUT whose I/O succeeds is answered 200 and the object at the
key's path afterwards holds the request body — last write wins. -/
theorem c5_upload_overwrites (root key : String) (body : List Nat)
    (fs : List (String × List Nat)) (hroot : root ≠ "") (hkey : key ≠ "") :
    (handleProxyUpload root key body fs false false).1 = 200 ∧
    lookupA (filepathJoin root key)
        (handleProxyUpload root key body fs false false).2.2 = some body := by
  have h1 : handleProxyUpload root key body fs false false =
      (200, some (filepathJoin root key), setA (filepathJoin root key) body fs) := by
    simp [handleProxyUpload, hkey, hroot]
  rw [h1]
  exact ⟨rfl, lookupA_setA _ _ _⟩

/-- C5, witness: the amended theorem applied to the concrete overwrite. -/
theorem c5_upload_overwrites_witness :
    (handleProxyUpload "/srv" "kk" [2, 2] [("/srv/kk", [1])] false false).1 = 200 ∧
    lookupA "/srv/kk"
        (handleProxyUpload "/srv" "kk" [2, 2] [("/srv/kk", [1])] false false).2.2 =
      some [2, 2] := by
  have h := c5_upload_overwrites "/srv" "kk" [2, 2] [("/srv/kk", [1])]
    (by decide) (by decide)
  simpa [filepathJoin, pathClean, splitSlash, cleanSegs, cleanSegsAux, joinSep] using h

/-- C10: the proxy blob handlers derive the filesystem path as
`filepath.Join(VC_LOCAL_ROOT, key)` with no validation of the key beyond
non-emptiness — for every non-empty key and configured root the upload
handler passes exactly that joined path to `os.Create` — and for the key
`../../escape` (which contains `..` segments) the created/opened path
`/escape` resolves outside the storage root `/data/blobs`. -/
theorem c10_proxy_path_traversal :
    (∀ (root key : String) (body : List Nat) (fs : List (String × List Nat)),
        root ≠ "" → key ≠ "" →
        (handleProxyUpload root key body fs false false).2.1 =
          some (filepathJoin root key)) ∧
    ((splitSlash "../../escape").contains ".." = true ∧
      (handleProxyUpload "/data/blobs" "../../escape" [7] [] false false).2.1 =
        some "/escape" ∧
      isUnder "/data/blobs" "/escape" = false ∧
      (handleProxyDownload "/data/blobs" "../../escape" [("/escape", [7])] false).2.1 =
        some "/escape") := by
  constructor
  · intro root key body fs hroot hkey
    simp [handleProxyUpload, if_neg hkey, if_neg hroot]
  · refine ⟨by decide, ?_, by decide, ?_⟩ <;> decide

/-- C10, witness: the universal part applied at the escaping key. -/
theorem c10_proxy_path_traversal_witness :
    (handleProxyUpload "/data/blobs" "../../escape" [7] [] false false).2.1 =
      some (filepathJoin "/data/blobs" "../../escape") :=
  c10_proxy_path_traversal.1 "/data/blobs" "../../escape" [7] []
    (by decide) (by decide)

/-- C7, counterexample: on a cache miss with remote enabled, when the
command exits 0 and the upload negotiation answers `skipped`, the executor
neither archives the outputs nor saves anything into the local store — the
node still succeeds with an empty local cache entry. -/
theorem c7_counterexample :
    (executeTaskStep c7Env).1 = .ok ∧
    ExecAction.execute ∈ (executeTaskStep c7Env).2 ∧
    ExecAction.compress ∉ (executeTaskStep c7Env).2 ∧
    ExecAction.saveLocal ∉ (executeTaskStep c7Env).2 := by
  decide

/-- The local probe never compresses, saves or executes. -/
theorem preActions_mem (env : ExecEnv) :
    ExecAction.compress ∉ preActions env ∧
    ExecAction.saveLocal ∉ preActions env ∧
    ExecAction.execute ∉ preActions env := by
  unfold preActions
  split <;> simp

/-- The download attempt never compresses and never executes. -/
theorem dlActions_mem (env : ExecEnv) :
    ExecAction.compress ∉ (dlActions env).1 ∧
    ExecAction.execute ∉ (dlActions env).1 := by
  unfold dlActions
  split
  · rcases env.negotiateDownload with _ | r
    · simp
    · dsimp only
      split_ifs <;> simp
  · simp

/-- When the download attempt does not end as a remote hit it performs no
local save. -/
theorem dlActions_no_save (env : ExecEnv) (h : (dlActions env).2 = false) :
    ExecAction.saveLocal ∉ (dlActions env).1 := by
  unfold dlActions at h ⊢
  by_cases hre : env.remoteEnabled = true
  · rcases hnd : env.negotiateDownload with _ | r <;>
      simp only [hre, hnd, if_true] at h ⊢
    · simp
    · split_ifs at h ⊢ <;> simp_all
  · rw [Bool.not_eq_true] at hre
    simp [hre]

/-- The post-execution actions compress and save locally exactly when remote
is disabled or the upload negotiation answered `upload_needed`. -/
theorem upActions_mem_iff (env : ExecEnv) :
    (ExecAction.compress ∈ upActions env ∧ ExecAction.saveLocal ∈ upActions env) ↔
      (env.remoteEnabled = false ∨
        ∃ r, env.negotiateUpload = some r ∧ r.status = "upload_needed") := by
  unfold upActions
  by_cases hre : env.remoteEnabled = true
  · rcases hnu : env.negotiateUpload with _ | r
    · simp [hre, hnu]
    · by_cases hs : r.status = "upload_needed" <;> simp [hre, hnu, hs]
  · rw [Bool.not_eq_true] at hre
    simp [hre]

/-- C7, amended: on the cache-miss path with a zero exit code, the outputs
are archived and saved into the local store exactly when remote is
disabled, or when remote is enabled and the upload negotiation answers
`upload_needed`; on a `skipped` answer (or a negotiation error) no archive
is produced and nothing is saved locally. -/
theorem c7_local_save_conditions (env : ExecEnv)
    (hexec : ExecAction.execute ∈ (executeTaskStep env).2)
    (hok : env.executeOk = true) :
    (ExecAction.compress ∈ (executeTaskStep env).2 ∧
      ExecAction.saveLocal ∈ (executeTaskStep env).2) ↔
      (env.remoteEnabled = false ∨
        ∃ r, env.negotiateUpload = some r ∧ r.status = "upload_needed") := by
  have hpre := preActions_mem env
  have hdl := dlActions_mem env
  by_cases h1 : ((!env.localCheckErr && env.localFound) && env.localExtractOk) = true
  · simp [executeTaskStep, h1] at hexec
  · rw [Bool.not_eq_true] at h1
    by_cases h2 : (dlActions env).2 = true
    · simp [executeTaskStep, h1, h2, List.mem_append, hpre.2.2, hdl.2] at hexec
    · rw [Bool.not_eq_true] at h2
      have hdls := dlActions_no_save env h2
      simp [executeTaskStep, h1, h2, hok, List.mem_append,
        hpre.1, hpre.2.1, hdl.1, hdls]
      exact upActions_mem_iff env

/-- C7, witness: the amended theorem at the `skipped` environment. -/
theorem c7_local_save_conditions_witness :
    (ExecAction.compress ∈ (executeTaskStep c7Env).2 ∧
      ExecAction.saveLocal ∈ (executeTaskStep c7Env).2) ↔
      (c7Env.remoteEnabled = false ∨
        ∃ r, c7Env.negotiateUpload = some r ∧ r.status = "upload_needed") :=
  c7_local_save_conditions c7Env (by decide) (by decide)

/-- C8, counterexample: local miss, download negotiation answers `found`,
the transfer then fails — yet the node does NOT fail: the executor falls
through to the miss path and launches the command, and the node succeeds. -/
theorem c8_counterexample :
    (executeTaskStep c8Env).1 = .ok ∧
    ExecAction.execute ∈ (executeTaskStep c8Env).2 := by
  decide

/-- C8, amended: if remote download negotiation for a node's key returns
`found` but the subsequent transfer fails, the executor falls back to
treating the node as a cache miss: it executes the command, and the node's
outcome is decided by the command's exit alone. -/
theorem c8_transfer_failure_falls_back (env : ExecEnv)
    (hremote : env.remoteEnabled = true)
    (hnolocal : ((!env.localCheckErr && env.localFound) && env.localExtractOk) = false)
    (hfound : ∃ r, env.negotiateDownload = some r ∧ r.status = "found")
    (hfail : env.transferGetOk = false) :
    ExecAction.execute ∈ (executeTaskStep env).2 ∧
    (executeTaskStep env).1 =
      (if env.executeOk then ExecOutcome.ok else ExecOutcome.failed) := by
  obtain ⟨r, hr, hst⟩ := hfound
  have hdl : dlActions env = ([.negotiate "download", .transferGet], false) := by
    unfold dlActions
    simp [hremote, hr, hst, hfail]
  cases heo : env.executeOk <;>
    simp [executeTaskStep, hnolocal, hdl, heo, List.mem_append]

/-- C8, witness: the amended theorem at the concrete failing transfer. -/
theorem c8_transfer_failure_falls_back_witness :
    ExecAction.execute ∈ (executeTaskStep c8Env).2 ∧
    (executeTaskStep c8Env).1 =
      (if c8Env.executeOk then ExecOutcome.ok else ExecOutcome.failed) :=
  c8_transfer_failure_falls_back c8Env (by decide) (by decide)
    ⟨⟨"found", "get-url"⟩, rfl, rfl⟩ (by decide)

/-- Membership in `allNodes` of a node: the node itself or a node of one of
its dependency subtrees. -/
theorem mem_allNodes_node (n : TNode) (nd : Nat) (i p t : String)
    (deps : List TNode) :
    n ∈ allNodes (.node nd i p t deps) ↔
      n = .node nd i p t deps ∨ ∃ d ∈ deps, n ∈ allNodes d := by
  rw [allNodes]
  simp only [List.mem_cons, List.mem_flatten, List.mem_map, List.mem_attach,
    true_and, Subtype.exists]
  constructor
  · rintro (h | ⟨l, ⟨d, hd, hl⟩, hn⟩)
    · exact Or.inl h
    · exact Or.inr ⟨d, hd, hl ▸ hn⟩
  · rintro (h | ⟨d, hd, hn⟩)
    · exact Or.inl h
    · exact Or.inr ⟨allNodes d, ⟨d, hd, rfl⟩, hn⟩

/-- The `^task` loop preserves the child-accumulation invariant. -/
theorem buildTopoGo_inv
    (recurse : String → PackageM → List String → Nat → Except String (TNode × Nat))
    (Hrec : ∀ t p v c node c',
      recurse t p v c = .ok (node, c') → NodeOk node)
    (visiting : List String) (dts : String) :
    ∀ (ps : List PackageM) (cnt : Nat) (seen : List String) (acc : List TNode)
      (cnt' : Nat) (seen' : List String) (acc' : List TNode),
      buildTopoGo recurse visiting dts ps cnt seen acc = .ok (cnt', seen', acc') →
      AccInv seen acc → AccInv seen' acc'
  | [], cnt, seen, acc, cnt', seen', acc', h, hinv => by
    simp only [buildTopoGo, Except.ok.injEq, Prod.mk.injEq] at h
    obtain ⟨h1, h2, h3⟩ := h
    subst h2 h3
    exact hinv
  | p :: ps, cnt, seen, acc, cnt', seen', acc', h, hinv => by
    simp only [buildTopoGo] at h
    cases hrec : recurse dts p visiting cnt with
    | error e => rw [hrec] at h; cases h
    | ok pr =>
      obtain ⟨child, c2⟩ := pr
      rw [hrec] at h
      dsimp only at h
      by_cases hseen : seen.contains child.idOf
      · rw [if_pos hseen] at h
        exact buildTopoGo_inv recurse Hrec visiting dts ps c2 seen acc
          cnt' seen' acc' h hinv
      · rw [if_neg hseen] at h
        refine buildTopoGo_inv recurse Hrec visiting dts ps c2 _ _
          cnt' seen' acc' h ?_
        obtain ⟨hnd, hsub, hok⟩ := hinv
        have hnotseen : child.idOf ∉ seen := by
          simpa using hseen
        refine ⟨?_, ?_, ?_⟩
        · have hni : child.idOf ∉ acc.map TNode.idOf :=
            fun hmem => hnotseen (hsub _ hmem)
          rw [List.map_append]
          refine List.Nodup.append hnd (List.nodup_singleton _) ?_
          intro a ha hb
          rw [List.map_cons, List.map_nil, List.mem_singleton] at hb
          exact hni (hb ▸ ha)
        · intro i hi
          rw [List.map_append] at hi
          rcases List.mem_append.mp hi with hi | hi
          · exact List.mem_cons_of_mem _ (hsub i hi)
          · simp only [List.map_cons, List.map_nil, List.mem_singleton] at hi
            exact hi ▸ List.mem_cons_self _ _
        · intro u hu
          rcases List.mem_append.mp hu with hu | hu
          · exact hok u hu
          · rw [List.mem_singleton] at hu
            exact hu ▸ Hrec _ _ _ _ _ _ hrec

/-- The `depends_on` loop preserves the child-accumulation invariant. -/
theorem buildDepsGo_inv
    (recurse : String → PackageM → List String → Nat → Except String (TNode × Nat))
    (Hrec : ∀ t p v c node c',
      recurse t p v c = .ok (node, c') → NodeOk node)
    (pkg : PackageM) (depPkgs : List PackageM) (visiting : List String) :
    ∀ (refs : List String) (cnt : Nat) (seen : List String) (acc : List TNode)
      (cnt' : Nat) (seen' : List String) (acc' : List TNode),
      buildDepsGo recurse pkg depPkgs visiting refs cnt seen acc =
        .ok (cnt', seen', acc') →
      AccInv seen acc → AccInv seen' acc'
  | [], cnt, seen, acc, cnt', seen', acc', h, hinv => by
    simp only [buildDepsGo, Except.ok.injEq, Prod.mk.injEq] at h
    obtain ⟨h1, h2, h3⟩ := h
    subst h2 h3
    exact hinv
  | ref :: rest, cnt, seen, acc, cnt', seen', acc', h, hinv => by
    simp only [buildDepsGo] at h
    by_cases hblank : trimSpace ref = ""
    · rw [if_pos hblank] at h
      exact buildDepsGo_inv recurse Hrec pkg depPkgs visiting rest cnt seen acc
        cnt' seen' acc' h hinv
    · rw [if_neg hblank] at h
      by_cases hcaret : hasPrefixS (trimSpace ref) "^" = true
      · rw [if_pos hcaret] at h
        by_cases hempty : String.mk ((trimSpace ref).data.drop 1) = ""
        · rw [if_pos hempty] at h
          cases h
        · rw [if_neg hempty] at h
          cases htopo : buildTopoGo recurse visiting
              (String.mk ((trimSpace ref).data.drop 1)) depPkgs cnt seen acc with
          | error e => rw [htopo] at h; cases h
          | ok tr =>
            obtain ⟨c2, seen2, acc2⟩ := tr
            rw [htopo] at h
            dsimp only at h
            exact buildDepsGo_inv recurse Hrec pkg depPkgs visiting rest c2 seen2
              acc2 cnt' seen' acc' h
              (buildTopoGo_inv recurse Hrec visiting _ depPkgs cnt seen acc
                c2 seen2 acc2 htopo hinv)
      · rw [if_neg hcaret] at h
        cases hrec : recurse (trimSpace ref) pkg visiting cnt with
        | error e => rw [hrec] at h; cases h
        | ok pr =>
          obtain ⟨child, c2⟩ := pr
          rw [hrec] at h
          dsimp only at h
          by_cases hseen : seen.contains child.idOf
          · rw [if_pos hseen] at h
            exact buildDepsGo_inv recurse Hrec pkg depPkgs visiting rest c2 seen
              acc cnt' seen' acc' h hinv
          · rw [if_neg hseen] at h
            refine buildDepsGo_inv recurse Hrec pkg depPkgs visiting rest c2 _ _
              cnt' seen' acc' h ?_
            obtain ⟨hnd, hsub, hok⟩ := hinv
            have hnotseen : child.idOf ∉ seen := by
              simpa using hseen
            refine ⟨?_, ?_, ?_⟩
            · have hni : child.idOf ∉ acc.map TNode.idOf :=
                fun hmem => hnotseen (hsub _ hmem)
              rw [List.map_append]
              refine List.Nodup.append hnd (List.nodup_singleton _) ?_
              intro a ha hb
              rw [List.map_cons, List.map_nil, List.mem_singleton] at hb
              exact hni (hb ▸ ha)
            · intro i hi
              rw [List.map_append] at hi
              rcases List.mem_append.mp hi with hi | hi
              · exact List.mem_cons_of_mem _ (hsub i hi)
              · simp only [List.map_cons, List.map_nil, List.mem_singleton] at hi
                exact hi ▸ List.mem_cons_self _ _
            · intro u hu
              rcases List.mem_append.mp hu with hu | hu
              · exact hok u hu
              · rw [List.mem_singleton] at hu
                exact hu ▸ Hrec _ _ _ _ _ _ hrec

/-- C6, amended (core): every node `BuildTaskGraph` constructs has
pairwise-distinct identities in its direct dependency list. -/
theorem buildTaskGraph_nodeOk :
    ∀ (fuel : Nat) (taskName : String) (pkg : PackageM)
      (pkgs : List (String × PackageM)) (pipeline : List (String × TaskConfig))
      (visiting : List String) (cnt : Nat) (root : TNode) (cnt' : Nat),
      buildTaskGraph fuel taskName pkg pkgs pipeline visiting cnt =
        .ok (root, cnt') → NodeOk root
  | 0, taskName, pkg, pkgs, pipeline, visiting, cnt, root, cnt', h => by
    cases h
  | fuel + 1, taskName, pkg, pkgs, pipeline, visiting, cnt, root, cnt', h => by
    simp only [buildTaskGraph] at h
    by_cases hpkg : (lookupA pkg.name pkgs).isNone
    · rw [if_pos hpkg] at h; cases h
    · rw [if_neg hpkg] at h
      by_cases hvis : visiting.contains (pkg.path ++ "#" ++ taskName)
      · rw [if_pos hvis] at h; cases h
      · rw [if_neg hvis] at h
        cases hpipe : lookupA taskName pipeline with
        | none => rw [hpipe] at h; cases h
        | some taskCfg =>
          rw [hpipe] at h
          dsimp only at h
          cases hres : resolveDeps pkgs pkg.internalDepNames with
          | error e => rw [hres] at h; cases h
          | ok depPkgs =>
            rw [hres] at h
            dsimp only at h
            cases hdeps : buildDepsGo
                (fun t p v c => buildTaskGraph fuel t p pkgs pipeline v c)
                pkg depPkgs ((pkg.path ++ "#" ++ taskName) :: visiting)
                taskCfg.dependsOn (cnt + 1) [] [] with
            | error e => rw [hdeps] at h; cases h
            | ok tr =>
              obtain ⟨c2, seen2, deps⟩ := tr
              rw [hdeps] at h
              dsimp only at h
              obtain ⟨hroot, _⟩ := Prod.mk.injEq .. ▸ Except.ok.injEq .. ▸ h
              have hinv : AccInv seen2 deps :=
                buildDepsGo_inv _
                  (fun t p v c node cc hh =>
                    buildTaskGraph_nodeOk fuel t p pkgs pipeline v c node cc hh)
                  pkg depPkgs _ taskCfg.dependsOn (cnt + 1) [] [] c2 seen2 deps
                  hdeps ⟨List.nodup_nil, by simp, by simp⟩
              intro n hn
              rw [← hroot] at hn
              rcases (mem_allNodes_node n cnt _ pkg.path taskName deps).mp hn with
                hn | ⟨d, hd, hnd⟩
              · subst hn
                simpa [TNode.depsOf] using hinv.1
              · exact hinv.2.2 d hd n hnd

/-- C6: a node may occur at most once per identity only within one parent's
direct dependency list (`depSeen` in graph.go is per recursive call), as
`buildTaskGraph_nodeOk` shows — but NOT across the whole graph: in the
diamond `app → {l1, l2} → core` the two parents each get their own
freshly allocated `libs/core#build` node (allocations 2 and 4), so the
identity occurs twice in the graph with two distinct node instances,
refuting C6 as stated. -/
theorem c6_counterexample :
    (c6Built.map fun root =>
        root.depsOf.map fun d =>
          (d.idOf, d.nid, d.depsOf.map fun c => (c.idOf, c.nid))) =
      some [("libs/l1#build", 1, [("libs/core#build", 2)]),
            ("libs/l2#build", 3, [("libs/core#build", 4)])] := by
  rfl

/-- C6, amended: in every graph `BuildTaskGraph` returns, each node's direct
dependency list holds at most one child per identity (duplicates collapse
within one parent); the same identity reached from different parents
yields distinct node instances. -/
theorem c6_dedup_within_parent (fuel : Nat) (taskName : String) (pkg : PackageM)
    (pkgs : List (String × PackageM)) (pipeline : List (String × TaskConfig))
    (visiting : List String) (cnt : Nat) (root : TNode) (cnt' : Nat)
    (h : buildTaskGraph fuel taskName pkg pkgs pipeline visiting cnt =
      .ok (root, cnt')) :
    ∀ n ∈ allNodes root, ((TNode.depsOf n).map TNode.idOf).Nodup :=
  buildTaskGraph_nodeOk fuel taskName pkg pkgs pipeline visiting cnt root cnt' h

/-- C6, witness: the amended theorem on the concrete diamond graph,
instantiated at the root node. -/
theorem c6_dedup_within_parent_witness :
    ((TNode.depsOf (TNode.node 0 "apps/app#build" "apps/app" "build"
        [TNode.node 1 "libs/l1#build" "libs/l1" "build"
          [TNode.node 2 "libs/core#build" "libs/core" "build" []],
         TNode.node 3 "libs/l2#build" "libs/l2" "build"
          [TNode.node 4 "libs/core#build" "libs/core" "build" []]])).map
      TNode.idOf).Nodup :=
  c6_dedup_within_parent 10 "build" c6App c6Pkgs c6Pipeline [] 0 _ 5 (by rfl)
    (TNode.node 0 "apps/app#build" "apps/app" "build"
      [TNode.node 1 "libs/l1#build" "libs/l1" "build"
        [TNode.node 2 "libs/core#build" "libs/core" "build" []],
       TNode.node 3 "libs/l2#build" "libs/l2" "build"
        [TNode.node 4 "libs/core#build" "libs/core" "build" []]])
    ((mem_allNodes_node _ _ _ _ _ _).mpr (Or.inl rfl))

/-! ### Order lemmas for the byte-wise string comparison (C2 round-trip) -/

/-- Equal `toNat`s mean equal characters. -/
theorem char_toNat_inj (a b : Char) (h : a.toNat = b.toNat) : a = b := by
  cases a with
  | mk va ha =>
    cases b with
    | mk vb hb =>
      simp only [Char.toNat] at h
      have hv : va = vb := by
        cases va
        cases vb
        simp only [UInt32.toNat] at h
        congr 1
        exact BitVec.toNat_injective h
      subst hv
      rfl

/-- `ltChars` is irreflexive. -/
theorem ltChars_irrefl : ∀ (l : List Char), ltChars l l = false
  | [] => rfl
  | c :: cs => by
    rw [ltChars, if_neg (Nat.lt_irrefl c.toNat), if_neg (Nat.lt_irrefl c.toNat)]
    exact ltChars_irrefl cs

/-- `ltS` is irreflexive. -/
theorem ltS_irrefl (s : String) : ltS s s = false := ltChars_irrefl s.data

/-- `ltChars` is asymmetric. -/
theorem ltChars_asymm : ∀ (a b : List Char),
    ltChars a b = true → ltChars b a = false
  | [], [], _ => rfl
  | [], _ :: _, _ => rfl
  | _ :: _, [], h => absurd h (by simp [ltChars])
  | a :: as, b :: bs, h => by
    rw [ltChars] at h ⊢
    by_cases h1 : a.toNat < b.toNat
    · rw [if_neg (by omega : ¬ b.toNat < a.toNat), if_pos h1]
    · by_cases h2 : b.toNat < a.toNat
      · rw [if_neg h1, if_pos h2] at h
        cases h
      · rw [if_neg h1, if_neg h2] at h
        rw [if_neg h2, if_neg h1]
        exact ltChars_asymm as bs h

/-- `ltS` is asymmetric. -/
theorem ltS_asymm (a b : String) (h : ltS a b = true) : ltS b a = false :=
  ltChars_asymm a.data b.data h

/-- `ltChars` is transitive. -/
theorem ltChars_trans : ∀ (a b c : List Char),
    ltChars a b = true → ltChars b c = true → ltChars a c = true
  | [], b, c :: cs, _, _ => rfl
  | [], b, [], _, h2 => absurd h2 (by cases b <;> simp [ltChars])
  | a :: as, b, c, h1, h2 => by
    cases b with
    | nil => exact absurd h1 (by simp [ltChars])
    | cons x xs =>
      cases c with
      | nil => exact absurd h2 (by simp [ltChars])
      | cons y ys =>
        rw [ltChars] at h1 h2 ⊢
        by_cases hax : a.toNat < x.toNat
        · by_cases hxy : x.toNat < y.toNat
          · rw [if_pos (by omega : a.toNat < y.toNat)]
          · by_cases hyx : y.toNat < x.toNat
            · rw [if_neg hxy, if_pos hyx] at h2
              cases h2
            · rw [if_pos (by omega : a.toNat < y.toNat)]
        · by_cases hxa : x.toNat < a.toNat
          · rw [if_neg hax, if_pos hxa] at h1
            cases h1
          · rw [if_neg hax, if_neg hxa] at h1
            by_cases hxy : x.toNat < y.toNat
            · rw [if_pos (by omega : a.toNat < y.toNat)]
            · by_cases hyx : y.toNat < x.toNat
              · rw [if_neg hxy, if_pos hyx] at h2
                cases h2
              · rw [if_neg hxy, if_neg hyx] at h2
                rw [if_neg (by omega : ¬ a.toNat < y.toNat),
                  if_neg (by omega : ¬ y.toNat < a.toNat)]
                exact ltChars_trans as xs ys h1 h2

/-- `ltS` is transitive. -/
theorem ltS_trans (a b c : String) (h1 : ltS a b = true) (h2 : ltS b c = true) :
    ltS a c = true := ltChars_trans a.data b.data c.data h1 h2

/-- `ltChars` is connex: distinct lists compare one way or the other. -/
theorem ltChars_connex : ∀ (a b : List Char), a ≠ b →
    ltChars a b = true ∨ ltChars b a = true
  | [], [], h => absurd rfl h
  | [], _ :: _, _ => Or.inl rfl
  | _ :: _, [], _ => Or.inr rfl
  | a :: as, b :: bs, h => by
    by_cases hab : a.toNat < b.toNat
    · exact Or.inl (by rw [ltChars, if_pos hab])
    · by_cases hba : b.toNat < a.toNat
      · exact Or.inr (by rw [ltChars, if_pos hba])
      · have hce : a = b := char_toNat_inj a b (by omega)
        subst hce
        have htail : as ≠ bs := fun hc => h (by rw [hc])
        rcases ltChars_connex as bs htail with ht | ht
        · exact Or.inl (by rw [ltChars, if_neg hab, if_neg hba]; exact ht)
        · exact Or.inr (by rw [ltChars, if_neg hab, if_neg hba]; exact ht)

/-- `ltS` is connex. -/
theorem ltS_connex (a b : String) (h : a ≠ b) :
    ltS a b = true ∨ ltS b a = true := by
  refine ltChars_connex a.data b.data (fun hc => h ?_)
  cases a
  cases b
  exact congrArg String.mk hc

/-! ### Assoc-list and `insertChild` lemmas (C2 round-trip) -/

/-- Lookup under a pointwise replacement at the same key. -/
theorem setA_self {α : Type} (k : String) (v : α) :
    ∀ (l : List (String × α)), lookupA k l = some v → setA k v l = l
  | [], h => by cases h
  | (k', v') :: rest, h => by
    rw [setA]
    by_cases hk : k' = k
    · rw [if_pos hk]
      rw [lookupA, if_pos hk] at h
      obtain ⟨rfl⟩ : v = v' := by simpa using h.symm
      rw [hk]
    · rw [if_neg hk]
      rw [lookupA, if_neg hk] at h
      rw [setA_self k v rest h]

/-- Lookup at a different key is unaffected by `setA`. -/
theorem lookupA_setA_ne {α : Type} (k k' : String) (hne : k' ≠ k) (v : α) :
    ∀ (l : List (String × α)), lookupA k' (setA k v l) = lookupA k' l
  | [] => by
    simp only [setA, lookupA]
    rw [if_neg (fun hc => hne hc.symm)]
  | (k0, v0) :: rest => by
    rw [setA]
    by_cases hk : k0 = k
    · rw [if_pos hk]
      rw [lookupA, lookupA, if_neg (fun hc => hne hc.symm), if_neg]
      rw [hk]
      exact fun hc => hne hc.symm
    · rw [if_neg hk]
      rw [lookupA, lookupA]
      by_cases h0 : k0 = k'
      · rw [if_pos h0, if_pos h0]
      · rw [if_neg h0, if_neg h0]
        exact lookupA_setA_ne k k' hne v rest

/-- A successful lookup is a member. -/
theorem lookupA_mem {α : Type} (k : String) (v : α) :
    ∀ (l : List (String × α)), lookupA k l = some v → (k, v) ∈ l
  | [], h => by cases h
  | (k', v') :: rest, h => by
    rw [lookupA] at h
    by_cases hk : k' = k
    · rw [if_pos hk] at h
      obtain ⟨rfl⟩ : v' = v := by simpa using h
      subst hk
      exact List.mem_cons_self _ _
    · rw [if_neg hk] at h
      exact List.mem_cons_of_mem _ (lookupA_mem k v rest h)

/-- A key distinct from every stored key looks up to `none`. -/
theorem lookupA_none {α : Type} (k : String) :
    ∀ (l : List (String × α)), (∀ e ∈ l, e.1 ≠ k) → lookupA k l = none
  | [], _ => rfl
  | (k', v') :: rest, h => by
    rw [lookupA, if_neg (h (k', v') (List.mem_cons_self _ _))]
    exact lookupA_none k rest (fun e he => h e (List.mem_cons_of_mem _ he))

/-- Looking up through `insertChild`. -/
theorem lookupA_insertChild (n m : String) (t : FsTree) :
    ∀ (es : List (String × FsTree)),
      lookupA m (insertChild n t es) =
        if n = m then some t else lookupA m es
  | [] => by simp [insertChild, lookupA]
  | (k, u) :: rest => by
    rw [insertChild]
    by_cases h1 : ltS n k = true
    · rw [if_pos h1]
      simp only [lookupA]
    · rw [if_neg h1]
      by_cases h2 : n = k
      · rw [if_pos h2]
        simp only [lookupA]
        by_cases h3 : n = m
        · rw [if_pos h3, if_pos h3]
        · rw [if_neg h3, if_neg h3, if_neg (fun hc => h3 (h2.trans hc))]
      · rw [if_neg h2]
        simp only [lookupA]
        by_cases h3 : k = m
        · rw [if_pos h3, if_pos h3, if_neg (fun hc => h2 (hc.trans h3.symm))]
        · rw [if_neg h3, if_neg h3]
          exact lookupA_insertChild n m t rest

/-- The head of an `insertChild` result is the new pair or the old head. -/
theorem insertChild_head (n : String) (t : FsTree) :
    ∀ (es : List (String × FsTree)),
      (insertChild n t es).head? = some (n, t) ∨
        (insertChild n t es).head? = es.head?
  | [] => Or.inl rfl
  | (k, u) :: rest => by
    rw [insertChild]
    by_cases h1 : ltS n k = true
    · rw [if_pos h1]
      exact Or.inl rfl
    · rw [if_neg h1]
      by_cases h2 : n = k
      · rw [if_pos h2]
        exact Or.inl rfl
      · rw [if_neg h2]
        exact Or.inr rfl

/-- `insertChild` preserves strict ascending order. -/
theorem insertChild_chain (n : String) (t : FsTree) :
    ∀ (es : List (String × FsTree)),
      es.Chain' (fun a b => ltS a.1 b.1 = true) →
      (insertChild n t es).Chain' (fun a b => ltS a.1 b.1 = true)
  | [], _ => List.chain'_singleton _
  | (k, u) :: rest, h => by
    rw [insertChild]
    obtain ⟨hhead, htail⟩ := List.chain'_cons'.mp h
    by_cases h1 : ltS n k = true
    · rw [if_pos h1]
      refine List.chain'_cons'.mpr ⟨?_, h⟩
      intro b hb
      obtain rfl : (k, u) = b := by simpa using hb
      exact h1
    · rw [if_neg h1]
      by_cases h2 : n = k
      · rw [if_pos h2]
        refine List.chain'_cons'.mpr ⟨?_, htail⟩
        intro b hb
        have hr := hhead b hb
        rw [← h2] at hr
        exact hr
      · rw [if_neg h2]
        have hkn : ltS k n = true := by
          rcases ltS_connex n k h2 with hc | hc
          · exact absurd hc h1
          · exact hc
        refine List.chain'_cons'.mpr ⟨?_, insertChild_chain n t rest htail⟩
        intro b hb
        rcases insertChild_head n t rest with hh | hh
        · rw [hh] at hb
          obtain rfl : (n, t) = b := by simpa using hb
          exact hkn
        · rw [hh] at hb
          exact hhead b hb

/-- Re-inserting an already present child of a sorted list changes
nothing. -/
theorem insertChild_self (n : String) (t : FsTree) :
    ∀ (es : List (String × FsTree)),
      es.Chain' (fun a b => ltS a.1 b.1 = true) →
      lookupA n es = some t → insertChild n t es = es
  | [], _, h => by cases h
  | (k, u) :: rest, hch, h => by
    rw [lookupA] at h
    rw [insertChild]
    by_cases hk : k = n
    · have hlt : ¬ ltS n k = true := fun hc => by
        rw [hk] at hc
        rw [ltS_irrefl] at hc
        cases hc
      rw [if_neg hlt, if_pos hk.symm]
      obtain rfl : u = t := by
        rw [if_pos hk] at h
        simpa using h
      rw [hk]
    · rw [if_neg hk] at h
      have hmem := lookupA_mem n t rest h
      have hkn : ltS k n = true := by
        haveI : IsTrans (String × FsTree)
            (fun a b : String × FsTree => ltS a.1 b.1 = true) :=
          ⟨fun a b c => ltS_trans a.1 b.1 c.1⟩
        have hp := List.chain'_iff_pairwise.mp hch
        exact (List.pairwise_cons.mp hp).1 (n, t) hmem
      have hnk : ltS n k = false := ltS_asymm k n hkn
      rw [if_neg (by rw [hnk]; exact Bool.false_ne_true),
        if_neg (fun hc => hk hc.symm)]
      rw [insertChild_self n t rest (List.Chain'.tail hch) h]

/-- Inserting a child greater than every present child appends it. -/
theorem insertChild_append (n : String) (t : FsTree) :
    ∀ (es : List (String × FsTree)), (∀ e ∈ es, ltS e.1 n = true) →
      insertChild n t es = es ++ [(n, t)]
  | [], _ => rfl
  | (k, u) :: rest, h => by
    have hk : ltS k n = true := h (k, u) (List.mem_cons_self _ _)
    rw [insertChild]
    rw [if_neg (by rw [ltS_asymm k n hk]; exact Bool.false_ne_true)]
    rw [if_neg (fun hc => by rw [hc] at hk; rw [ltS_irrefl] at hk; cases hk)]
    rw [insertChild_append n t rest (fun e he => h e (List.mem_cons_of_mem _ he))]
    rfl

/-- Members of an `insertChild` result. -/
theorem mem_insertChild (n : String) (t : FsTree) :
    ∀ (es : List (String × FsTree)) (e : String × FsTree),
      e ∈ insertChild n t es → e = (n, t) ∨ e ∈ es
  | [], e, h => by simpa [insertChild] using h
  | (k, u) :: rest, e, h => by
    rw [insertChild] at h
    by_cases h1 : ltS n k = true
    · rw [if_pos h1] at h
      rcases List.mem_cons.mp h with h | h
      · exact Or.inl h
      · exact Or.inr h
    · rw [if_neg h1] at h
      by_cases h2 : n = k
      · rw [if_pos h2] at h
        rcases List.mem_cons.mp h with h | h
        · exact Or.inl h
        · exact Or.inr (List.mem_cons_of_mem _ h)
      · rw [if_neg h2] at h
        rcases List.mem_cons.mp h with h | h
        · exact Or.inr (by rw [h]; exact List.mem_cons_self _ _)
        · rcases mem_insertChild n t rest e h with h | h
          · exact Or.inl h
          · exact Or.inr (List.mem_cons_of_mem _ h)

/-! ### Tree navigation lemmas (C2 round-trip) -/

/-- Replacing a child twice at the same name keeps only the second
replacement. -/
theorem insertChild_insertChild (n : String) (v w : FsTree) :
    ∀ (es : List (String × FsTree)),
      insertChild n v (insertChild n w es) = insertChild n v es
  | [] => by
    show insertChild n v [(n, w)] = [(n, v)]
    rw [insertChild, if_neg (by rw [ltS_irrefl]; exact Bool.false_ne_true),
      if_pos rfl]
  | (k, u) :: rest => by
    by_cases h1 : ltS n k = true
    · rw [show insertChild n w ((k, u) :: rest) = (n, w) :: (k, u) :: rest from
        by rw [insertChild, if_pos h1]]
      rw [show insertChild n v ((n, w) :: (k, u) :: rest) =
          (n, v) :: (k, u) :: rest from by
        rw [insertChild, if_neg (by rw [ltS_irrefl]; exact Bool.false_ne_true),
          if_pos rfl]]
      rw [insertChild, if_pos h1]
    · by_cases h2 : n = k
      · rw [show insertChild n w ((k, u) :: rest) = (n, w) :: rest from
          by rw [insertChild, if_neg h1, if_pos h2]]
        rw [show insertChild n v ((n, w) :: rest) = (n, v) :: rest from by
          rw [insertChild, if_neg (by rw [ltS_irrefl]; exact Bool.false_ne_true),
            if_pos rfl]]
        rw [insertChild, if_neg h1, if_pos h2]
      · rw [show insertChild n w ((k, u) :: rest) =
            (k, u) :: insertChild n w rest from
          by rw [insertChild, if_neg h1, if_neg h2]]
        rw [show insertChild n v ((k, u) :: insertChild n w rest) =
            (k, u) :: insertChild n v (insertChild n w rest) from
          by rw [insertChild, if_neg h1, if_neg h2]]
        rw [insertChild_insertChild n v w rest]
        rw [insertChild, if_neg h1, if_neg h2]

/-- `setNodeT` at the empty path is replacement. -/
theorem setNodeT_nil (T u : FsTree) : setNodeT T [] u = u := by
  simp [setNodeT]

/-- One step of `getNodeT` through an existing child. -/
theorem getNodeT_dir_cons (s : String) (ps : List String)
    (es : List (String × FsTree)) (child : FsTree)
    (hl : lookupA s es = some child) :
    getNodeT (.dir es) (s :: ps) = getNodeT child ps := by
  rw [getNodeT, hl]

/-- One step of `getNodeT` at a missing child. -/
theorem getNodeT_dir_none (s : String) (ps : List String)
    (es : List (String × FsTree)) (hl : lookupA s es = none) :
    getNodeT (.dir es) (s :: ps) = none := by
  rw [getNodeT, hl]

/-- One step of `setNodeT` through an existing child. -/
theorem setNodeT_dir_cons (s : String) (ps : List String)
    (es : List (String × FsTree)) (child : FsTree) (v : FsTree)
    (hl : lookupA s es = some child) :
    setNodeT (.dir es) (s :: ps) v =
      .dir (insertChild s (setNodeT child ps v) es) := by
  rw [setNodeT, hl]

/-- One step of `setNodeT` at a missing child. -/
theorem setNodeT_dir_none (s : String) (ps : List String)
    (es : List (String × FsTree)) (v : FsTree) (hl : lookupA s es = none) :
    setNodeT (.dir es) (s :: ps) v =
      .dir (insertChild s (setNodeT (.dir []) ps v) es) := by
  rw [setNodeT, hl]

/-- The fresh empty directory is free along any path. -/
theorem pathFree_emptyDir : ∀ (ps : List String), pathFree (.dir []) ps = true
  | [] => rfl
  | _ :: _ => rfl

/-- `getNodeT` over a concatenated path. -/
theorem getNodeT_append :
    ∀ (pp qq : List String) (T : FsTree),
      getNodeT T (pp ++ qq) =
        match getNodeT T pp with
        | some u => getNodeT u qq
        | none => none
  | [], qq, T => by simp [getNodeT]
  | s :: ps, qq, T => by
    cases T with
    | file c => rfl
    | dir es =>
      cases hl : lookupA s es with
      | none => simp [getNodeT, hl]
      | some child =>
        simp only [List.cons_append, getNodeT, hl]
        exact getNodeT_append ps qq child

/-- Reading back a `setNodeT` along an unobstructed path. -/
theorem getNodeT_setNodeT :
    ∀ (pp : List String) (T u : FsTree), pathFree T pp = true →
      getNodeT (setNodeT T pp u) pp = some u
  | [], T, u, _ => by simp [setNodeT, getNodeT]
  | s :: ps, T, u, hf => by
    cases T with
    | file c => exact absurd hf (by simp [pathFree])
    | dir es =>
      rw [pathFree] at hf
      rw [setNodeT]
      cases hl : lookupA s es with
      | some child =>
        rw [hl] at hf
        dsimp only at hf
        dsimp only
        simp only [getNodeT, lookupA_insertChild, if_true]
        exact getNodeT_setNodeT ps child u hf
      | none =>
        dsimp only
        simp only [getNodeT, lookupA_insertChild, if_true]
        exact getNodeT_setNodeT ps (.dir []) u (pathFree_emptyDir ps)

/-- Reading the parent after a `setNodeT` one level deeper: the parent's
children gain exactly the inserted child. -/
theorem getNodeT_setNodeT_snoc :
    ∀ (pp : List String) (T : FsTree) (cs : List (String × FsTree)) (m : String)
      (u : FsTree), getNodeT T pp = some (.dir cs) →
      getNodeT (setNodeT T (pp ++ [m]) u) pp = some (.dir (insertChild m u cs))
  | [], T, cs, m, u, hget => by
    obtain rfl : T = .dir cs := by simpa [getNodeT] using hget
    rw [List.nil_append, setNodeT]
    cases hl : lookupA m cs with
    | some child => simp [setNodeT_nil, getNodeT]
    | none => simp [setNodeT_nil, getNodeT]
  | s :: ps, T, cs, m, u, hget => by
    cases T with
    | file c => exact absurd hget (by simp [getNodeT])
    | dir es =>
      rw [getNodeT] at hget
      cases hl : lookupA s es with
      | none =>
        rw [hl] at hget
        cases hget
      | some child =>
        rw [hl] at hget
        dsimp only at hget
        rw [List.cons_append, setNodeT, hl]
        dsimp only
        simp only [getNodeT, lookupA_insertChild, if_true]
        exact getNodeT_setNodeT_snoc ps child cs m u hget

/-- An inner `setNodeT` below `pp` is overwritten by a `setNodeT` at
`pp`. -/
theorem setNodeT_setNodeT :
    ∀ (pp qq : List String) (T u v : FsTree),
      setNodeT (setNodeT T (pp ++ qq) u) pp v = setNodeT T pp v
  | [], qq, T, u, v => by
    rw [setNodeT_nil, setNodeT_nil]
  | s :: ps, qq, T, u, v => by
    cases T with
    | file c => rfl
    | dir es =>
      rw [List.cons_append]
      cases hl : lookupA s es with
      | some child =>
        rw [setNodeT_dir_cons s (ps ++ qq) es child u hl]
        rw [setNodeT_dir_cons s ps _ _ v
          (by rw [lookupA_insertChild, if_pos rfl])]
        rw [setNodeT_setNodeT ps qq child u v]
        rw [insertChild_insertChild]
        rw [setNodeT_dir_cons s ps es child v hl]
      | none =>
        rw [setNodeT_dir_none s (ps ++ qq) es u hl]
        rw [setNodeT_dir_cons s ps _ _ v
          (by rw [lookupA_insertChild, if_pos rfl])]
        rw [setNodeT_setNodeT ps qq (.dir []) u v]
        rw [insertChild_insertChild]
        rw [setNodeT_dir_none s ps es v hl]

/-- Writing back what is read is the identity on valid trees. -/
theorem setNodeT_getNodeT :
    ∀ (pp : List String) (T u : FsTree), TreeValid T →
      getNodeT T pp = some u → setNodeT T pp u = T
  | [], T, u, _, hget => by
    obtain rfl : T = u := by simpa [getNodeT] using hget
    rw [setNodeT_nil]
  | s :: ps, T, u, hv, hget => by
    cases T with
    | file c => exact absurd hget (by simp [getNodeT])
    | dir es =>
      cases hl : lookupA s es with
      | none =>
        rw [getNodeT_dir_none s ps es hl] at hget
        cases hget
      | some child =>
        rw [getNodeT_dir_cons s ps es child hl] at hget
        rw [setNodeT_dir_cons s ps es child u hl]
        cases hv with
        | dir _ hsorted hnm hsub =>
          rw [setNodeT_getNodeT ps child u
            (hsub (s, child) (lookupA_mem s child es hl)) hget]
          rw [insertChild_self s child es hsorted hl]

/-- Validity is preserved by `setNodeT` with a valid subtree along a
validly named path. -/
theorem treeValid_setNodeT :
    ∀ (pp : List String) (T u : FsTree), TreeValid T → TreeValid u →
      (∀ s ∈ pp, ValidName s) → TreeValid (setNodeT T pp u)
  | [], T, u, _, hu, _ => by
    rw [setNodeT_nil]
    exact hu
  | s :: ps, T, u, hT, hu, hnames => by
    cases T with
    | file c =>
      show TreeValid (FsTree.file c)
      exact hT
    | dir es =>
      have hs : ValidName s := hnames s (List.mem_cons_self _ _)
      have hps : ∀ x ∈ ps, ValidName x :=
        fun x hx => hnames x (List.mem_cons_of_mem _ hx)
      cases hT with
      | dir _ hsorted hnm hsub =>
        cases hl : lookupA s es with
        | some child =>
          rw [setNodeT_dir_cons s ps es child u hl]
          refine TreeValid.dir _ (insertChild_chain s _ es hsorted) ?_ ?_
          · intro e he
            rcases mem_insertChild s _ es e he with heq | he'
            · rw [heq]
              exact hs
            · exact hnm e he'
          · intro e he
            rcases mem_insertChild s _ es e he with heq | he'
            · rw [heq]
              exact treeValid_setNodeT ps child u
                (hsub (s, child) (lookupA_mem s child es hl)) hu hps
            · exact hsub e he'
        | none =>
          rw [setNodeT_dir_none s ps es u hl]
          refine TreeValid.dir _ (insertChild_chain s _ es hsorted) ?_ ?_
          · intro e he
            rcases mem_insertChild s _ es e he with heq | he'
            · rw [heq]
              exact hs
            · exact hnm e he'
          · intro e he
            rcases mem_insertChild s _ es e he with heq | he'
            · rw [heq]
              exact treeValid_setNodeT ps (.dir []) u
                (TreeValid.dir [] List.chain'_nil (by simp) (by simp)) hu hps
            · exact hsub e he'

/-- A fresh child name below an existing directory leaves the extended
path unobstructed. -/
theorem pathFree_of_getNodeT :
    ∀ (pp : List String) (T : FsTree) (cs : List (String × FsTree)) (n : String),
      getNodeT T pp = some (.dir cs) → lookupA n cs = none →
      pathFree T (pp ++ [n]) = true
  | [], T, cs, n, hget, hn => by
    obtain rfl : T = .dir cs := by simpa [getNodeT] using hget
    rw [List.nil_append, pathFree, hn]
  | s :: ps, T, cs, n, hget, hn => by
    cases T with
    | file c => exact absurd hget (by simp [getNodeT])
    | dir es =>
      cases hl : lookupA s es with
      | none =>
        rw [getNodeT_dir_none s ps es hl] at hget
        cases hget
      | some child =>
        rw [getNodeT_dir_cons s ps es child hl] at hget
        rw [List.cons_append, pathFree, hl]
        exact pathFree_of_getNodeT ps child cs n hget hn

/-! ### Name-level lemmas for walked archive entries (C2 round-trip) -/

/-- The character data of a two-or-more-field join. -/
theorem joinSep_data_cons (x y : String) (t : List String) :
    (joinSep "/" (x :: y :: t)).data =
      x.data ++ '/' :: (joinSep "/" (y :: t)).data := by
  show (x ++ "/" ++ joinSep "/" (y :: t)).data = _
  show x.data ++ "/".data ++ (joinSep "/" (y :: t)).data = _
  simp

/-- A non-separator character in no field is not in the join. -/
theorem notMem_joinSep (c : Char) (hc : c ≠ '/') :
    ∀ (xs : List String), (∀ x ∈ xs, c ∉ x.data) → c ∉ (joinSep "/" xs).data
  | [], _ => by
    show c ∉ ("" : String).data
    intro h
    rw [show ("" : String).data = [] from rfl] at h
    exact absurd h (List.not_mem_nil c)
  | [x], h => h x (by simp)
  | x :: y :: t, h => by
    rw [joinSep_data_cons]
    intro hmem
    rcases List.mem_append.mp hmem with hm | hm
    · exact h x (by simp) hm
    · rcases List.mem_cons.mp hm with hm | hm
      · exact hc hm
      · exact notMem_joinSep c hc (y :: t)
          (fun z hz => h z (List.mem_cons_of_mem _ hz)) hm

/-- Backslash replacement is the identity on backslash-free strings. -/
theorem backslashToSlash_eq_self (s : String) (h : '\\' ∉ s.data) :
    backslashToSlash s = s := by
  cases s with
  | mk d =>
    show String.mk (d.map _) = String.mk d
    congr 1
    have hpt : ∀ c ∈ d, (if c = '\\' then '/' else c) = c := by
      intro c hcmem
      refine if_neg (fun hcc => h ?_)
      rw [← hcc]
      exact hcmem
    rw [List.map_congr_left hpt]
    simp

/-- A string whose last character is not `/` has no trailing slash. -/
theorem hasSuffixSlash_eq_false_of (s : String) (c : Char) (hc : c ≠ '/')
    (h : s.data.getLast? = some c) : hasSuffixSlash s = false := by
  rw [hasSuffixSlash, h]
  split
  · next heq => exact absurd (by injection heq) hc
  · rfl

/-- Appending `/` gives a trailing slash. -/
theorem hasSuffixSlash_append_slash (s : String) :
    hasSuffixSlash (s ++ "/") = true := by
  rw [hasSuffixSlash]
  rw [show (s ++ "/").data = s.data ++ ['/'] from rfl,
    List.getLast?_append_of_ne_nil s.data (by simp)]
  rfl

/-- Appending `/` is never the empty string. -/
theorem append_slash_ne_empty (s : String) : s ++ "/" ≠ "" := by
  intro hc
  have hd : (s ++ "/").data = ("" : String).data := by rw [hc]
  rw [show (s ++ "/").data = s.data ++ ['/'] from rfl,
    show ("" : String).data = [] from rfl] at hd
  simp at hd

/-- The last character of a join whose final field is non-empty. -/
theorem joinSep_getLast :
    ∀ (segs : List String) (n : String), n.data ≠ [] →
      (joinSep "/" (segs ++ [n])).data.getLast? = n.data.getLast?
  | [], n, _ => rfl
  | x :: rest, n, hn => by
    obtain ⟨y, t, hyt⟩ : ∃ y t, rest ++ [n] = y :: t := by
      cases hr : rest ++ [n] with
      | nil => exact absurd hr (by simp)
      | cons y t => exact ⟨y, t, rfl⟩
    rw [List.cons_append, hyt, joinSep_data_cons]
    rw [List.getLast?_append_of_ne_nil _ (by simp)]
    have hIH := joinSep_getLast rest n hn
    rw [hyt] at hIH
    have hne : (joinSep "/" (y :: t)).data ≠ [] := by
      intro hnil
      rw [hnil] at hIH
      have h0 : n.data.getLast? = none := by
        rw [← hIH]
        rfl
      cases hd : n.data with
      | nil => exact hn hd
      | cons a as =>
        rw [hd] at h0
        simp at h0
    rw [show '/' :: (joinSep "/" (y :: t)).data =
      ['/'] ++ (joinSep "/" (y :: t)).data from rfl]
    rw [List.getLast?_append_of_ne_nil _ hne]
    exact hIH

/-- Cleaning a join of proper separator-free segments is the identity. -/
theorem pathClean_joinSep_proper (segs : List String) (hne : segs ≠ [])
    (hprops : ∀ x ∈ segs, ProperSeg x ∧ NoSlash x) :
    pathClean (joinSep "/" segs) = joinSep "/" segs := by
  obtain ⟨h0, t0, rfl⟩ : ∃ h t, segs = h :: t := by
    cases hc : segs with
    | nil => exact absurd hc hne
    | cons h t => exact ⟨h, t, rfl⟩
  have hh := hprops h0 (List.mem_cons_self h0 t0)
  have hpne : joinSep "/" (h0 :: t0) ≠ "" := joinSep_ne_empty h0 t0 hh.1.1
  have hroot : hasPrefixS (joinSep "/" (h0 :: t0)) "/" = false :=
    hasPrefixS_joinSep_no_slash h0 t0 hh.1.1 hh.2
  rw [pathClean, if_neg hpne]
  dsimp only
  rw [hroot]
  rw [if_neg (by exact Bool.false_ne_true : ¬ (false = true))]
  rw [splitSlash_joinSep (h0 :: t0) (by simp) (fun x hx => (hprops x hx).2)]
  rw [cleanSegs, cleanSegsAux_eq_cleanState,
    cleanState_proper false (h0 :: t0) (fun x hx => (hprops x hx).1) []]
  simp only [List.append_nil, List.reverse_reverse]
  rw [if_neg (by simp : ¬ (h0 :: t0 = []))]

/-- Cleaning a join of proper segments with a trailing separator drops
only the trailing separator. -/
theorem pathClean_joinSep_trailing (segs : List String) (hne : segs ≠ [])
    (hprops : ∀ x ∈ segs, ProperSeg x ∧ NoSlash x) :
    pathClean (joinSep "/" segs ++ "/") = joinSep "/" segs := by
  obtain ⟨h0, t0, rfl⟩ : ∃ h t, segs = h :: t := by
    cases hc : segs with
    | nil => exact absurd hc hne
    | cons h t => exact ⟨h, t, rfl⟩
  have hh := hprops h0 (List.mem_cons_self h0 t0)
  have hjne : joinSep "/" (h0 :: t0) ≠ "" := joinSep_ne_empty h0 t0 hh.1.1
  have hpne : joinSep "/" (h0 :: t0) ++ "/" ≠ "" := append_slash_ne_empty _
  have hroot : hasPrefixS (joinSep "/" (h0 :: t0) ++ "/") "/" = false := by
    rw [hasPrefixS_append_left _ _ hjne]
    exact hasPrefixS_joinSep_no_slash h0 t0 hh.1.1 hh.2
  rw [pathClean, if_neg hpne]
  dsimp only
  rw [hroot]
  rw [if_neg (by exact Bool.false_ne_true : ¬ (false = true))]
  have hsplit : splitSlash (joinSep "/" (h0 :: t0) ++ "/") =
      (h0 :: t0) ++ [""] := by
    have happ : joinSep "/" (h0 :: t0) ++ "/" ++ "" =
        joinSep "/" (h0 :: t0) ++ "/" := by simp
    rw [← happ, splitSlash_append]
    rw [splitSlash_joinSep (h0 :: t0) (by simp) (fun x hx => (hprops x hx).2)]
    rfl
  rw [hsplit]
  rw [cleanSegs, cleanSegsAux_eq_cleanState, cleanState_trailing_empty,
    cleanState_proper false (h0 :: t0) (fun x hx => (hprops x hx).1) []]
  simp only [List.append_nil, List.reverse_reverse]
  rw [if_neg (by simp : ¬ (h0 :: t0 = []))]

/-- A join of proper segments is neither `.` nor `..`. -/
theorem joinSep_proper_ne (segs : List String) (hne : segs ≠ [])
    (hprops : ∀ x ∈ segs, ProperSeg x ∧ NoSlash x) :
    joinSep "/" segs ≠ "." ∧ joinSep "/" segs ≠ ".." := by
  have hsp := splitSlash_joinSep segs hne (fun x hx => (hprops x hx).2)
  constructor
  · intro hc
    rw [hc] at hsp
    have hseg : segs = ["."] := by
      rw [← hsp]
      rfl
    exact (hprops "." (by rw [hseg]; simp)).1.2.1 rfl
  · intro hc
    rw [hc] at hsp
    have hseg : segs = [".."] := by
      rw [← hsp]
      rfl
    exact (hprops ".." (by rw [hseg]; simp)).1.2.2 rfl

/-- `../` cannot prefix a list headed by a proper separator-free name. -/
theorem hasPrefixChars_dotdot_false :
    ∀ (bd : List Char), bd ≠ [] → bd ≠ ['.', '.'] → '/' ∉ bd →
      ∀ (R : List Char), (R = [] ∨ ∃ R', R = '/' :: R') →
      hasPrefixChars ['.', '.', '/'] (bd ++ R) = false
  | [], hne, _, _, _, _ => absurd rfl hne
  | [c1], _, _, hns, R, hR => by
    by_cases hc1 : c1 = '.'
    · subst hc1
      rcases hR with rfl | ⟨R', rfl⟩
      · simp [hasPrefixChars]
      · simp [hasPrefixChars]
    · simp [hasPrefixChars, Ne.symm hc1]
  | [c1, c2], _, hdd, hns, R, hR => by
    by_cases hc1 : c1 = '.'
    · by_cases hc2 : c2 = '.'
      · exact absurd (by rw [hc1, hc2]) hdd
      · subst hc1
        simp [hasPrefixChars, Ne.symm hc2]
    · simp [hasPrefixChars, Ne.symm hc1]
  | c1 :: c2 :: c3 :: t, _, _, hns, R, _ => by
    have hc3 : c3 ≠ '/' := by
      intro hc
      exact hns (by rw [← hc]; simp)
    simp [hasPrefixChars, Ne.symm hc3]

/-- A join of proper separator-free segments does not start with `../`. -/
theorem joinSep_no_dotdot_prefix (h0 : String) (t0 : List String)
    (hprops : ∀ x ∈ h0 :: t0, ProperSeg x ∧ NoSlash x) :
    hasPrefixS (joinSep "/" (h0 :: t0)) "../" = false := by
  have hh := hprops h0 (List.mem_cons_self h0 t0)
  have hbne : h0.data ≠ [] := data_ne_nil_of_ne_empty h0 hh.1.1
  have hbdd : h0.data ≠ ['.', '.'] := by
    intro hc
    refine hh.1.2.2 ?_
    cases h0
    exact congrArg String.mk hc
  have hbns : '/' ∉ h0.data := by
    have hn := hh.2
    rw [NoSlash] at hn
    simpa using hn
  show hasPrefixChars "../".data (joinSep "/" (h0 :: t0)).data = false
  cases t0 with
  | nil =>
    have hres := hasPrefixChars_dotdot_false h0.data hbne hbdd hbns [] (Or.inl rfl)
    rw [List.append_nil] at hres
    exact hres
  | cons y ys =>
    rw [joinSep_data_cons]
    exact hasPrefixChars_dotdot_false h0.data hbne hbdd hbns _ (Or.inr ⟨_, rfl⟩)

/-! ### Routing archive entries written by the walk (C2 round-trip) -/

/-- A valid name decomposes into the path-segment properties. -/
theorem validName_props (s : String) (h : ValidName s) :
    (ProperSeg s ∧ NoSlash s) ∧ '\\' ∉ s.data := by
  obtain ⟨h1, h2, h3, h4, h5⟩ := h
  refine ⟨⟨⟨h1, h2, h3⟩, h4⟩, ?_⟩
  simpa using h5

/-- A non-empty list has a last element. -/
theorem getLast?_of_ne_nil {α : Type} :
    ∀ (l : List α), l ≠ [] → ∃ c, l.getLast? = some c
  | [], h => absurd rfl h
  | [a], _ => ⟨a, rfl⟩
  | a :: b :: t, _ => by
    obtain ⟨c, hc⟩ := getLast?_of_ne_nil (b :: t) (by simp)
    exact ⟨c, by rw [List.getLast?_cons_cons, hc]⟩

/-- A join of validly named segments has no trailing separator. -/
theorem hasSuffixSlash_joinSep_false (segs : List String) (hne : segs ≠ [])
    (hnames : ∀ x ∈ segs, ValidName x) :
    hasSuffixSlash (joinSep "/" segs) = false := by
  rcases List.eq_nil_or_concat segs with rfl | ⟨init, n, rfl⟩
  · exact absurd rfl hne
  · rw [List.concat_eq_append]
    have hnv := hnames n (by simp)
    have hnd : n.data ≠ [] := data_ne_nil_of_ne_empty n hnv.1
    obtain ⟨c, hc⟩ := getLast?_of_ne_nil n.data hnd
    have hcm : c ∈ n.data := List.mem_of_mem_getLast? hc
    have hcne : c ≠ '/' := by
      intro hcc
      have hns := hnv.2.2.2.1
      rw [hcc] at hcm
      have hnot : '/' ∉ n.data := by simpa using hns
      exact hnot hcm
    have hgl : (joinSep "/" (init ++ [n])).data.getLast? = some c := by
      rw [joinSep_getLast init n hnd, hc]
    exact hasSuffixSlash_eq_false_of _ c hcne hgl

/-- `extract` routes a walked file name to its base and relative
segments. -/
theorem routeEntry_walkName (outputs : List (String × String × FsTree))
    (b : String) (rel : List String) (root : String) (tree : FsTree)
    (hnames : ∀ x ∈ b :: rel, ValidName x)
    (hlook : lookupA b outputs = some (root, tree)) :
    routeEntry outputs (joinSep "/" (b :: rel)) =
      .ok (some (b, rel,
        if rel = [] then root else filepathJoin root (joinSep "/" rel))) := by
  have hprops : ∀ x ∈ b :: rel, ProperSeg x ∧ NoSlash x :=
    fun x hx => (validName_props x (hnames x hx)).1
  have hnb : ∀ x ∈ b :: rel, '\\' ∉ x.data :=
    fun x hx => (validName_props x (hnames x hx)).2
  have hb := hprops b (List.mem_cons_self b rel)
  have hne : joinSep "/" (b :: rel) ≠ "" := joinSep_ne_empty b rel hb.1.1
  have hbs : backslashToSlash (joinSep "/" (b :: rel)) = joinSep "/" (b :: rel) :=
    backslashToSlash_eq_self _ (notMem_joinSep '\\' (by decide) _ hnb)
  have hclean : pathClean (joinSep "/" (b :: rel)) = joinSep "/" (b :: rel) :=
    pathClean_joinSep_proper _ (by simp) hprops
  obtain ⟨hnd, hndd⟩ := joinSep_proper_ne (b :: rel) (by simp) hprops
  have hpre1 : hasPrefixS (joinSep "/" (b :: rel)) "../" = false :=
    joinSep_no_dotdot_prefix b rel hprops
  have hpre2 : hasPrefixS (joinSep "/" (b :: rel)) "/" = false :=
    hasPrefixS_joinSep_no_slash b rel hb.1.1 hb.2
  have hsplit : splitSlash (joinSep "/" (b :: rel)) = b :: rel :=
    splitSlash_joinSep _ (by simp) (fun x hx => (hprops x hx).2)
  have hguard : (hasPrefixS (joinSep "/" (b :: rel)) "../" ||
      decide (joinSep "/" (b :: rel) = "..") ||
      hasPrefixS (joinSep "/" (b :: rel)) "/") = false := by
    rw [hpre1, hpre2]
    simp [hndd]
  rw [routeEntry]
  dsimp only
  rw [hbs, if_neg hne, hclean, if_neg hnd]
  rw [if_neg (by rw [hguard]; exact Bool.false_ne_true)]
  rw [hsplit]
  dsimp only
  rw [hlook]

/-- `extract` routes a walked directory name (trailing separator) to its
base and relative segments. -/
theorem routeEntry_walkNameDir (outputs : List (String × String × FsTree))
    (b : String) (rel : List String) (root : String) (tree : FsTree)
    (hnames : ∀ x ∈ b :: rel, ValidName x)
    (hlook : lookupA b outputs = some (root, tree)) :
    routeEntry outputs (joinSep "/" (b :: rel) ++ "/") =
      .ok (some (b, rel,
        if rel = [] then root else filepathJoin root (joinSep "/" rel))) := by
  have hprops : ∀ x ∈ b :: rel, ProperSeg x ∧ NoSlash x :=
    fun x hx => (validName_props x (hnames x hx)).1
  have hnb : ∀ x ∈ b :: rel, '\\' ∉ x.data :=
    fun x hx => (validName_props x (hnames x hx)).2
  have hb := hprops b (List.mem_cons_self b rel)
  have hjne : joinSep "/" (b :: rel) ≠ "" := joinSep_ne_empty b rel hb.1.1
  have hne : joinSep "/" (b :: rel) ++ "/" ≠ "" := append_slash_ne_empty _
  have hbs : backslashToSlash (joinSep "/" (b :: rel) ++ "/") =
      joinSep "/" (b :: rel) ++ "/" := by
    refine backslashToSlash_eq_self _ ?_
    rw [show (joinSep "/" (b :: rel) ++ "/").data =
      (joinSep "/" (b :: rel)).data ++ ['/'] from rfl]
    intro hmem
    rcases List.mem_append.mp hmem with hm | hm
    · exact notMem_joinSep '\\' (by decide) _ hnb hm
    · simp at hm
  have hclean : pathClean (joinSep "/" (b :: rel) ++ "/") =
      joinSep "/" (b :: rel) :=
    pathClean_joinSep_trailing _ (by simp) hprops
  obtain ⟨hnd, hndd⟩ := joinSep_proper_ne (b :: rel) (by simp) hprops
  have hpre1 : hasPrefixS (joinSep "/" (b :: rel)) "../" = false :=
    joinSep_no_dotdot_prefix b rel hprops
  have hpre2 : hasPrefixS (joinSep "/" (b :: rel)) "/" = false :=
    hasPrefixS_joinSep_no_slash b rel hb.1.1 hb.2
  have hsplit : splitSlash (joinSep "/" (b :: rel)) = b :: rel :=
    splitSlash_joinSep _ (by simp) (fun x hx => (hprops x hx).2)
  have hguard : (hasPrefixS (joinSep "/" (b :: rel)) "../" ||
      decide (joinSep "/" (b :: rel) = "..") ||
      hasPrefixS (joinSep "/" (b :: rel)) "/") = false := by
    rw [hpre1, hpre2]
    simp [hndd]
  rw [routeEntry]
  dsimp only
  rw [hbs, if_neg hne, hclean, if_neg hnd]
  rw [if_neg (by rw [hguard]; exact Bool.false_ne_true)]
  rw [hsplit]
  dsimp only
  rw [hlook]

/-- Applying a walked regular-file entry writes the file and stores the
updated tree at its base. -/
theorem applyEntry_file (outputs : List (String × String × FsTree))
    (b : String) (rel : List String) (root : String) (T T' : FsTree)
    (c : List Nat) (hnames : ∀ x ∈ b :: rel, ValidName x) (hrel : rel ≠ [])
    (hlook : lookupA b outputs = some (root, T))
    (hw : writeFileT T rel c = .ok T') :
    applyEntry outputs ⟨joinSep "/" (b :: rel), false, c⟩ =
      .ok (setA b (root, T') outputs) := by
  have hsuf : hasSuffixSlash (joinSep "/" (b :: rel)) = false :=
    hasSuffixSlash_joinSep_false _ (by simp) hnames
  rw [applyEntry]
  dsimp only
  rw [routeEntry_walkName outputs b rel root T hnames hlook]
  dsimp only
  rw [hlook]
  dsimp only
  rw [hsuf]
  rw [if_neg (by simp)]
  rw [if_neg hrel]
  rw [hw]

/-- Applying a walked directory entry creates the directory and stores the
updated tree at its base. -/
theorem applyEntry_dir (outputs : List (String × String × FsTree))
    (b : String) (rel : List String) (root : String) (T T' : FsTree)
    (hnames : ∀ x ∈ b :: rel, ValidName x)
    (hlook : lookupA b outputs = some (root, T))
    (hm : mkdirAllT T rel = .ok T') :
    applyEntry outputs ⟨joinSep "/" (b :: rel) ++ "/", true, []⟩ =
      .ok (setA b (root, T') outputs) := by
  rw [applyEntry]
  dsimp only
  rw [routeEntry_walkNameDir outputs b rel root T hnames hlook]
  dsimp only
  rw [hlook]
  dsimp only
  rw [if_pos (by simp)]
  rw [hm]

/-- `extract`'s entry fold over a concatenation of archives. -/
theorem extractEntries_append :
    ∀ (xs ys : List ZipEntry) (outputs : List (String × String × FsTree)),
      extractEntries outputs (xs ++ ys) =
        match extractEntries outputs xs with
        | .ok outputs' => extractEntries outputs' ys
        | .error err => .error err
  | [], ys, outputs => by simp [extractEntries]
  | e :: es, ys, outputs => by
    rw [List.cons_append, extractEntries, extractEntries]
    cases ha : applyEntry outputs e with
    | error err => rfl
    | ok outputs' =>
      dsimp only
      exact extractEntries_append es ys outputs'

/-! ### Write and mkdir against the model tree (C2 round-trip) -/

/-- `mkdirAllT` at the empty path is the identity. -/
theorem mkdirAllT_nil (T : FsTree) : mkdirAllT T [] = .ok T := by
  simp [mkdirAllT]

/-- Writing a fresh file below an existing directory is `setNodeT`. -/
theorem writeFileT_set :
    ∀ (pp : List String) (T : FsTree) (cs : List (String × FsTree)) (n : String)
      (c : List Nat), getNodeT T pp = some (.dir cs) → lookupA n cs = none →
      writeFileT T (pp ++ [n]) c = .ok (setNodeT T (pp ++ [n]) (.file c))
  | [], T, cs, n, c, hget, hn => by
    obtain rfl : T = .dir cs := by simpa [getNodeT] using hget
    rw [List.nil_append]
    rw [setNodeT_dir_none n [] cs (.file c) hn, setNodeT_nil]
    rw [writeFileT, hn]
  | s :: ps, T, cs, n, c, hget, hn => by
    cases T with
    | file c0 => exact absurd hget (by simp [getNodeT])
    | dir es =>
      cases hl : lookupA s es with
      | none =>
        rw [getNodeT_dir_none s ps es hl] at hget
        cases hget
      | some child =>
        rw [getNodeT_dir_cons s ps es child hl] at hget
        obtain ⟨es', rfl⟩ : ∃ es', child = .dir es' := by
          cases child with
          | dir es' => exact ⟨es', rfl⟩
          | file c0 =>
            cases ps with
            | nil => simp [getNodeT] at hget
            | cons p ps' => simp [getNodeT] at hget
        obtain ⟨q, qs, hq⟩ : ∃ q qs, ps ++ [n] = q :: qs := by
          cases hps : ps ++ [n] with
          | nil => exact absurd hps (by simp)
          | cons q qs => exact ⟨q, qs, rfl⟩
        rw [List.cons_append, hq, writeFileT, hl, ← hq]
        dsimp only
        rw [writeFileT_set ps (.dir es') cs n c hget hn]
        rw [setNodeT_dir_cons s (ps ++ [n]) es (.dir es') (.file c) hl]
        simp

/-- Creating a fresh directory below an existing directory is
`setNodeT` with an empty directory. -/
theorem mkdirAllT_set :
    ∀ (pp : List String) (T : FsTree) (cs : List (String × FsTree)) (n : String),
      getNodeT T pp = some (.dir cs) → lookupA n cs = none →
      mkdirAllT T (pp ++ [n]) = .ok (setNodeT T (pp ++ [n]) (.dir []))
  | [], T, cs, n, hget, hn => by
    obtain rfl : T = .dir cs := by simpa [getNodeT] using hget
    rw [List.nil_append]
    rw [setNodeT_dir_none n [] cs (.dir []) hn, setNodeT_nil]
    rw [mkdirAllT, hn]
    rfl
  | s :: ps, T, cs, n, hget, hn => by
    cases T with
    | file c0 => exact absurd hget (by simp [getNodeT])
    | dir es =>
      cases hl : lookupA s es with
      | none =>
        rw [getNodeT_dir_none s ps es hl] at hget
        cases hget
      | some child =>
        rw [getNodeT_dir_cons s ps es child hl] at hget
        obtain ⟨es', rfl⟩ : ∃ es', child = .dir es' := by
          cases child with
          | dir es' => exact ⟨es', rfl⟩
          | file c0 =>
            cases ps with
            | nil => simp [getNodeT] at hget
            | cons p ps' => simp [getNodeT] at hget
        rw [List.cons_append, mkdirAllT, hl]
        dsimp only
        rw [mkdirAllT_set ps (.dir es') cs n hget hn]
        rw [setNodeT_dir_cons s (ps ++ [n]) es (.dir es') (.dir []) hl]

/-- Overwriting the same key twice keeps the second value only. -/
theorem setA_setA {α : Type} (k : String) (v w : α) :
    ∀ (l : List (String × α)), setA k v (setA k w l) = setA k v l
  | [] => by simp [setA]
  | (k', v') :: rest => by
    rw [setA]
    by_cases hk : k' = k
    · rw [if_pos hk]
      rw [setA, if_pos rfl, setA, if_pos hk]
    · rw [if_neg hk]
      rw [setA, if_neg hk, setA, if_neg hk, setA_setA k v w rest]

/-- Step the entry fold through one accepted entry. -/
theorem extractEntries_cons_ok (e : ZipEntry) (es : List ZipEntry)
    (outputs mid : List (String × String × FsTree))
    (ha : applyEntry outputs e = .ok mid) :
    extractEntries outputs (e :: es) = extractEntries mid es := by
  rw [extractEntries, ha]

/-- Step the entry fold through an accepted prefix. -/
theorem extractEntries_append_ok (xs ys : List ZipEntry)
    (outputs mid : List (String × String × FsTree))
    (hx : extractEntries outputs xs = .ok mid) :
    extractEntries outputs (xs ++ ys) = extractEntries mid ys := by
  rw [extractEntries_append, hx]

mutual

/-- Extracting the walk of one subtree `t` rooted at `pp ++ [n]` under
base `b` installs exactly `t` there. -/
theorem extract_walk_core :
    ∀ (t : FsTree) (store : List (String × String × FsTree)) (b root : String)
      (T : FsTree) (pp : List String) (cs : List (String × FsTree)) (n : String),
      TreeValid t → TreeValid T →
      (∀ x ∈ b :: pp, ValidName x) → ValidName n →
      lookupA b store = some (root, T) →
      getNodeT T pp = some (.dir cs) →
      lookupA n cs = none →
      extractEntries store (walkEntries (b :: (pp ++ [n])) t) =
        .ok (setA b (root, setNodeT T (pp ++ [n]) t) store)
  | .file c, store, b, root, T, pp, cs, n, _, _, hbpp, hnv, hlook, hget, hn => by
    have hnames : ∀ x ∈ b :: (pp ++ [n]), ValidName x := by
      intro x hx
      rcases List.mem_cons.mp hx with rfl | hx
      · exact hbpp x (List.mem_cons_self _ _)
      · rcases List.mem_append.mp hx with hx | hx
        · exact hbpp x (List.mem_cons_of_mem _ hx)
        · rw [List.mem_singleton.mp hx]
          exact hnv
    rw [walkEntries]
    rw [extractEntries_cons_ok _ [] store _
      (applyEntry_file store b (pp ++ [n]) root T
        (setNodeT T (pp ++ [n]) (.file c)) c hnames (by simp) hlook
        (writeFileT_set pp T cs n c hget hn))]
    rfl
  | .dir es0, store, b, root, T, pp, cs, n, hvt, hvT, hbpp, hnv, hlook, hget,
      hn => by
    have hnames : ∀ x ∈ b :: (pp ++ [n]), ValidName x := by
      intro x hx
      rcases List.mem_cons.mp hx with rfl | hx
      · exact hbpp x (List.mem_cons_self _ _)
      · rcases List.mem_append.mp hx with hx | hx
        · exact hbpp x (List.mem_cons_of_mem _ hx)
        · rw [List.mem_singleton.mp hx]
          exact hnv
    have hppm : ∀ x ∈ pp ++ [n], ValidName x := by
      intro x hx
      exact hnames x (List.mem_cons_of_mem _ hx)
    have hvT2 : TreeValid (setNodeT T (pp ++ [n]) (.dir [])) :=
      treeValid_setNodeT (pp ++ [n]) T (.dir []) hvT
        (TreeValid.dir [] List.chain'_nil (by simp) (by simp)) hppm
    have hget2 : getNodeT (setNodeT T (pp ++ [n]) (.dir [])) (pp ++ [n]) =
        some (.dir []) :=
      getNodeT_setNodeT (pp ++ [n]) T (.dir [])
        (pathFree_of_getNodeT pp T cs n hget hn)
    obtain ⟨hsorted, hnm, hsub⟩ :
        es0.Chain' (fun a b => ltS a.1 b.1 = true) ∧
        (∀ e ∈ es0, ValidName e.1) ∧ (∀ e ∈ es0, TreeValid e.2) := by
      cases hvt with
      | dir _ hsorted hnm hsub => exact ⟨hsorted, hnm, hsub⟩
    have hpairwise : es0.Pairwise (fun a b => ltS a.1 b.1 = true) := by
      haveI : IsTrans (String × FsTree)
          (fun a b : String × FsTree => ltS a.1 b.1 = true) :=
        ⟨fun a b c => ltS_trans a.1 b.1 c.1⟩
      exact List.chain'_iff_pairwise.mp hsorted
    rw [walkEntries]
    rw [extractEntries_cons_ok _ (walkEntriesList (b :: (pp ++ [n])) es0)
      store _
      (applyEntry_dir store b (pp ++ [n]) root T
        (setNodeT T (pp ++ [n]) (.dir [])) hnames hlook
        (mkdirAllT_set pp T cs n hget hn))]
    rw [extract_walk_coreList es0
      (setA b (root, setNodeT T (pp ++ [n]) (.dir [])) store) b root
      (setNodeT T (pp ++ [n]) (.dir [])) (pp ++ [n]) [] hvT2 hsub hnm
      hpairwise hnames (lookupA_setA b _ store) hget2 (by simp)]
    rw [List.nil_append]
    rw [show setNodeT T (pp ++ [n]) (.dir []) =
      setNodeT T ((pp ++ [n]) ++ []) (.dir []) from by rw [List.append_nil]]
    rw [setNodeT_setNodeT (pp ++ [n]) [] T (.dir []) (.dir es0)]
    rw [setA_setA]
  termination_by t => sizeOf t

/-- Extracting the walks of a directory's children in ascending order
appends them to the children already present. -/
theorem extract_walk_coreList :
    ∀ (es' : List (String × FsTree)) (store : List (String × String × FsTree))
      (b root : String) (T : FsTree) (pp : List String)
      (cs : List (String × FsTree)),
      TreeValid T →
      (∀ e ∈ es', TreeValid e.2) →
      (∀ e ∈ es', ValidName e.1) →
      es'.Pairwise (fun a b => ltS a.1 b.1 = true) →
      (∀ x ∈ b :: pp, ValidName x) →
      lookupA b store = some (root, T) →
      getNodeT T pp = some (.dir cs) →
      (∀ e ∈ cs, ∀ e' ∈ es', ltS e.1 e'.1 = true) →
      extractEntries store (walkEntriesList (b :: pp) es') =
        .ok (setA b (root, setNodeT T pp (.dir (cs ++ es'))) store)
  | [], store, b, root, T, pp, cs, hvT, _, _, _, _, hlook, hget, _ => by
    rw [walkEntriesList]
    rw [List.append_nil, setNodeT_getNodeT pp T (.dir cs) hvT hget]
    rw [setA_self b (root, T) store hlook]
    rfl
  | (m, u) :: rest, store, b, root, T, pp, cs, hvT, htrees, hnames, hpair,
      hbpp, hlook, hget, hgt => by
    have hvu : TreeValid u := htrees (m, u) (List.mem_cons_self _ _)
    have hnamesm : ValidName m := hnames (m, u) (List.mem_cons_self _ _)
    have hcsm : ∀ e ∈ cs, ltS e.1 m = true :=
      fun e he => hgt e he (m, u) (List.mem_cons_self _ _)
    have hfresh : lookupA m cs = none := by
      refine lookupA_none m cs ?_
      intro e he hem
      have hlt := hcsm e he
      rw [hem] at hlt
      rw [ltS_irrefl] at hlt
      cases hlt
    have hppm : ∀ x ∈ pp ++ [m], ValidName x := by
      intro x hx
      rcases List.mem_append.mp hx with hx | hx
      · exact hbpp x (List.mem_cons_of_mem _ hx)
      · rw [List.mem_singleton.mp hx]
        exact hnamesm
    have hvT1 : TreeValid (setNodeT T (pp ++ [m]) u) :=
      treeValid_setNodeT (pp ++ [m]) T u hvT hvu hppm
    have hget1 : getNodeT (setNodeT T (pp ++ [m]) u) pp =
        some (.dir (cs ++ [(m, u)])) := by
      rw [getNodeT_setNodeT_snoc pp T cs m u hget]
      rw [insertChild_append m u cs hcsm]
    obtain ⟨hmrest, hpairrest⟩ := List.pairwise_cons.mp hpair
    have hgt1 : ∀ e ∈ cs ++ [(m, u)], ∀ e' ∈ rest, ltS e.1 e'.1 = true := by
      intro e he e' he'
      rcases List.mem_append.mp he with he | he
      · exact hgt e he e' (List.mem_cons_of_mem _ he')
      · rw [List.mem_singleton.mp he]
        exact hmrest e' he'
    rw [walkEntriesList, List.cons_append]
    rw [extractEntries_append_ok _ (walkEntriesList (b :: pp) rest) store _
      (extract_walk_core u store b root T pp cs m hvu hvT hbpp hnamesm hlook
        hget hfresh)]
    rw [extract_walk_coreList rest
      (setA b (root, setNodeT T (pp ++ [m]) u) store) b root
      (setNodeT T (pp ++ [m]) u) pp (cs ++ [(m, u)]) hvT1
      (fun e he => htrees e (List.mem_cons_of_mem _ he))
      (fun e he => hnames e (List.mem_cons_of_mem _ he))
      hpairrest hbpp (lookupA_setA b _ store) hget1 hgt1]
    rw [setNodeT_setNodeT pp [m] T u (.dir ((cs ++ [(m, u)]) ++ rest))]
    rw [setA_setA]
    rw [List.append_assoc]
    rw [List.singleton_append]
  termination_by es' => sizeOf es'

end

/-- Extracting the full walk of one output directory installs its tree at
its freshly prepared base. -/
theorem extract_walk_output (store : List (String × String × FsTree))
    (b root : String) (es0 : List (String × FsTree))
    (hvt : TreeValid (.dir es0)) (hb : ValidName b)
    (hlook : lookupA b store = some (root, .dir [])) :
    extractEntries store (walkEntries [b] (.dir es0)) =
      .ok (setA b (root, .dir es0) store) := by
  have hbl : ∀ x ∈ ([b] : List String), ValidName x := by
    intro x hx
    rcases List.mem_cons.mp hx with rfl | hx
    · exact hb
    · simp at hx
  obtain ⟨hsorted, hnm, hsub⟩ :
      es0.Chain' (fun a b => ltS a.1 b.1 = true) ∧
      (∀ e ∈ es0, ValidName e.1) ∧ (∀ e ∈ es0, TreeValid e.2) := by
    cases hvt with
    | dir _ hsorted hnm hsub => exact ⟨hsorted, hnm, hsub⟩
  have hpairwise : es0.Pairwise (fun a b => ltS a.1 b.1 = true) := by
    haveI : IsTrans (String × FsTree)
        (fun a b : String × FsTree => ltS a.1 b.1 = true) :=
      ⟨fun a b c => ltS_trans a.1 b.1 c.1⟩
    exact List.chain'_iff_pairwise.mp hsorted
  rw [walkEntries]
  rw [extractEntries_cons_ok _ (walkEntriesList [b] es0) store _
    (applyEntry_dir store b [] root (.dir []) (.dir []) hbl hlook
      (mkdirAllT_nil _))]
  rw [extract_walk_coreList es0 (setA b (root, .dir []) store) b root (.dir [])
    [] [] (TreeValid.dir [] List.chain'_nil (by simp) (by simp)) hsub hnm
    hpairwise hbl (lookupA_setA b _ store) (by rfl) (by simp)]
  rw [setNodeT_nil, List.nil_append, setA_setA]

/-- `compress`'s per-output loop: with directories, valid distinct bases,
the result is the concatenation of the walks. -/
theorem compressEntries_ok :
    ∀ (outs : List (String × FsTree)) (seen : List String),
      (∀ o ∈ outs, o.2.isDir = true) →
      (∀ o ∈ outs, ¬(filepathBase (pathClean o.1) = "." ∨
        filepathBase (pathClean o.1) = "/")) →
      (∀ o ∈ outs, filepathBase (pathClean o.1) ∉ seen) →
      ((outs.map (fun o => filepathBase (pathClean o.1))).Nodup) →
      compressEntries (outs.map (fun o => (o.1, some o.2))) seen =
        .ok ((outs.map
          (fun o => walkEntries [filepathBase (pathClean o.1)] o.2)).flatten)
  | [], seen, _, _, _, _ => by simp [compressEntries]
  | (p, t) :: rest, seen, hdir, hbase, hseen, hnodup => by
    rw [List.map_cons, compressEntries]
    dsimp only
    rw [show (!t.isDir) = false from by
      rw [hdir (p, t) (List.mem_cons_self _ _)]
      rfl]
    rw [if_neg (by simp : ¬ (false = true))]
    rw [if_neg (hbase (p, t) (List.mem_cons_self _ _))]
    rw [show seen.contains (filepathBase (pathClean p)) = false from by
      have hns := hseen (p, t) (List.mem_cons_self _ _)
      simpa using hns]
    rw [if_neg (by simp : ¬ (false = true))]
    have hnodup2 : (filepathBase (pathClean p) ::
        rest.map (fun o => filepathBase (pathClean o.1))).Nodup := by
      rw [List.map_cons] at hnodup
      exact hnodup
    have hnodup' := List.nodup_cons.mp hnodup2
    rw [compressEntries_ok rest (filepathBase (pathClean p) :: seen)
      (fun o ho => hdir o (List.mem_cons_of_mem _ ho))
      (fun o ho => hbase o (List.mem_cons_of_mem _ ho))
      (by
        intro o ho hmem
        rcases List.mem_cons.mp hmem with hm | hm
        · refine hnodup'.1 ?_
          rw [← hm]
          exact List.mem_map_of_mem _ ho
        · exact hseen o (List.mem_cons_of_mem _ ho) hm)
      hnodup'.2]
    rw [List.map_cons, List.flatten_cons]

/-- `extract`'s target preparation: with valid distinct bases the prepared
map lists each cleaned output against an empty tree. -/
theorem prepareOutputs_ok :
    ∀ (outs : List String) (acc : List (String × String × FsTree)),
      (∀ p ∈ outs, ¬(filepathBase (pathClean p) = "." ∨
        filepathBase (pathClean p) = "/")) →
      (∀ p ∈ outs, lookupA (filepathBase (pathClean p)) acc = none) →
      ((outs.map (fun p => filepathBase (pathClean p))).Nodup) →
      prepareOutputs outs acc =
        .ok (acc ++ outs.map
          (fun p => (filepathBase (pathClean p), pathClean p, FsTree.dir [])))
  | [], acc, _, _, _ => by simp [prepareOutputs]
  | p :: rest, acc, hbase, hacc, hnodup => by
    rw [prepareOutputs]
    rw [if_neg (hbase p (List.mem_cons_self _ _))]
    rw [show (lookupA (filepathBase (pathClean p)) acc).isSome = false from by
      rw [hacc p (List.mem_cons_self _ _)]
      rfl]
    rw [if_neg (by simp : ¬ (false = true))]
    have hnodup2 : (filepathBase (pathClean p) ::
        rest.map (fun q => filepathBase (pathClean q))).Nodup := by
      rw [List.map_cons] at hnodup
      exact hnodup
    have hnodup' := List.nodup_cons.mp hnodup2
    rw [prepareOutputs_ok rest
      (acc ++ [(filepathBase (pathClean p), pathClean p, FsTree.dir [])])
      (fun q hq => hbase q (List.mem_cons_of_mem _ hq))
      (by
        intro q hq
        rw [lookupA_append, hacc q (List.mem_cons_of_mem _ hq)]
        dsimp only
        rw [lookupA]
        rw [if_neg (fun hc : filepathBase (pathClean p) =
            filepathBase (pathClean q) => hnodup'.1
          (by rw [hc]; exact List.mem_map_of_mem _ hq))]
        rfl)
      hnodup'.2]
    rw [List.map_cons, List.append_assoc, List.singleton_append]

/-- Looking up one output's base in the keyed image of the output list. -/
theorem lookupA_map_outputs (f : (String × FsTree) → String)
    (v : (String × FsTree) → String × FsTree) :
    ∀ (outs : List (String × FsTree)) (o : String × FsTree), o ∈ outs →
      (outs.map f).Nodup →
      lookupA (f o) (outs.map (fun q => (f q, v q))) = some (v o)
  | [], o, ho, _ => absurd ho (List.not_mem_nil o)
  | o0 :: rest, o, ho, hnd => by
    have hnd2 : (f o0 :: rest.map f).Nodup := by
      rw [List.map_cons] at hnd
      exact hnd
    have hnd' := List.nodup_cons.mp hnd2
    rw [List.map_cons, lookupA]
    rcases List.mem_cons.mp ho with rfl | ho
    · rw [if_pos rfl]
    · rw [if_neg (fun hc : f o0 = f o => hnd'.1
        (by rw [hc]; exact List.mem_map_of_mem f ho))]
      exact lookupA_map_outputs f v rest o ho hnd'.2

/-- Extracting the concatenated walks of all outputs installs every
output's tree at its base and touches nothing else. -/
theorem extract_entries_multi :
    ∀ (outs : List (String × FsTree)) (store : List (String × String × FsTree)),
      (∀ o ∈ outs, TreeValid o.2) →
      (∀ o ∈ outs, ∃ es0, o.2 = FsTree.dir es0) →
      (∀ o ∈ outs, ValidName (filepathBase (pathClean o.1))) →
      ((outs.map (fun o => filepathBase (pathClean o.1))).Nodup) →
      (∀ o ∈ outs, lookupA (filepathBase (pathClean o.1)) store =
        some (pathClean o.1, FsTree.dir [])) →
      ∃ final,
        extractEntries store
          ((outs.map
            (fun o => walkEntries [filepathBase (pathClean o.1)] o.2)).flatten) =
          .ok final ∧
        (∀ o ∈ outs, lookupA (filepathBase (pathClean o.1)) final =
          some (pathClean o.1, o.2)) ∧
        (∀ k, (∀ o ∈ outs, k ≠ filepathBase (pathClean o.1)) →
          lookupA k final = lookupA k store)
  | [], store, _, _, _, _, _ => by
    refine ⟨store, by simp [extractEntries], by simp, fun k _ => rfl⟩
  | (p, t) :: rest, store, hvalid, hdir, hbases, hnodup, hstore => by
    obtain ⟨es0, rfl⟩ : ∃ es0, t = FsTree.dir es0 := by
      obtain ⟨es0, h⟩ := hdir (p, t) (List.mem_cons_self _ _)
      exact ⟨es0, h⟩
    have hnd2 : (filepathBase (pathClean p) ::
        rest.map (fun o => filepathBase (pathClean o.1))).Nodup := by
      rw [List.map_cons] at hnodup
      exact hnodup
    have hnd' := List.nodup_cons.mp hnd2
    have hout := extract_walk_output store (filepathBase (pathClean p))
      (pathClean p) es0 (hvalid (p, .dir es0) (List.mem_cons_self _ _))
      (hbases (p, .dir es0) (List.mem_cons_self _ _))
      (hstore (p, .dir es0) (List.mem_cons_self _ _))
    have hstore1 : ∀ o ∈ rest, lookupA (filepathBase (pathClean o.1))
        (setA (filepathBase (pathClean p))
          (pathClean p, FsTree.dir es0) store) =
        some (pathClean o.1, FsTree.dir []) := by
      intro o ho
      rw [lookupA_setA_ne _ _ (fun hc : filepathBase (pathClean o.1) =
          filepathBase (pathClean p) => hnd'.1
        (by rw [← hc]; exact List.mem_map_of_mem _ ho)) _ store]
      exact hstore o (List.mem_cons_of_mem _ ho)
    obtain ⟨final, hfin, hfound, hframe⟩ := extract_entries_multi rest
      (setA (filepathBase (pathClean p)) (pathClean p, FsTree.dir es0) store)
      (fun o ho => hvalid o (List.mem_cons_of_mem _ ho))
      (fun o ho => hdir o (List.mem_cons_of_mem _ ho))
      (fun o ho => hbases o (List.mem_cons_of_mem _ ho))
      hnd'.2 hstore1
    refine ⟨final, ?_, ?_, ?_⟩
    · rw [List.map_cons, List.flatten_cons]
      rw [extractEntries_append_ok _ _ store _ hout]
      exact hfin
    · intro o ho
      rcases List.mem_cons.mp ho with rfl | ho
      · show lookupA (filepathBase (pathClean p)) final =
          some (pathClean p, FsTree.dir es0)
        rw [hframe (filepathBase (pathClean p))
          (fun o' ho' hc => hnd'.1
            (by rw [hc]; exact List.mem_map_of_mem _ ho'))]
        exact lookupA_setA _ _ store
      · exact hfound o ho
    · intro k hk
      rw [hframe k (fun o ho => hk o (List.mem_cons_of_mem _ ho))]
      exact lookupA_setA_ne _ _
        (fun hc => hk (p, .dir es0) (List.mem_cons_self _ _) hc) _ store

/-- C2, counterexample: the single output `dist` holding one POSIX-legal
file named `a\b` compresses to an archive whose extraction rewrites the
backslash to a separator: the round-trip yields a directory `a` with a
file `b` instead of the original file `a\b` — not byte-identical. -/
theorem c2_counterexample :
    compressModel [("dist", some c2BadTree)] =
      .ok [⟨"dist/", true, []⟩, ⟨"dist/a\\b", false, [104, 105]⟩] ∧
    extractModel [⟨"dist/", true, []⟩, ⟨"dist/a\\b", false, [104, 105]⟩]
        ["dist"] = .ok [("dist", "dist", c2BadResult)] ∧
    c2BadResult ≠ c2BadTree := by
  refine ⟨by rfl, by rfl, ?_⟩
  intro h
  simp only [c2BadResult, c2BadTree] at h
  have h2 : [("a", FsTree.dir [("b", FsTree.file [104, 105])])] =
      [("a\\b", FsTree.file [104, 105])] := by injection h
  have h3 : ("a", FsTree.dir [("b", FsTree.file [104, 105])]) =
      ("a\\b", FsTree.file [104, 105]) := by injection h2
  have h4 : "a" = "a\\b" := congrArg Prod.fst h3
  exact absurd h4 (by decide)

/-- C2: the archiver round-trip, restricted to separator-free names. For
every non-empty output set of directories with canonical valid trees
(child names non-empty, not `.`/`..`, free of `/` AND `\`, children
strictly sorted) whose cleaned output paths have valid pairwise-distinct
base names, compressing and then extracting into freshly prepared targets
reproduces every output tree byte-identically at its cleaned root. (The
separator-freedom restriction is necessary: see the counterexample.) -/
theorem c2_roundtrip (outputs : List (String × FsTree))
    (hne : outputs ≠ [])
    (hdir : ∀ o ∈ outputs, ∃ es0, o.2 = FsTree.dir es0)
    (hvalid : ∀ o ∈ outputs, TreeValid o.2)
    (hbases : ∀ o ∈ outputs, ValidName (filepathBase (pathClean o.1)))
    (hnodup : (outputs.map (fun o => filepathBase (pathClean o.1))).Nodup) :
    ∃ entries result,
      compressModel (outputs.map (fun o => (o.1, some o.2))) = .ok entries ∧
      extractModel entries (outputs.map Prod.fst) = .ok result ∧
      ∀ o ∈ outputs, lookupA (filepathBase (pathClean o.1)) result =
        some (pathClean o.1, o.2) := by
  have hdir' : ∀ o ∈ outputs, o.2.isDir = true := by
    intro o ho
    obtain ⟨es0, he⟩ := hdir o ho
    rw [he]
    rfl
  have hbok : ∀ o ∈ outputs, ¬(filepathBase (pathClean o.1) = "." ∨
      filepathBase (pathClean o.1) = "/") := by
    intro o ho hc
    obtain ⟨h1, h2, h3, h4, h5⟩ := hbases o ho
    rcases hc with hc | hc
    · exact h2 hc
    · rw [hc] at h4
      exact absurd h4 (by decide)
  obtain ⟨o0, rest, rfl⟩ : ∃ o0 rest, outputs = o0 :: rest := by
    cases hc : outputs with
    | nil => exact absurd hc hne
    | cons o0 rest => exact ⟨o0, rest, rfl⟩
  have hcomp : compressModel ((o0 :: rest).map (fun o => (o.1, some o.2))) =
      .ok (((o0 :: rest).map
        (fun o => walkEntries [filepathBase (pathClean o.1)] o.2)).flatten) := by
    rw [List.map_cons, compressModel]
    have hok := compressEntries_ok (o0 :: rest) [] hdir' hbok (by simp) hnodup
    rw [List.map_cons] at hok
    exact hok
  have hprep : prepareOutputs ((o0 :: rest).map Prod.fst) [] =
      .ok ([] ++ ((o0 :: rest).map Prod.fst).map
        (fun p => (filepathBase (pathClean p), pathClean p, FsTree.dir []))) := by
    refine prepareOutputs_ok _ [] ?_ (fun p _ => rfl) ?_
    · intro p hp
      obtain ⟨o, ho, rfl⟩ := List.mem_map.mp hp
      exact hbok o ho
    · rw [List.map_map]
      exact hnodup
  have hstore : ∀ o ∈ o0 :: rest,
      lookupA (filepathBase (pathClean o.1))
        ([] ++ ((o0 :: rest).map Prod.fst).map
          (fun p => (filepathBase (pathClean p), pathClean p, FsTree.dir []))) =
      some (pathClean o.1, FsTree.dir []) := by
    intro o ho
    rw [List.nil_append, List.map_map]
    exact lookupA_map_outputs (fun o => filepathBase (pathClean o.1))
      (fun o => (pathClean o.1, FsTree.dir [])) (o0 :: rest) o ho hnodup
  obtain ⟨final, hfin, hfound, -⟩ := extract_entries_multi (o0 :: rest)
    ([] ++ ((o0 :: rest).map Prod.fst).map
      (fun p => (filepathBase (pathClean p), pathClean p, FsTree.dir [])))
    hvalid hdir hbases hnodup hstore
  refine ⟨_, final, hcomp, ?_, hfound⟩
  rw [extractModel]
  rw [if_neg (by simp : ¬ ((o0 :: rest).map Prod.fst = []))]
  rw [hprep]
  dsimp only
  exact hfin

/-- C2 witness: the round-trip theorem applied to the single output
`dist` holding the file `a` with contents `[104]`. -/
theorem c2_roundtrip_witness :
    ∃ entries result,
      compressModel [("dist", some (FsTree.dir [("a", FsTree.file [104])]))] =
        .ok entries ∧
      extractModel entries ["dist"] = .ok result ∧
      ∀ o ∈ [("dist", FsTree.dir [("a", FsTree.file [104])])],
        lookupA (filepathBase (pathClean o.1)) result =
          some (pathClean o.1, o.2) :=
  c2_roundtrip [("dist", FsTree.dir [("a", FsTree.file [104])])]
    (by simp)
    (by
      intro o ho
      rw [List.mem_singleton.mp ho]
      exact ⟨[("a", FsTree.file [104])], rfl⟩)
    (by
      intro o ho
      rw [List.mem_singleton.mp ho]
      refine TreeValid.dir _ (List.chain'_singleton _) ?_ ?_
      · intro e he
        rw [List.mem_singleton.mp he]
        show ValidName "a"
        refine ⟨by decide, by decide, by decide, by decide, by decide⟩
      · intro e he
        rw [List.mem_singleton.mp he]
        exact TreeValid.file _)
    (by
      intro o ho
      rw [List.mem_singleton.mp ho]
      show ValidName (filepathBase (pathClean "dist"))
      refine ⟨by decide, by decide, by decide, by decide, by decide⟩)
    (by simp)

end VelocityCache
